import Mathlib

/-!
# API aggregator: transformer, merger and endpoint handler

A shallow embedding of the request-time core of the aggregator
(`internal/transformer/transformer.go`, `internal/merger/merger.go`,
`internal/server/aggregation.go`, `internal/server/middlewares.go`,
`internal/client/client.go`, `internal/config/config.go`,
`cmd/api-aggregator/reloadable_server.go`) and theorems about it.

## Modelling conventions

* A decoded value (Go `interface{}` produced by the JSON/YAML/XML decoders) is
  the inductive type `Value`.  Go's `nil` is `Value.null`.  Numeric scalars are
  opaque payload for the code modelled here and are represented by an `Int`.
* A Go `map[string]interface{}` is an association list `Fields` whose keys are
  pairwise distinct (predicate `NodupKeys`, hereditary version `Value.wf`).
  `mapGet`, `mapSet` and `mapDelete` are the three primitive map operations
  (`v, ok := m[k]`, `m[k] = v`, `delete(m, k)`).  A `range` loop over a map is a
  left fold over the association list.
* Go mutates maps in place; the embedding passes the map explicitly and returns
  the updated map.  A nested map that the code mutates through a reference held
  by its parent is rebuilt and stored back under the same key.  Values are
  immutable trees here: that one map object can be reachable along two paths
  (a step copies references, not maps) is not represented, except in the
  section on map objects (`HValue`, `Heap`), where a mapping is a reference to
  a map object and `SetNestedField` writes into the objects it walks.
* The `mapping` directive (`map[string]string`) is an association list; the
  list order stands for the iteration order Go happens to choose.
* The tracer spans opened by `Transform` and `Merge` have no effect on the
  returned values and are left out.
* The inbound header set (`http.Header`) is an association list from a header
  name to the list of its values, with pairwise distinct names; the library
  function `strings.ToLower` is a parameter of `processHeaders`, and
  `textproto.CanonicalMIMEHeaderKey` a parameter of the request construction.
* Byte strings are lists of natural numbers, `time.Duration` values are
  integers (nanoseconds), Go errors built with `fmt.Errorf` are values of an
  inductive type that keeps what the message is formatted from.
* A path-parameter map is an association list whose order stands for the
  iteration order Go happens to choose.
-/

namespace ApiAggregator

/-! ## Decoded values and Go maps -/

/-- Dynamic value produced by decoding a backend body. -/
inductive Value where
  | null
  | bool (b : Bool)
  | num (n : Int)
  | str (s : String)
  | arr (items : List Value)
  | obj (fields : List (String × Value))

/-- Association-list representation of `map[string]interface{}`. -/
abbrev Fields := List (String × Value)

/-- The test `v == nil` on an interface value. -/
def Value.isNull : Value → Bool
  | .null => true
  | _ => false

/-- The comma-ok type assertion `v.(map[string]interface{})` succeeds. -/
def Value.isObj : Value → Bool
  | .obj _ => true
  | _ => false

/-- The comma-ok type assertion `v.([]interface{})` succeeds. -/
def Value.isArr : Value → Bool
  | .arr _ => true
  | _ => false

/-- Map lookup `v, exists := m[k]`. -/
def mapGet (k : String) : Fields → Option Value
  | [] => none
  | (k0, v0) :: rest => if k0 = k then some v0 else mapGet k rest

/-- Map assignment `m[k] = v`: overwrite the entry when present, add it otherwise. -/
def mapSet (k : String) (v : Value) : Fields → Fields
  | [] => [(k, v)]
  | (k0, v0) :: rest => if k0 = k then (k, v) :: rest else (k0, v0) :: mapSet k v rest

/-- Map removal `delete(m, k)`. -/
def mapDelete (k : String) : Fields → Fields
  | [] => []
  | (k0, v0) :: rest => if k0 = k then mapDelete k rest else (k0, v0) :: mapDelete k rest

/-- The keys of a map. -/
def keysOf (m : Fields) : List String := m.map Prod.fst

/-- Keys of a Go map are pairwise distinct. -/
def NodupKeys (m : Fields) : Prop := (keysOf m).Nodup

instance (m : Fields) : Decidable (NodupKeys m) := by
  unfold NodupKeys; infer_instance

mutual
/-- Hereditary well-formedness: every mapping inside the value has distinct keys. -/
def Value.wf : Value → Bool
  | .arr items => wfItems items
  | .obj fields => decide (keysOf fields).Nodup && wfFields fields
  | _ => true
/-- Well-formedness of every element of a sequence. -/
def wfItems : List Value → Bool
  | [] => true
  | x :: xs => x.wf && wfItems xs
/-- Well-formedness of every value stored in a mapping. -/
def wfFields : List (String × Value) → Bool
  | [] => true
  | (_, v) :: rest => v.wf && wfFields rest
end

/-! ## Dot paths -/

/-- Worker for `splitDots`: `cur` holds the current segment, reversed. -/
def splitDotsAux : List Char → List Char → List String
  | [], cur => [String.mk cur.reverse]
  | c :: cs, cur =>
    if c = '.' then String.mk cur.reverse :: splitDotsAux cs []
    else splitDotsAux cs (c :: cur)

/-- The call `strings.Split(s, ".")`. -/
def splitDots (s : String) : List String := splitDotsAux s.data []

/-! ## Transformer (`internal/transformer/transformer.go`) -/

/-- Backend configuration (`config.Backend`). -/
structure Backend where
  URLPattern : String
  Encoding : String
  Host : String
  RemoveHeaders : List String
  Group : String
  Target : String
  Allow : List String
  Deny : List String
  Mapping : List (String × String)
  Concat : String

/-- Loop of `GetNestedField` over the remaining path segments. -/
def getNested (current : Fields) : List String → Value
  | [] => .null
  | part :: rest =>
    match mapGet part current with
    | some value =>
      if rest.isEmpty then value
      else
        match value with
        | .obj nextMap => getNested nextMap rest
        | _ => .null
    | none => .null

/-- GetNestedField gets a nested field using dot notation. -/
def GetNestedField (data : Fields) (field : String) : Value :=
  getNested data (splitDots field)

/-- Loop of `SetNestedField` over the remaining path segments; returns the updated map.
The map is a value here: a sub-map that the code would reach along two paths is two
separate sub-trees, and the write changes only the one on the path walked.  The in-place
writes on shared map objects are `Heap.setNested`. -/
def setNested (current : Fields) : List String → Value → Fields
  | [], _ => current
  | part :: rest, value =>
    if rest.isEmpty then mapSet part value current
    else
      match mapGet part current with
      | none => mapSet part (.obj (setNested [] rest value)) current
      | some (.obj nextMap) => mapSet part (.obj (setNested nextMap rest value)) current
      | some _ => current

/-- SetNestedField sets a nested field using dot notation. -/
def SetNestedField (data : Fields) (field : String) (value : Value) : Fields :=
  setNested data (splitDots field) value

/-- Loop of `DeleteNestedField` over the remaining path segments; returns the updated map. -/
def deleteNested (current : Fields) : List String → Fields
  | [] => current
  | part :: rest =>
    if rest.isEmpty then mapDelete part current
    else
      match mapGet part current with
      | some (.obj nextMap) => mapSet part (.obj (deleteNested nextMap rest)) current
      | _ => current

/-- DeleteNestedField deletes a nested field using dot notation. -/
def DeleteNestedField (data : Fields) (field : String) : Fields :=
  deleteNested data (splitDots field)

/-- Loop of `ApplyTarget`: `data` is the original input, `current` the map reached so far. -/
def targetWalk (data : Value) (current : Fields) : List String → Value
  | [] => .obj current
  | part :: rest =>
    match mapGet part current with
    | some (.obj nextMap) => targetWalk data nextMap rest
    | some next => next
    | none => data

/-- ApplyTarget extracts data from a nested target field. -/
def ApplyTarget (data : Value) (target : String) : Value :=
  match data with
  | .obj dataMap => targetWalk data dataMap (splitDots target)
  | _ => data

/-- The loop `for key, value := range dataMap { result[key] = value }`. -/
def copyFields (dataMap : Fields) : Fields :=
  dataMap.foldl (fun result kv => mapSet kv.1 kv.2 result) []

/-- Map branch of `ApplyFiltering`. -/
def filterFields (dataMap : Fields) (allow deny : List String) : Fields :=
  if allow.length > 0 then
    allow.foldl
      (fun result field =>
        let value := GetNestedField dataMap field
        if value.isNull then result else SetNestedField result field value)
      []
  else
    deny.foldl (fun result field => DeleteNestedField result field) (copyFields dataMap)

mutual
/-- ApplyFiltering applies allow and deny filters to the data. -/
def ApplyFiltering : Value → List String → List String → Value
  | .arr dataArray, allow, deny => .arr (ApplyFilteringItems dataArray allow deny)
  | .obj dataMap, allow, deny => .obj (filterFields dataMap allow deny)
  | .null, _, _ => .null
  | .bool b, _, _ => .bool b
  | .num n, _, _ => .num n
  | .str s, _, _ => .str s
/-- Element loop of the array branch of `ApplyFiltering`. -/
def ApplyFilteringItems : List Value → List String → List String → List Value
  | [], _, _ => []
  | item :: rest, allow, deny =>
    ApplyFiltering item allow deny :: ApplyFilteringItems rest allow deny
end

/-- Map branch of `ApplyMapping`.  The code stores the sub-maps of `dataMap` themselves in
`result`, so a later write below a dotted new name can reach into `dataMap` and into other
entries of `result`; here every source value is read from the unchanged input and written
into a separate tree, which agrees with the code when the new names are dot-free. -/
def mappingFields (dataMap : Fields) (mapping : List (String × String)) : Fields :=
  let mappedFields := mapping.map Prod.fst
  let result := dataMap.foldl
    (fun result kv => if kv.1 ∈ mappedFields then result else mapSet kv.1 kv.2 result) []
  mapping.foldl
    (fun result oldNew =>
      let value := GetNestedField dataMap oldNew.1
      if value.isNull then result else SetNestedField result oldNew.2 value)
    result

mutual
/-- ApplyMapping renames fields according to the mapping configuration. -/
def ApplyMapping : Value → List (String × String) → Value
  | .arr dataArray, mapping => .arr (ApplyMappingItems dataArray mapping)
  | .obj dataMap, mapping => .obj (mappingFields dataMap mapping)
  | .null, _ => .null
  | .bool b, _ => .bool b
  | .num n, _ => .num n
  | .str s, _ => .str s
/-- Element loop of the array branch of `ApplyMapping`. -/
def ApplyMappingItems : List Value → List (String × String) → List Value
  | [], _ => []
  | item :: rest, mapping => ApplyMapping item mapping :: ApplyMappingItems rest mapping
end

/-- Transform applies all transformations to a response based on backend configuration. -/
def Transform (data : Value) (backend : Backend) : Value :=
  if data.isNull then .null
  else
    let data1 := if backend.Target ≠ "" then ApplyTarget data backend.Target else data
    let data2 :=
      if backend.Allow.length > 0 ∨ backend.Deny.length > 0 then
        ApplyFiltering data1 backend.Allow backend.Deny
      else data1
    if backend.Mapping.length > 0 then ApplyMapping data2 backend.Mapping else data2

/-! ## Merger (`internal/merger/merger.go`) -/

/-- BackendResponse represents a response from a backend service
(`internal/types/types.go`); `Error = none` is Go's `nil` error. -/
structure BackendResponse where
  Backend : Backend
  Data : Value
  Error : Option String

/-- appendToArray appends data to an array under the specified key in the result map.
If data is an array, its elements are spread into the target array (flattened). -/
def appendToArray (result : Fields) (key : String) (data : Value) : Fields :=
  match data with
  | .arr dataArray =>
    match mapGet key result with
    | none => mapSet key (.arr dataArray) result
    | some (.arr existingArray) => mapSet key (.arr (existingArray ++ dataArray)) result
    | some existing => mapSet key (.arr ([existing] ++ dataArray)) result
  | _ =>
    match mapGet key result with
    | none => mapSet key (.arr [data]) result
    | some (.arr existingArray) => mapSet key (.arr (existingArray ++ [data])) result
    | some existing => mapSet key (.arr [existing, data]) result

mutual
/-- deepMerge performs a deep merge of the value into the result map at the given key. -/
def deepMerge (result : Fields) (key : String) (value : Value) : Fields :=
  match mapGet key result with
  | none => mapSet key value result
  | some (.obj existingVal) =>
    match value with
    | .obj valueMap => mapSet key (.obj (deepMergeAll existingVal valueMap)) result
    | _ => mapSet key value result
  | some (.arr existingVal) =>
    match value with
    | .arr valueSlice => mapSet key (.arr (existingVal ++ valueSlice)) result
    | _ => mapSet key value result
  | some _ => mapSet key value result
/-- The loop `for k, v := range valueMap { m.deepMerge(target, k, v) }`. -/
def deepMergeAll (target : Fields) : List (String × Value) → Fields
  | [] => target
  | (k, v) :: rest => deepMergeAll (deepMerge target k v) rest
end

/-- mergeIntoResult merges data into the result map using deep merge. -/
def mergeIntoResult (result : Fields) (data : Value) : Fields :=
  match data with
  | .obj dataMap => deepMergeAll result dataMap
  | _ => result

/-- Local variables of the loop in `Merge`. -/
structure MergeState where
  result : Fields
  allCompleted : Bool
  successfulResponses : Nat

/-- The loop of `Merge` over the remaining responses; `total` is `len(responses)`. -/
def mergeLoop (total : Nat) : MergeState → List BackendResponse → Value × Bool
  | st, [] => (.obj st.result, st.allCompleted)
  | st, resp :: rest =>
    if resp.Error.isSome then
      mergeLoop total ⟨st.result, false, st.successfulResponses⟩ rest
    else if resp.Data.isNull then
      mergeLoop total st rest
    else
      let successfulResponses := st.successfulResponses + 1
      let processedData := Transform resp.Data resp.Backend
      if resp.Backend.Concat ≠ "" then
        mergeLoop total
          ⟨appendToArray st.result resp.Backend.Concat processedData, st.allCompleted,
            successfulResponses⟩ rest
      else if resp.Backend.Group ≠ "" then
        mergeLoop total
          ⟨mapSet resp.Backend.Group processedData st.result, st.allCompleted,
            successfulResponses⟩ rest
      else if successfulResponses = 1 ∧ total = 1 then
        (processedData, st.allCompleted)
      else
        mergeLoop total
          ⟨mergeIntoResult st.result processedData, st.allCompleted, successfulResponses⟩ rest

/-- Merge merges multiple backend responses into a single response. -/
def Merge (responses : List BackendResponse) : Value × Bool :=
  mergeLoop responses.length ⟨[], true, 0⟩ responses

/-! ## Endpoint handler (`internal/server/aggregation.go`) -/

mutual
/-- Every mapping reachable through sequences only has distinct keys. -/
def Value.topWf : Value → Bool
  | .arr items => topWfItems items
  | .obj fields => decide (keysOf fields).Nodup
  | _ => true
/-- All elements satisfy topWf. -/
def topWfItems : List Value → Bool
  | [] => true
  | x :: xs => x.topWf && topWfItems xs
end

/-- A response that is neither failed nor nothing-valued: it reaches the transform and
dispatch part of the loop in `Merge`. -/
def BackendResponse.contributes (r : BackendResponse) : Bool :=
  r.Error.isNone && !r.Data.isNull

/-- The response list with every failed and every nothing-valued response removed. -/
def contributing (responses : List BackendResponse) : List BackendResponse :=
  responses.filter BackendResponse.contributes

/-- The response with `group` cleared when its backend sets `concat`. -/
def clearGroupIfConcat (r : BackendResponse) : BackendResponse :=
  if r.Backend.Concat ≠ "" then
    ⟨⟨r.Backend.URLPattern, r.Backend.Encoding, r.Backend.Host, r.Backend.RemoveHeaders, "",
      r.Backend.Target, r.Backend.Allow, r.Backend.Deny, r.Backend.Mapping, r.Backend.Concat⟩,
      r.Data, r.Error⟩
  else r


/-- No transformation directive and no composition directive is set on the backend. -/
def Backend.noDirectives (b : Backend) : Prop :=
  b.Target = "" ∧ b.Allow = [] ∧ b.Deny = [] ∧ b.Mapping = [] ∧ b.Group = "" ∧ b.Concat = ""

instance (b : Backend) : Decidable b.noDirectives := by
  unfold Backend.noDirectives; infer_instance

/-- What one value contributes to a concatenated sequence: its elements when it is a
sequence, otherwise the value as a single element. -/
def contribution : Value → List Value
  | .arr items => items
  | .obj fields => [.obj fields]
  | .null => [.null]
  | .bool b => [.bool b]
  | .num n => [.num n]
  | .str s => [.str s]

/-- In-order concatenation of the contributions of a response list. -/
def concatContributions : List BackendResponse → List Value
  | [] => []
  | r :: rest => contribution r.Data ++ concatContributions rest

/-- The value `deepMerge` leaves under the key, given what the key held before:
two mappings merge recursively, two sequences concatenate, anything else is replaced. -/
def mergedValue : Option Value → Value → Value
  | some (.obj existingVal), .obj valueMap => .obj (deepMergeAll existingVal valueMap)
  | some (.arr existingVal), .arr valueSlice => .arr (existingVal ++ valueSlice)
  | _, value => value

/-! ## Concrete data used in examples -/

/-- A backend without any transformation directive. -/
def plainBackend : Backend := ⟨"", "json", "http://b", [], "", "", [], [], [], ""⟩

/-- A backend whose only directive is `concat`. -/
def concatBackend (k : String) : Backend := ⟨"", "json", "http://b", [], "", "", [], [], [], k⟩

/-- Input of the transformer pipeline scenario. -/
def pipelineInput : Value :=
  .obj [("response", .obj [("data", .obj [("id", .num 1), ("fullName", .str "John Doe"),
    ("email", .str "john@example.com"), ("age", .num 30), ("secret", .str "hidden")])])]

/-- Backend of the transformer pipeline scenario. -/
def pipelineBackend : Backend :=
  ⟨"", "json", "http://b", [], "", "response.data", ["id", "fullName", "email"], [],
    [("fullName", "name")], ""⟩

/-- First mapping of the two-backend merge scenario. -/
def userFields : Fields := [("id", .num 1), ("name", .str "John")]

/-- Second mapping of the two-backend merge scenario. -/
def profileFields : Fields := [("email", .str "john@example.com"), ("age", .num 30)]

/-- A failed response. -/
def failedResponse : BackendResponse := ⟨plainBackend, .null, some "timeout"⟩

/-! ## Notions used to state the transformer properties -/

/-- Follow the segments through mappings only: the mapping reached when every segment
resolves to a mapping, `none` as soon as one is absent or holds something else. -/
def walkMaps (current : Fields) : List String → Option Fields
  | [] => some current
  | part :: rest =>
    match mapGet part current with
    | some (.obj nextMap) => walkMaps nextMap rest
    | _ => none

/-- A key name without a dot: as a path it has the single segment itself. -/
def dotFree (s : String) : Prop := '.' ∉ s.data

instance (s : String) : Decidable (dotFree s) := by
  unfold dotFree; infer_instance

/-- The restriction of a mapping to the allowed keys whose value is non-null, as a lookup. -/
def allowedValue (m : Fields) (allow : List String) (k : String) : Option Value :=
  if k ∈ allow then
    match mapGet k m with
    | some v => if v.isNull then none else some v
    | none => none
  else none

/-! ## Header forwarding (`internal/server/aggregation.go`) -/

/-- Lookup `v, ok := headers[name]` in a `map[string]string`. -/
def headerGet (name : String) : List (String × String) → Option String
  | [] => none
  | (n0, v0) :: rest => if n0 = name then some v0 else headerGet name rest

/-- Assignment `headers[name] = value` in a `map[string]string`. -/
def headerSet (name value : String) : List (String × String) → List (String × String)
  | [] => [(name, value)]
  | (n0, v0) :: rest =>
    if n0 = name then (name, value) :: rest else (n0, v0) :: headerSet name value rest

/-- processHeaders processes headers from the original request, forwarding all and removing
specified ones.  `header` is `r.Header`, a map from a header name to the list of its
values; `toLower` stands for the library function `strings.ToLower`. -/
def processHeaders (toLower : String → String) (header : List (String × List String))
    (removeHeaders : List String) : List (String × String) :=
  let removeHeadersSet := removeHeaders.map toLower
  header.foldl
    (fun headers nameValues =>
      if toLower nameValues.1 ∈ removeHeadersSet then headers
      else if toLower nameValues.1 ∈
          ["host", "content-length", "transfer-encoding", "connection", "upgrade",
            "accept-encoding"] then headers
      else
        match nameValues.2 with
        | value :: _ => headerSet nameValues.1 value headers
        | [] => headers)
    []

/-- One iteration of the loop of `processHeaders`. -/
def headerStep (toLower : String → String) (removeHeaders : List String)
    (headers : List (String × String)) (nameValues : String × List String) :
    List (String × String) :=
  if toLower nameValues.1 ∈ removeHeaders.map toLower then headers
  else if toLower nameValues.1 ∈
      ["host", "content-length", "transfer-encoding", "connection", "upgrade",
        "accept-encoding"] then headers
  else
    match nameValues.2 with
    | value :: _ => headerSet nameValues.1 value headers
    | [] => headers

/-- Lower-casing of the ASCII letters of a string: what `strings.ToLower` computes on
header names, which are ASCII. -/
def lowerAscii (s : String) : String := String.mk (s.data.map Char.toLower)

/-! ## URL construction and body forwarding (`internal/server/aggregation.go`) -/

/-- shouldForwardBody determines if request body should be forwarded based on HTTP method. -/
def shouldForwardBody (method : String) : Bool :=
  if method = "POST" then true
  else if method = "PUT" then true
  else if method = "PATCH" then true
  else false

/-- The part of `aggregateBackends` that reads the request body once.  `body` is `r.Body`
(`none` for a nil body), given by the bytes `io.ReadAll` returns for it; the bytes are kept
whether or not the read reported an error. -/
def readRequestBody (method : String) (body : Option (List Nat)) : List Nat :=
  if shouldForwardBody method then
    match body with
    | some bytes => bytes
    | none => []
  else []

/-- The body reader handed to the client for one backend: `bytes.NewReader(bodyBytes)` when
`len(bodyBytes) > 0`, nil otherwise. -/
def backendBody (method : String) (body : Option (List Nat)) : Option (List Nat) :=
  let bodyBytes := readRequestBody method body
  if bodyBytes.length > 0 then some bodyBytes else none

/-- Worker for `replaceAll`: `skip` counts the characters of a matched occurrence that are
still to be passed over. -/
def replaceAllAux (old new : List Char) : Nat → List Char → List Char
  | _, [] => []
  | skip + 1, _ :: cs => replaceAllAux old new skip cs
  | 0, c :: cs =>
    if old.isPrefixOf (c :: cs) then new ++ replaceAllAux old new (old.length - 1) cs
    else c :: replaceAllAux old new 0 cs

/-- The call `strings.ReplaceAll(s, old, new)` for a non-empty `old` (the only case
`buildURL` uses): non-overlapping occurrences are replaced from left to right. -/
def replaceAll (s old new : String) : String :=
  String.mk (replaceAllAux old.data new.data 0 s.data)

/-- The call `strings.HasSuffix(s, "/")`. -/
def hasSuffixSlash (s : String) : Bool := s.data.getLast? = some '/'

/-- The call `strings.HasPrefix(s, "/")`. -/
def hasPrefixSlash (s : String) : Bool := s.data.head? = some '/'

/-- The last step of `buildURL`: combine base URL and pattern. -/
def joinURL (baseURL urlPattern : String) : String :=
  if hasSuffixSlash baseURL ∧ hasPrefixSlash urlPattern then
    baseURL ++ String.mk (urlPattern.data.drop 1)
  else if ¬ hasSuffixSlash baseURL ∧ ¬ hasPrefixSlash urlPattern then
    baseURL ++ "/" ++ urlPattern
  else baseURL ++ urlPattern

/-- The loop of `buildURL` that replaces path parameters; the list order of `pathParams`
stands for the iteration order of the Go map. -/
def substituteParams (urlPattern : String) (pathParams : List (String × String)) : String :=
  pathParams.foldl
    (fun pattern keyValue => replaceAll pattern ("\x7b" ++ keyValue.1 ++ "\x7d") keyValue.2)
    urlPattern

/-- buildURL builds the full URL for a backend request. -/
def buildURL (backend : Backend) (pathParams : List (String × String)) : String :=
  joinURL backend.Host (substituteParams backend.URLPattern pathParams)

/-- The string with one trailing `/` removed if present. -/
def trimOneSuffixSlash (s : String) : String :=
  if hasSuffixSlash s then String.mk s.data.dropLast else s

/-- The string with one leading `/` removed if present. -/
def trimOnePrefixSlash (s : String) : String :=
  if hasPrefixSlash s then String.mk (s.data.drop 1) else s

/-! ## Configuration (`internal/config/config.go`) -/

set_option linter.dupNamespace false

/-- Endpoint represents a single API endpoint configuration; durations are
`time.Duration` values, a number of nanoseconds. -/
structure Endpoint where
  Endpoint : String
  Method : String
  Timeout : Int
  Encoding : String
  Backends : List Backend

/-- Config represents the entire service configuration. -/
structure Config where
  Timeout : Int
  Port : String
  LogLevel : String
  LogFormat : String
  ShutdownTimeout : Int
  TracingEnabled : Bool
  TracingEndpoint : String
  MetricsEnabled : Bool
  ServiceName : String
  Endpoints : List Endpoint

/-- The constant `time.Second`, in nanoseconds. -/
def second : Int := 1000000000

/-- The constant `defaultPort`. -/
def defaultPort : String := "8080"

/-- The constant `defaultLogLevel`. -/
def defaultLogLevel : String := "info"

/-- The constant `defaultLogFormat`. -/
def defaultLogFormat : String := "json"

/-- The constant `defaultShutdownTimeout`. -/
def defaultShutdownTimeout : Int := 15 * second

/-- The constant `defaultServiceName`. -/
def defaultServiceName : String := "api-aggregator"

/-- The constant `defaultTimeout`. -/
def defaultTimeout : Int := 10 * second

/-- The constant `defaultMethod`. -/
def defaultMethod : String := "GET"

/-- The constant `defaultEncoding`. -/
def defaultEncoding : String := "json"

/-- The method `Config.setServiceDefaults`. -/
def setServiceDefaults (c : Config) : Config :=
  let c1 : Config := if c.Port = "" then { c with Port := defaultPort } else c
  let c2 : Config := if c1.LogLevel = "" then { c1 with LogLevel := defaultLogLevel } else c1
  let c3 : Config := if c2.LogFormat = "" then { c2 with LogFormat := defaultLogFormat } else c2
  let c4 : Config :=
    if c3.ShutdownTimeout = 0 then { c3 with ShutdownTimeout := defaultShutdownTimeout } else c3
  if c4.ServiceName = "" then { c4 with ServiceName := defaultServiceName } else c4

/-- The method `Config.setTimeoutDefaults`. -/
def setTimeoutDefaults (c : Config) : Config :=
  if c.Timeout = 0 then { c with Timeout := defaultTimeout } else c

/-- The method `Config.setEndpointTimeout`. -/
def setEndpointTimeout (c : Config) (endpoint : Endpoint) : Endpoint :=
  if endpoint.Timeout = 0 then { endpoint with Timeout := c.Timeout } else endpoint

/-- The method `Config.setEndpointMethod`. -/
def setEndpointMethod (endpoint : Endpoint) : Endpoint :=
  if endpoint.Method = "" then { endpoint with Method := defaultMethod } else endpoint

/-- The method `Config.setEndpointEncoding`. -/
def setEndpointEncoding (endpoint : Endpoint) : Endpoint :=
  if endpoint.Encoding = "" then { endpoint with Encoding := defaultEncoding } else endpoint

/-- The body of the loop of `Config.setBackendDefaults` for one backend. -/
def setBackendDefault (endpoint : Endpoint) (backend : Backend) : Backend :=
  let b1 : Backend :=
    if backend.Encoding = "" then { backend with Encoding := endpoint.Encoding } else backend
  if b1.URLPattern = "" then { b1 with URLPattern := endpoint.Endpoint } else b1

/-- The method `Config.setBackendDefaults`. -/
def setBackendDefaults (endpoint : Endpoint) : Endpoint :=
  { endpoint with Backends := endpoint.Backends.map (setBackendDefault endpoint) }

/-- The method `Config.setEndpointDefaults`. -/
def setEndpointDefaults (c : Config) : Config :=
  { c with
    Endpoints := c.Endpoints.map
      (fun endpoint =>
        setBackendDefaults (setEndpointEncoding (setEndpointMethod (setEndpointTimeout c endpoint)))) }

/-- setDefaults sets default values for configuration. -/
def setDefaults (c : Config) : Config :=
  setEndpointDefaults (setTimeoutDefaults (setServiceDefaults c))

/-- The errors `validate` reports (the Go code formats them as text). -/
inductive ConfigError where
  | noEndpoints
  | pathRequired (i : Nat)
  | backendRequired (endpoint : String)
  | invalidEncoding (endpoint : String) (encoding : String)
  | hostRequired (endpoint : String) (j : Nat)
  | invalidBackendEncoding (endpoint : String) (j : Nat) (encoding : String)

/-- Lookup `validEncodings[encoding]` in the map built by `getValidEncodings`. -/
def validEncodings (encoding : String) : Bool :=
  encoding = "json" || encoding = "xml" || encoding = "yaml"

/-- The method `Config.validateBackend`; `none` is the nil error. -/
def validateBackend (endpointName : String) (j : Nat) (backend : Backend) :
    Option ConfigError :=
  if backend.Host = "" then some (.hostRequired endpointName j)
  else if !validEncodings backend.Encoding then
    some (.invalidBackendEncoding endpointName j backend.Encoding)
  else none

/-- The loop of `Config.validateBackends`, from index `j` on. -/
def validateBackendsFrom (endpointName : String) : Nat → List Backend → Option ConfigError
  | _, [] => none
  | j, backend :: rest =>
    match validateBackend endpointName j backend with
    | some err => some err
    | none => validateBackendsFrom endpointName (j + 1) rest

/-- The method `Config.validateBackends`. -/
def validateBackends (endpoint : Endpoint) : Option ConfigError :=
  validateBackendsFrom endpoint.Endpoint 0 endpoint.Backends

/-- The method `Config.validateEndpoint`. -/
def validateEndpoint (i : Nat) (endpoint : Endpoint) : Option ConfigError :=
  if endpoint.Endpoint = "" then some (.pathRequired i)
  else if endpoint.Backends.length = 0 then some (.backendRequired endpoint.Endpoint)
  else if !validEncodings endpoint.Encoding then
    some (.invalidEncoding endpoint.Endpoint endpoint.Encoding)
  else validateBackends endpoint

/-- The loop of `Config.validate` over the endpoints, from index `i` on. -/
def validateEndpointsFrom : Nat → List Endpoint → Option ConfigError
  | _, [] => none
  | i, endpoint :: rest =>
    match validateEndpoint i endpoint with
    | some err => some err
    | none => validateEndpointsFrom (i + 1) rest

/-- validate validates the configuration. -/
def validate (c : Config) : Option ConfigError :=
  if c.Endpoints.length = 0 then some .noEndpoints
  else validateEndpointsFrom 0 c.Endpoints

/-- What reading and parsing the configuration file gives: `os.ReadFile` fails, or
`yaml.Unmarshal` fails, or a configuration is parsed. -/
inductive ConfigFile where
  | unreadable (cause : String)
  | unparsable (cause : String)
  | parsed (cfg : Config)

/-- The errors `LoadConfig` returns. -/
inductive LoadError where
  | readFailed (cause : String)
  | parseFailed (cause : String)
  | invalid (err : ConfigError)

/-- LoadConfig loads configuration from a YAML file; `file` is the outcome of reading and
parsing the file at the path. -/
def LoadConfig (file : ConfigFile) : Except LoadError Config :=
  match file with
  | .unreadable cause => .error (.readFailed cause)
  | .unparsable cause => .error (.parseFailed cause)
  | .parsed cfg =>
    let cfg1 := setDefaults cfg
    match validate cfg1 with
    | some err => .error (.invalid err)
    | none => .ok cfg1

/-! ## Reload controller (`cmd/api-aggregator/reloadable_server.go`) -/

/-- The two references of `reloadableServer` that `reload` replaces; `S` is the type of the
server plane. -/
structure ReloadableServer (S : Type) where
  server : S
  cfg : Config

/-- The method `reloadableServer.reload`: the state after the call and the error it
returns.  `newServer` is `server.New` applied to the telemetry collaborators, `file` what
the configuration path holds at the time of the call. -/
def reload {S : Type} (newServer : Config → S) (rs : ReloadableServer S) (file : ConfigFile) :
    ReloadableServer S × Option LoadError :=
  match LoadConfig file with
  | .error err => (rs, some err)
  | .ok newCfg => (⟨newServer newCfg, newCfg⟩, none)

/-! ## Backend client (`internal/client/client.go`) -/

/-- The failures the client returns after a reply was read (the Go code formats them as
text). -/
inductive ClientError where
  | statusEmptyBody (statusCode : Int)
  | status (statusCode : Int) (body : List Nat)
  | unsupportedEncoding (encoding : String)
  | parseFailed (encoding : String) (cause : String)

/-- The library decoders `json.Unmarshal`, `xml.Unmarshal` and `yaml.Unmarshal` into an
`interface{}`: the decoded value or the cause of the failure. -/
structure Decoders where
  json : List Nat → Except String Value
  xml : List Nat → Except String Value
  yaml : List Nat → Except String Value

/-- The constant `statusCodeBadRequest`. -/
def statusCodeBadRequest : Int := 400

/-- checkStatusCode validates the HTTP status code and returns an error if needed. -/
def checkStatusCode (statusCode : Int) (body : List Nat) : Option ClientError :=
  if statusCode ≥ statusCodeBadRequest then
    if body.length = 0 then some (.statusEmptyBody statusCode)
    else some (.status statusCode body)
  else none

/-- parseResponse parses the response body based on the encoding. -/
def parseResponse (dec : Decoders) (body : List Nat) (encoding : String) :
    Value × Option ClientError :=
  if body.length = 0 then (.null, none)
  else if encoding = "json" then
    match dec.json body with
    | .error cause => (.null, some (.parseFailed encoding cause))
    | .ok data => (data, none)
  else if encoding = "xml" then
    match dec.xml body with
    | .error cause => (.null, some (.parseFailed encoding cause))
    | .ok data => (data, none)
  else if encoding = "yaml" then
    match dec.yaml body with
    | .error cause => (.null, some (.parseFailed encoding cause))
    | .ok data => (data, none)
  else (.null, some (.unsupportedEncoding encoding))

/-- The end of `makeRequestAndHandleResponse`, once the reply was received and its body
read: check the status code, then parse. -/
def handleResponse (dec : Decoders) (statusCode : Int) (body : List Nat) (encoding : String) :
    Value × Option ClientError :=
  match checkStatusCode statusCode body with
  | some err => (.null, some err)
  | none => parseResponse dec body encoding

/-! ## Outbound request headers (`internal/client/client.go`) -/

/-- setAcceptHeader sets the Accept header based on encoding.  `canonical` stands for the
library function `textproto.CanonicalMIMEHeaderKey` that `Header.Set` and `Header.Get`
apply to the key. -/
def setAcceptHeader (canonical : String → String) (reqHeader : List (String × String))
    (encoding : String) : List (String × String) :=
  if encoding = "json" then headerSet (canonical "Accept") "application/json" reqHeader
  else if encoding = "xml" then headerSet (canonical "Accept") "application/xml" reqHeader
  else if encoding = "yaml" then headerSet (canonical "Accept") "application/yaml" reqHeader
  else reqHeader

/-- setContentTypeHeader sets the Content-Type header based on encoding. -/
def setContentTypeHeader (canonical : String → String) (reqHeader : List (String × String))
    (encoding : String) : List (String × String) :=
  if encoding = "json" then headerSet (canonical "Content-Type") "application/json" reqHeader
  else if encoding = "xml" then headerSet (canonical "Content-Type") "application/xml" reqHeader
  else if encoding = "yaml" then
    headerSet (canonical "Content-Type") "application/yaml" reqHeader
  else reqHeader

/-- The call `req.Header.Get(key)`: the value under the canonical key, the empty string
when there is none. -/
def headerGetOrEmpty (canonical : String → String) (reqHeader : List (String × String))
    (key : String) : String :=
  match headerGet (canonical key) reqHeader with
  | some value => value
  | none => ""

/-- The header of the request that `createHTTPRequest` builds: the custom headers, then
Accept from the encoding, then Content-Type when there is a body and none is set.
`hasBody` is `cfg.Body != nil`. -/
def createHTTPRequest (canonical : String → String) (headers : List (String × String))
    (encoding : String) (hasBody : Bool) : List (String × String) :=
  let req0 := headers.foldl (fun req keyValue => headerSet (canonical keyValue.1) keyValue.2 req) []
  let req1 := setAcceptHeader canonical req0 encoding
  if hasBody ∧ headerGetOrEmpty canonical req1 "Content-Type" = "" then
    setContentTypeHeader canonical req1 encoding
  else req1

/-- The header of the outbound request for one backend, as `aggregateBackends` and
`Client.Request` build it: `processHeaders` on the inbound header, then
`createHTTPRequest` for the backend's encoding. -/
def outboundHeader (toLower canonical : String → String) (header : List (String × List String))
    (backend : Backend) (hasBody : Bool) : List (String × String) :=
  createHTTPRequest canonical (processHeaders toLower header backend.RemoveHeaders)
    backend.Encoding hasBody

/-- Worker for `canonicalAscii`: `upper` tells whether the next letter is upper-cased. -/
def canonicalAsciiAux : Bool → List Char → List Char
  | _, [] => []
  | upper, c :: cs =>
    (if upper then c.toUpper else c.toLower) :: canonicalAsciiAux (c = '-') cs

/-- Canonical form of a header name made of ASCII letters, digits and hyphens: what
`textproto.CanonicalMIMEHeaderKey` computes on such a name. -/
def canonicalAscii (s : String) : String := String.mk (canonicalAsciiAux true s.data)

/-! ## Compression middleware (`internal/server/middlewares.go`) -/

/-- Removal `Header().Del(name)` from a header map. -/
def headerDelete (name : String) : List (String × String) → List (String × String)
  | [] => []
  | (n0, v0) :: rest =>
    if n0 = name then headerDelete name rest else (n0, v0) :: headerDelete name rest

/-- The underlying `http.ResponseWriter` as the code drives it: its header map, the status
codes passed to its `WriteHeader`, in order, and the bytes passed to its `Write`. -/
structure ResponseWriter where
  header : List (String × String)
  statusCodes : List Int
  body : List Nat

/-- gzipResponseWriter wraps http.ResponseWriter to provide gzip compression.  The
`gzip.Writer` is represented by the bytes written into it so far (`none` is the nil
writer) and by whether it was closed; the compressed bytes it emits to the underlying
writer are not represented.  Writes to the underlying writer and to the gzip stream are
taken to succeed. -/
structure gzipResponseWriter where
  ResponseWriter : ResponseWriter
  writer : Option (List Nat)
  writerClosed : Bool
  minSize : Nat
  buf : List Nat
  statusCode : Int
  headersDone : Bool

/-- The constant `compressionMinSize`. -/
def compressionMinSize : Nat := 1024

/-- WriteHeader captures the status code and delays header writing. -/
def gzipResponseWriter.WriteHeader (gzw : gzipResponseWriter) (statusCode : Int) :
    gzipResponseWriter :=
  { gzw with statusCode := statusCode }

/-- The block of `Write` that starts compression on the underlying writer: set
Content-Encoding, delete Content-Length, set Vary, write the delayed status code. -/
def startCompression (w : ResponseWriter) (statusCode : Int) : ResponseWriter :=
  { w with
    header :=
      headerSet "Vary" "Accept-Encoding"
        (headerDelete "Content-Length" (headerSet "Content-Encoding" "gzip" w.header))
    statusCodes := if statusCode ≠ 0 then w.statusCodes ++ [statusCode] else w.statusCodes }

/-- Write buffers data and compresses if size threshold is met. -/
def gzipResponseWriter.Write (gzw : gzipResponseWriter) (data : List Nat) :
    gzipResponseWriter :=
  let buf := gzw.buf ++ data
  if buf.length ≥ gzw.minSize ∧ gzw.writer.isNone then
    { gzw with
      ResponseWriter := startCompression gzw.ResponseWriter gzw.statusCode
      writer := some buf
      headersDone := true
      buf := [] }
  else
    match gzw.writer with
    | some written => { gzw with writer := some (written ++ buf), buf := [] }
    | none => { gzw with buf := buf }

/-- Close flushes any remaining data. -/
def gzipResponseWriter.Close (gzw : gzipResponseWriter) : gzipResponseWriter :=
  if gzw.buf.length > 0 ∧ gzw.writer.isNone then
    let w1 : ApiAggregator.ResponseWriter :=
      if !gzw.headersDone then
        if gzw.statusCode ≠ 0 then
          { gzw.ResponseWriter with
            statusCodes := gzw.ResponseWriter.statusCodes ++ [gzw.statusCode] }
        else gzw.ResponseWriter
      else gzw.ResponseWriter
    { gzw with ResponseWriter := { w1 with body := w1.body ++ gzw.buf } }
  else if gzw.writer.isSome then { gzw with writerClosed := true }
  else gzw

/-- What a handler does with the response writer it is given. -/
inductive HandlerAction where
  | setHeader (name value : String)
  | writeHeader (statusCode : Int)
  | write (data : List Nat)

/-- A handler action on the underlying response writer itself. -/
def ResponseWriter.act (w : ResponseWriter) : HandlerAction → ResponseWriter
  | .setHeader name value => { w with header := headerSet name value w.header }
  | .writeHeader statusCode => { w with statusCodes := w.statusCodes ++ [statusCode] }
  | .write data => { w with body := w.body ++ data }

/-- A handler action on the gzip response writer: `Header()` is the underlying writer's
header map, `WriteHeader` and `Write` are the wrapper's methods. -/
def gzipResponseWriter.act (gzw : gzipResponseWriter) : HandlerAction → gzipResponseWriter
  | .setHeader name value =>
    { gzw with
      ResponseWriter :=
        { gzw.ResponseWriter with header := headerSet name value gzw.ResponseWriter.header } }
  | .writeHeader statusCode => gzw.WriteHeader statusCode
  | .write data => gzw.Write data

/-- Substring test `strings.Contains(s, sub)` on character lists. -/
def containsChars (sub : List Char) : List Char → Bool
  | [] => sub.isEmpty
  | c :: cs => sub.isPrefixOf (c :: cs) || containsChars sub cs

/-- compressionMiddleware adds gzip compression to responses.  `acceptEncoding` is the
request's Accept-Encoding header value and `handler` what the next handler does with its
writer; the result is the gzip response writer after the deferred `Close`, or `none` with
the underlying writer when the request is passed through. -/
def compressionMiddleware (acceptEncoding : String) (handler : List HandlerAction)
    (w : ResponseWriter) : ResponseWriter × Option gzipResponseWriter :=
  if !containsChars "gzip".data acceptEncoding.data then
    (handler.foldl ResponseWriter.act w, none)
  else
    let gzw : gzipResponseWriter := ⟨w, none, false, compressionMinSize, [], 0, false⟩
    let closed := (handler.foldl gzipResponseWriter.act gzw).Close
    (closed.ResponseWriter, some closed)

/-- Whether a handler action is a body write. -/
def HandlerAction.isWrite : HandlerAction → Bool
  | .write _ => true
  | _ => false

/-- The header map after the `setHeader` actions of a list of handler actions. -/
def headersAfter (acts : List HandlerAction) (header : List (String × String)) :
    List (String × String) :=
  acts.foldl
    (fun h a =>
      match a with
      | .setHeader name value => headerSet name value h
      | _ => h)
    header

/-- The status code the gzip response writer holds after the `writeHeader` actions of a
list of handler actions. -/
def statusAfter (acts : List HandlerAction) (statusCode : Int) : Int :=
  acts.foldl
    (fun c a =>
      match a with
      | .writeHeader s => s
      | _ => c)
    statusCode

/-! ## Notions used to state the nested-path properties -/

/-- The value a path resolves to when every segment is present, each but the last holding
a mapping; unlike `getNested` it tells an absent key from a key that holds null. -/
def lookupPath (current : Fields) : List String → Option Value
  | [] => none
  | part :: rest =>
    match mapGet part current with
    | some value =>
      if rest.isEmpty then some value
      else match value with
        | .obj nextMap => lookupPath nextMap rest
        | _ => none
    | none => none

mutual
/-- A value is a partial copy of another: the same value, or a mapping each of whose
entries is a partial copy of the entry under the same key of the other mapping. -/
def subValue : Value → Value → Prop
  | .obj r, w => Value.obj r = w ∨ (match w with | .obj m => subFields r m | _ => False)
  | .null, w => Value.null = w
  | .bool b, w => Value.bool b = w
  | .num n, w => Value.num n = w
  | .str s, w => Value.str s = w
  | .arr xs, w => Value.arr xs = w
/-- Every entry of the first mapping is a partial copy of the entry of the second mapping
under the same key. -/
def subFields : List (String × Value) → Fields → Prop
  | [], _ => True
  | (k, v) :: rest, m => (∃ w, mapGet k m = some w ∧ subValue v w) ∧ subFields rest m
end

/-- The byte count `n` that `Write` returns: the count reported by `gzw.buf.Write(data)`,
which is the growth of the buffer. -/
def gzipResponseWriter.WriteCount (gzw : gzipResponseWriter) (data : List Nat) : Nat :=
  (gzw.buf ++ data).length - gzw.buf.length

/-- The body chunks of a list of handler actions, concatenated in order. -/
def writtenBytes : List HandlerAction → List Nat
  | [] => []
  | .write data :: rest => data ++ writtenBytes rest
  | _ :: rest => writtenBytes rest

/-! ## Nested fields on Go map objects (in-place writes, shared sub-maps)

`SetNestedField` writes into the map objects it walks through.  To speak about one map
object stored under several keys, this section keeps the map objects on a heap: a mapping
value is a reference to its object, `current[part] = value` changes the object itself, and
`make` hands out an address that nothing refers to yet. -/

/-- A Go value as the nested-field functions see it: a mapping is a reference to a map
object, so one object can be stored under several keys; a sequence is neither walked nor
written by these functions and is represented by its elements as values. -/
inductive HValue where
  | null
  | bool (b : Bool)
  | num (n : Int)
  | str (s : String)
  | arr (items : List Value)
  | ref (addr : Nat)

/-- The entries of one map object. -/
abbrev HFields := List (String × HValue)

/-- Map lookup `v, exists := m[k]` on a map object. -/
def hmapGet (k : String) : HFields → Option HValue
  | [] => none
  | (k0, v0) :: rest => if k0 = k then some v0 else hmapGet k rest

/-- Map assignment `m[k] = v` on a map object. -/
def hmapSet (k : String) (v : HValue) : HFields → HFields
  | [] => [(k, v)]
  | (k0, v0) :: rest => if k0 = k then (k, v) :: rest else (k0, v0) :: hmapSet k v rest

/-- The map objects by address, and the address the next `make` returns. -/
structure Heap where
  objs : Nat → HFields
  next : Nat

/-- The assignment `current[part] = value` on the map object at address `a`. -/
def Heap.store (h : Heap) (a : Nat) (k : String) (v : HValue) : Heap :=
  { h with objs := fun b => if b = a then hmapSet k v (h.objs a) else h.objs b }

/-- The allocation `make(map[string]interface{})`: an empty map object at the address
`h.next`. -/
def Heap.make (h : Heap) : Heap :=
  { objs := fun b => if b = h.next then [] else h.objs b, next := h.next + 1 }

/-- Loop of `GetNestedField` over the remaining path segments, on the map object at
`current`. -/
def Heap.getNested (h : Heap) (current : Nat) : List String → HValue
  | [] => .null
  | part :: rest =>
    match hmapGet part (h.objs current) with
    | some value =>
      if rest.isEmpty then value
      else match value with
        | .ref nextMap => Heap.getNested h nextMap rest
        | _ => .null
    | none => .null

/-- GetNestedField retrieves a nested field using dot notation; `data` is the address of
the map object passed in. -/
def Heap.GetNestedField (h : Heap) (data : Nat) (field : String) : HValue :=
  h.getNested data (splitDots field)

/-- Loop of `SetNestedField` over the remaining path segments, on the map object at
`current`; returns the heap after the writes. -/
def Heap.setNested : Heap → Nat → List String → HValue → Heap
  | h, _, [], _ => h
  | h, current, part :: rest, value =>
    if rest.isEmpty then h.store current part value
    else
      match hmapGet part (h.objs current) with
      | none => Heap.setNested (h.make.store current part (.ref h.next)) h.next rest value
      | some (.ref nextMap) => Heap.setNested h nextMap rest value
      | some _ => h

/-- SetNestedField sets a nested field using dot notation; `data` is the address of the
map object passed in. -/
def Heap.SetNestedField (h : Heap) (data : Nat) (field : String) (value : HValue) : Heap :=
  h.setNested data (splitDots field) value

/-- The map object reached from the object at `current` by following the segments through
map references. -/
def Heap.walk (h : Heap) (current : Nat) : List String → Option Nat
  | [] => some current
  | part :: rest =>
    match hmapGet part (h.objs current) with
    | some (.ref nextMap) => Heap.walk h nextMap rest
    | _ => none

/-- No map object is reachable from the map object at `m` along two different paths. -/
def Heap.TreeShaped (h : Heap) (m : Nat) : Prop :=
  ∀ (s t : List String) (a : Nat), h.walk m s = some a → h.walk m t = some a → s = t

/-- Every stored reference is to an address `make` has already handed out. -/
def Heap.wf (h : Heap) : Prop :=
  ∀ (a : Nat) (k : String) (b : Nat), hmapGet k (h.objs a) = some (.ref b) → b < h.next

/-- The result of `ApplyMapping` with `user.name → name` on
`{"user": {"name": {"first": "J"}}, "id": 1}` before a further set: the map object 2 is
stored under `name` of the result (object 0) and under `name` of `user` (object 1). -/
def sharedHeap : Heap :=
  ⟨fun a =>
    if a = 0 then [("user", .ref 1), ("id", .num 1), ("name", .ref 2)]
    else if a = 1 then [("name", .ref 2)]
    else if a = 2 then [("first", .str "J")]
    else [], 3⟩

/-- The heap after `SetNestedField(testData, "user.personal.name", "Jane")` on an empty
map at address 0. -/
def chainHeap : Heap :=
  ⟨fun a =>
    if a = 0 then [("user", .ref 1)]
    else if a = 1 then [("personal", .ref 2)]
    else if a = 2 then [("name", .str "Jane")]
    else [], 3⟩

/-! ## Facts about the map primitives -/

theorem mapGet_mapSet_same (k : String) (v : Value) (m : Fields) :
    mapGet k (mapSet k v m) = some v := by
  induction m with
  | nil => simp [mapSet, mapGet]
  | cons kv rest ih =>
    obtain ⟨k0, v0⟩ := kv
    by_cases h : k0 = k
    · simp [mapSet, mapGet, h]
    · simp [mapSet, mapGet, h, ih]

theorem mapGet_mapSet_ne (k k1 : String) (v : Value) (m : Fields) (h : k1 ≠ k) :
    mapGet k1 (mapSet k v m) = mapGet k1 m := by
  induction m with
  | nil => simp [mapSet, mapGet, h.symm]
  | cons kv rest ih =>
    obtain ⟨k0, v0⟩ := kv
    by_cases h0 : k0 = k
    · subst h0
      have h1 : ¬ k0 = k1 := fun e => h e.symm
      simp [mapSet, mapGet, h1]
    · by_cases h1 : k0 = k1
      · subst h1
        simp [mapSet, mapGet, h0]
      · simp [mapSet, mapGet, h0, h1, ih]

theorem mapGet_eq_none_iff (k : String) (m : Fields) :
    mapGet k m = none ↔ k ∉ keysOf m := by
  induction m with
  | nil => simp [mapGet, keysOf]
  | cons kv rest ih =>
    obtain ⟨k0, v0⟩ := kv
    by_cases h : k0 = k
    · simp [mapGet, keysOf, h]
    · have h1 : ¬ k = k0 := fun e => h e.symm
      simp only [keysOf] at ih
      simp [mapGet, keysOf, h, h1, ih]

theorem mapSet_of_not_mem (k : String) (v : Value) (m : Fields) (h : k ∉ keysOf m) :
    mapSet k v m = m ++ [(k, v)] := by
  induction m with
  | nil => simp [mapSet]
  | cons kv rest ih =>
    obtain ⟨k0, v0⟩ := kv
    simp only [keysOf, List.map_cons, List.mem_cons, not_or] at h
    have h0 : ¬ k0 = k := fun e => h.1 e.symm
    simp [mapSet, h0, ih h.2]

theorem keysOf_mapSet_of_mem (k : String) (v : Value) (m : Fields) (h : k ∈ keysOf m) :
    keysOf (mapSet k v m) = keysOf m := by
  induction m with
  | nil => simp [keysOf] at h
  | cons kv rest ih =>
    obtain ⟨k0, v0⟩ := kv
    by_cases h0 : k0 = k
    · simp [mapSet, keysOf, h0]
    · have h1 : k ∈ keysOf rest := by
        simp only [keysOf, List.map_cons, List.mem_cons] at h
        rcases h with h | h
        · exact absurd h.symm h0
        · exact h
      have := ih h1
      simp only [keysOf] at this
      simp [mapSet, keysOf, h0, this]

theorem nodupKeys_mapSet (k : String) (v : Value) (m : Fields) (h : NodupKeys m) :
    NodupKeys (mapSet k v m) := by
  by_cases hk : k ∈ keysOf m
  · unfold NodupKeys; rw [keysOf_mapSet_of_mem k v m hk]; exact h
  · rw [mapSet_of_not_mem k v m hk]
    unfold NodupKeys keysOf at *
    rw [List.map_append, List.nodup_append]
    refine ⟨h, by simp, ?_⟩
    intro a ha hb
    simp at hb
    subst hb
    exact hk ha

theorem keysOf_mapDelete (k : String) (m : Fields) :
    keysOf (mapDelete k m) = (keysOf m).filter (fun a => a ≠ k) := by
  induction m with
  | nil => simp [mapDelete, keysOf]
  | cons kv rest ih =>
    obtain ⟨k0, v0⟩ := kv
    simp only [keysOf] at ih
    by_cases h0 : k0 = k
    · simp [mapDelete, keysOf, h0, ih]
    · simp [mapDelete, keysOf, h0, ih]

theorem nodupKeys_mapDelete (k : String) (m : Fields) (h : NodupKeys m) :
    NodupKeys (mapDelete k m) := by
  unfold NodupKeys at *
  rw [keysOf_mapDelete]
  exact h.filter _

theorem nodupKeys_nil : NodupKeys [] := by
  simp [NodupKeys, keysOf]


theorem foldl_preserves {α β : Type} (P : α → Prop) (f : α → β → α)
    (hf : ∀ acc x, P acc → P (f acc x)) (l : List β) (init : α) (h : P init) :
    P (l.foldl f init) := by
  induction l generalizing init with
  | nil => exact h
  | cons x xs ih => exact ih (f init x) (hf init x h)

theorem foldl_mapSet_append (m acc : Fields) (h : (keysOf acc ++ keysOf m).Nodup) :
    m.foldl (fun result kv => mapSet kv.1 kv.2 result) acc = acc ++ m := by
  induction m generalizing acc with
  | nil => simp
  | cons kv rest ih =>
    obtain ⟨k0, v0⟩ := kv
    have hk : k0 ∉ keysOf acc := by
      intro hmem
      have := (List.nodup_append.mp h).2.2
      exact this hmem (by simp [keysOf])
    simp only [List.foldl_cons]
    rw [mapSet_of_not_mem k0 v0 acc hk, ih]
    · simp
    · simp only [keysOf, List.map_append, List.map_cons, List.map_nil, List.append_assoc,
        List.singleton_append] at h ⊢
      exact h

theorem copyFields_eq (m : Fields) (h : NodupKeys m) : copyFields m = m := by
  unfold copyFields
  rw [foldl_mapSet_append m [] (by simpa [keysOf] using h)]
  simp

theorem nodupKeys_copyFields (m : Fields) : NodupKeys (copyFields m) := by
  unfold copyFields
  exact foldl_preserves NodupKeys _ (fun acc x h => nodupKeys_mapSet x.1 x.2 acc h) m []
    nodupKeys_nil

theorem nodupKeys_setNested (cur : Fields) (parts : List String) (v : Value)
    (h : NodupKeys cur) : NodupKeys (setNested cur parts v) := by
  cases parts with
  | nil => simpa [setNested] using h
  | cons p rest =>
    unfold setNested
    split
    · exact nodupKeys_mapSet _ _ _ h
    · split
      · exact nodupKeys_mapSet _ _ _ h
      · exact nodupKeys_mapSet _ _ _ h
      · exact h

theorem nodupKeys_deleteNested (cur : Fields) (parts : List String)
    (h : NodupKeys cur) : NodupKeys (deleteNested cur parts) := by
  cases parts with
  | nil => simpa [deleteNested] using h
  | cons p rest =>
    unfold deleteNested
    split
    · exact nodupKeys_mapDelete _ _ h
    · split
      · exact nodupKeys_mapSet _ _ _ h
      · exact h

theorem nodupKeys_filterFields (m : Fields) (allow deny : List String) :
    NodupKeys (filterFields m allow deny) := by
  unfold filterFields
  split
  · refine foldl_preserves NodupKeys _ ?_ allow [] nodupKeys_nil
    intro acc x h
    dsimp only
    split
    · exact h
    · exact nodupKeys_setNested _ _ _ h
  · refine foldl_preserves NodupKeys _ ?_ deny _ (nodupKeys_copyFields m)
    intro acc x h
    exact nodupKeys_deleteNested _ _ h

theorem nodupKeys_mappingFields (m : Fields) (mapping : List (String × String)) :
    NodupKeys (mappingFields m mapping) := by
  unfold mappingFields
  dsimp only
  refine foldl_preserves NodupKeys _ ?_ mapping _ ?_
  · intro acc x h
    dsimp only
    split
    · exact h
    · exact nodupKeys_setNested _ _ _ h
  · refine foldl_preserves NodupKeys _ ?_ m [] nodupKeys_nil
    intro acc x h
    dsimp only
    split
    · exact h
    · exact nodupKeys_mapSet _ _ _ h

theorem filterFields_nil (m : Fields) (h : NodupKeys m) : filterFields m [] [] = m := by
  simp [filterFields, copyFields_eq m h]

theorem mappingFields_nil (m : Fields) (h : NodupKeys m) : mappingFields m [] = m := by
  have := copyFields_eq m h
  unfold copyFields at this
  simp [mappingFields, this]

mutual
theorem ApplyFiltering_nil : (v : Value) → v.topWf = true → ApplyFiltering v [] [] = v
  | .arr items, h => by
    rw [ApplyFiltering, ApplyFilteringItems_nil items (by simpa [Value.topWf] using h)]
  | .obj fields, h => by
    rw [ApplyFiltering, filterFields_nil fields (by simpa [Value.topWf, NodupKeys] using h)]
  | .null, _ => by rw [ApplyFiltering]
  | .bool _, _ => by rw [ApplyFiltering]
  | .num _, _ => by rw [ApplyFiltering]
  | .str _, _ => by rw [ApplyFiltering]
theorem ApplyFilteringItems_nil :
    (items : List Value) → topWfItems items = true → ApplyFilteringItems items [] [] = items
  | [], _ => by rw [ApplyFilteringItems]
  | x :: xs, h => by
    have h2 : x.topWf = true ∧ topWfItems xs = true := by simpa [topWfItems] using h
    rw [ApplyFilteringItems, ApplyFiltering_nil x h2.1, ApplyFilteringItems_nil xs h2.2]
end

mutual
theorem ApplyMapping_nil : (v : Value) → v.topWf = true → ApplyMapping v [] = v
  | .arr items, h => by
    rw [ApplyMapping, ApplyMappingItems_nil items (by simpa [Value.topWf] using h)]
  | .obj fields, h => by
    rw [ApplyMapping, mappingFields_nil fields (by simpa [Value.topWf, NodupKeys] using h)]
  | .null, _ => by rw [ApplyMapping]
  | .bool _, _ => by rw [ApplyMapping]
  | .num _, _ => by rw [ApplyMapping]
  | .str _, _ => by rw [ApplyMapping]
theorem ApplyMappingItems_nil :
    (items : List Value) → topWfItems items = true → ApplyMappingItems items [] = items
  | [], _ => by rw [ApplyMappingItems]
  | x :: xs, h => by
    have h2 : x.topWf = true ∧ topWfItems xs = true := by simpa [topWfItems] using h
    rw [ApplyMappingItems, ApplyMapping_nil x h2.1, ApplyMappingItems_nil xs h2.2]
end

mutual
theorem topWf_ApplyFiltering (allow deny : List String) :
    (v : Value) → (ApplyFiltering v allow deny).topWf = true
  | .arr items => by
    rw [ApplyFiltering, Value.topWf]; exact topWfItems_ApplyFilteringItems allow deny items
  | .obj fields => by
    rw [ApplyFiltering, Value.topWf]
    simpa [NodupKeys] using nodupKeys_filterFields fields allow deny
  | .null => by rw [ApplyFiltering]; rfl
  | .bool _ => by rw [ApplyFiltering]; rfl
  | .num _ => by rw [ApplyFiltering]; rfl
  | .str _ => by rw [ApplyFiltering]; rfl
theorem topWfItems_ApplyFilteringItems (allow deny : List String) :
    (items : List Value) → topWfItems (ApplyFilteringItems items allow deny) = true
  | [] => by rw [ApplyFilteringItems]; rfl
  | x :: xs => by
    rw [ApplyFilteringItems, topWfItems, topWf_ApplyFiltering allow deny x,
      topWfItems_ApplyFilteringItems allow deny xs]
    rfl
end

mutual
theorem topWf_ApplyMapping (mapping : List (String × String)) :
    (v : Value) → (ApplyMapping v mapping).topWf = true
  | .arr items => by
    rw [ApplyMapping, Value.topWf]; exact topWfItems_ApplyMappingItems mapping items
  | .obj fields => by
    rw [ApplyMapping, Value.topWf]
    simpa [NodupKeys] using nodupKeys_mappingFields fields mapping
  | .null => by rw [ApplyMapping]; rfl
  | .bool _ => by rw [ApplyMapping]; rfl
  | .num _ => by rw [ApplyMapping]; rfl
  | .str _ => by rw [ApplyMapping]; rfl
theorem topWfItems_ApplyMappingItems (mapping : List (String × String)) :
    (items : List Value) → topWfItems (ApplyMappingItems items mapping) = true
  | [] => by rw [ApplyMappingItems]; rfl
  | x :: xs => by
    rw [ApplyMappingItems, topWfItems, topWf_ApplyMapping mapping x,
      topWfItems_ApplyMappingItems mapping xs]
    rfl
end

mutual
theorem topWf_of_wf : (v : Value) → v.wf = true → v.topWf = true
  | .arr items, h => by
    rw [Value.topWf]; exact topWfItems_of_wfItems items (by simpa [Value.wf] using h)
  | .obj fields, h => by
    rw [Value.topWf]
    have : (keysOf fields).Nodup ∧ wfFields fields = true := by simpa [Value.wf] using h
    simpa using this.1
  | .null, _ => rfl
  | .bool _, _ => rfl
  | .num _, _ => rfl
  | .str _, _ => rfl
theorem topWfItems_of_wfItems : (items : List Value) → wfItems items = true → topWfItems items = true
  | [], _ => rfl
  | x :: xs, h => by
    have h2 : x.wf = true ∧ wfItems xs = true := by simpa [wfItems] using h
    rw [topWfItems, topWf_of_wf x h2.1, topWfItems_of_wfItems xs h2.2]
    rfl
end

theorem wf_of_mapGet (m : Fields) (k : String) (v : Value) (h : wfFields m = true)
    (hk : mapGet k m = some v) : v.wf = true := by
  induction m with
  | nil => simp [mapGet] at hk
  | cons kv rest ih =>
    obtain ⟨k0, v0⟩ := kv
    have h2 : v0.wf = true ∧ wfFields rest = true := by simpa [wfFields] using h
    by_cases h0 : k0 = k
    · simp [mapGet, h0] at hk
      subst hk
      exact h2.1
    · simp [mapGet, h0] at hk
      exact ih h2.2 hk

theorem wf_targetWalk (data : Value) (hd : data.wf = true) (parts : List String) :
    ∀ cur : Fields, (Value.obj cur).wf = true → (targetWalk data cur parts).wf = true := by
  induction parts with
  | nil => intro cur h; simpa [targetWalk] using h
  | cons p rest ih =>
    intro cur h
    have hc : (keysOf cur).Nodup ∧ wfFields cur = true := by simpa [Value.wf] using h
    unfold targetWalk
    split
    · rename_i nextMap heq
      exact ih nextMap (wf_of_mapGet cur p _ hc.2 heq)
    · rename_i next _ heq
      exact wf_of_mapGet cur p _ hc.2 heq
    · exact hd

theorem wf_ApplyTarget (data : Value) (target : String) (hd : data.wf = true) :
    (ApplyTarget data target).wf = true := by
  unfold ApplyTarget
  split
  · exact wf_targetWalk _ hd _ _ hd
  · exact hd


theorem Value.isNull_eq_true (v : Value) : v.isNull = true ↔ v = .null := by
  cases v <;> simp [Value.isNull]

theorem topWf_Transform (data : Value) (b : Backend) (hwf : data.wf = true) :
    (Transform data b).topWf = true := by
  unfold Transform
  split
  · rfl
  · dsimp only
    split
    · exact topWf_ApplyMapping _ _
    · split
      · exact topWf_ApplyFiltering _ _ _
      · split
        · exact topWf_of_wf _ (wf_ApplyTarget data _ hwf)
        · exact topWf_of_wf _ hwf

/-! ## Merge: completeness flag -/

theorem mergeLoop_failed (total : Nat) (st : MergeState) (r : BackendResponse)
    (tl : List BackendResponse) (hE : r.Error.isSome = true) :
    mergeLoop total st (r :: tl) =
      mergeLoop total ⟨st.result, false, st.successfulResponses⟩ tl := by
  rw [mergeLoop, if_pos hE]

theorem mergeLoop_nothing (total : Nat) (st : MergeState) (r : BackendResponse)
    (tl : List BackendResponse) (hE : ¬ r.Error.isSome = true) (hD : r.Data.isNull = true) :
    mergeLoop total st (r :: tl) = mergeLoop total st tl := by
  rw [mergeLoop, if_neg hE, if_pos hD]

theorem mergeLoop_concat (total : Nat) (st : MergeState) (r : BackendResponse)
    (tl : List BackendResponse) (hE : ¬ r.Error.isSome = true) (hD : ¬ r.Data.isNull = true)
    (hC : r.Backend.Concat ≠ "") :
    mergeLoop total st (r :: tl) =
      mergeLoop total
        ⟨appendToArray st.result r.Backend.Concat (Transform r.Data r.Backend), st.allCompleted,
          st.successfulResponses + 1⟩ tl := by
  rw [mergeLoop, if_neg hE, if_neg hD]
  dsimp only
  rw [if_pos hC]

theorem mergeLoop_group (total : Nat) (st : MergeState) (r : BackendResponse)
    (tl : List BackendResponse) (hE : ¬ r.Error.isSome = true) (hD : ¬ r.Data.isNull = true)
    (hC : ¬ r.Backend.Concat ≠ "") (hG : r.Backend.Group ≠ "") :
    mergeLoop total st (r :: tl) =
      mergeLoop total
        ⟨mapSet r.Backend.Group (Transform r.Data r.Backend) st.result, st.allCompleted,
          st.successfulResponses + 1⟩ tl := by
  rw [mergeLoop, if_neg hE, if_neg hD]
  dsimp only
  rw [if_neg hC, if_pos hG]

theorem mergeLoop_shortcut (total : Nat) (st : MergeState) (r : BackendResponse)
    (tl : List BackendResponse) (hE : ¬ r.Error.isSome = true) (hD : ¬ r.Data.isNull = true)
    (hC : ¬ r.Backend.Concat ≠ "") (hG : ¬ r.Backend.Group ≠ "")
    (hS : st.successfulResponses + 1 = 1 ∧ total = 1) :
    mergeLoop total st (r :: tl) = (Transform r.Data r.Backend, st.allCompleted) := by
  rw [mergeLoop, if_neg hE, if_neg hD]
  dsimp only
  rw [if_neg hC, if_neg hG, if_pos hS]

theorem mergeLoop_default (total : Nat) (st : MergeState) (r : BackendResponse)
    (tl : List BackendResponse) (hE : ¬ r.Error.isSome = true) (hD : ¬ r.Data.isNull = true)
    (hC : ¬ r.Backend.Concat ≠ "") (hG : ¬ r.Backend.Group ≠ "")
    (hS : ¬ (st.successfulResponses + 1 = 1 ∧ total = 1)) :
    mergeLoop total st (r :: tl) =
      mergeLoop total
        ⟨mergeIntoResult st.result (Transform r.Data r.Backend), st.allCompleted,
          st.successfulResponses + 1⟩ tl := by
  rw [mergeLoop, if_neg hE, if_neg hD]
  dsimp only
  rw [if_neg hC, if_neg hG, if_neg hS]

theorem clearGroupIfConcat_facts (r : BackendResponse) (hc : r.Backend.Concat ≠ "") :
    (clearGroupIfConcat r).Error = r.Error ∧ (clearGroupIfConcat r).Data = r.Data ∧
      (clearGroupIfConcat r).Backend.Concat = r.Backend.Concat ∧
      Transform (clearGroupIfConcat r).Data (clearGroupIfConcat r).Backend =
        Transform r.Data r.Backend := by
  unfold clearGroupIfConcat
  rw [if_pos hc]
  exact ⟨rfl, rfl, rfl, rfl⟩

theorem mergeLoop_clearGroup (total : Nat) (rest : List BackendResponse) :
    ∀ st : MergeState,
      mergeLoop total st (rest.map clearGroupIfConcat) = mergeLoop total st rest := by
  induction rest with
  | nil => intro st; rfl
  | cons r tl ih =>
    intro st
    rw [List.map_cons]
    by_cases hc : r.Backend.Concat ≠ ""
    · obtain ⟨fE, fD, fC, fT⟩ := clearGroupIfConcat_facts r hc
      by_cases hE : r.Error.isSome = true
      · rw [mergeLoop_failed _ _ (clearGroupIfConcat r) _ (by rw [fE]; exact hE),
          mergeLoop_failed _ _ r _ hE]
        exact ih _
      · by_cases hD : r.Data.isNull = true
        · rw [mergeLoop_nothing _ _ (clearGroupIfConcat r) _ (by rw [fE]; exact hE)
              (by rw [fD]; exact hD),
            mergeLoop_nothing _ _ r _ hE hD]
          exact ih _
        · rw [mergeLoop_concat _ _ (clearGroupIfConcat r) _ (by rw [fE]; exact hE)
              (by rw [fD]; exact hD) (by rw [fC]; exact hc),
            mergeLoop_concat _ _ r _ hE hD hc, fT, fC]
          exact ih _
    · have hr : clearGroupIfConcat r = r := by
        unfold clearGroupIfConcat; rw [if_neg hc]
      rw [hr]
      unfold mergeLoop
      simp only [ih]

/-- Skipped responses leave the merged mapping untouched. -/
theorem mergeLoop_skipped (total : Nat) (rest : List BackendResponse)
    (h : ∀ r ∈ rest, r.contributes = false) :
    ∀ st : MergeState, (mergeLoop total st rest).1 = .obj st.result := by
  induction rest with
  | nil => intro st; rfl
  | cons r tl ih =>
    intro st
    have hr := h r (List.mem_cons_self _ _)
    have htl : ∀ r ∈ tl, r.contributes = false := fun x hx => h x (List.mem_cons_of_mem _ hx)
    unfold mergeLoop
    by_cases hE : r.Error.isSome = true
    · rw [if_pos hE]; exact ih htl _
    · rw [if_neg hE]
      have hN : r.Error.isNone = true := by
        cases he : r.Error <;> simp [he] at hE ⊢
      have hD : r.Data.isNull = true := by
        simpa [BackendResponse.contributes, hN] using hr
      rw [if_pos hD]; exact ih htl _

/-- The merge loop without the sole-response shortcut sees only contributing responses. -/
theorem mergeLoop_contributing (total1 total2 : Nat) (h1 : total1 ≠ 1) (h2 : total2 ≠ 1)
    (rest : List BackendResponse) :
    ∀ st1 st2 : MergeState, st1.result = st2.result →
      (mergeLoop total1 st1 rest).1 = (mergeLoop total2 st2 (contributing rest)).1 := by
  induction rest with
  | nil => intro st1 st2 h; simp [contributing, mergeLoop, h]
  | cons r tl ih =>
    intro st1 st2 h
    by_cases hE : r.Error.isSome = true
    · have hc : r.contributes = false := by
        cases he : r.Error <;> simp [he, BackendResponse.contributes] at hE ⊢
      have : contributing (r :: tl) = contributing tl := by
        simp [contributing, List.filter_cons, hc]
      rw [this]
      conv_lhs => unfold mergeLoop
      rw [if_pos hE]
      exact ih _ _ h
    · have hN : r.Error.isNone = true := by
        cases he : r.Error <;> simp [he] at hE ⊢
      by_cases hD : r.Data.isNull = true
      · have hc : r.contributes = false := by
          simp [BackendResponse.contributes, hD]
        have : contributing (r :: tl) = contributing tl := by
          simp [contributing, List.filter_cons, hc]
        rw [this]
        conv_lhs => unfold mergeLoop
        rw [if_neg hE, if_pos hD]
        exact ih _ _ h
      · have hc : r.contributes = true := by
          simp [BackendResponse.contributes, hD, hN]
        have : contributing (r :: tl) = r :: contributing tl := by
          simp [contributing, List.filter_cons, hc]
        rw [this]
        unfold mergeLoop
        rw [if_neg hE, if_neg hD, if_neg hE, if_neg hD]
        dsimp only
        split
        · exact ih _ _ (by simp [h])
        · split
          · exact ih _ _ (by simp [h])
          · rw [if_neg (fun hh => h1 hh.2), if_neg (fun hh => h2 hh.2)]
            exact ih _ _ (by simp [h])


/-! ## Deep merge -/

theorem deepMerge_eq (t : Fields) (k : String) (v : Value) :
    deepMerge t k v = mapSet k (mergedValue (mapGet k t) v) t := by
  rw [deepMerge]
  cases hg : mapGet k t with
  | none => cases v <;> rfl
  | some e => cases e <;> cases v <;> rfl

theorem mergedValue_none (v : Value) : mergedValue none v = v := by
  cases v <;> rfl

theorem mapGet_deepMerge_ne (t : Fields) (k k1 : String) (v : Value) (h : k1 ≠ k) :
    mapGet k1 (deepMerge t k v) = mapGet k1 t := by
  rw [deepMerge_eq, mapGet_mapSet_ne _ _ _ _ h]

theorem mapGet_deepMerge_same (t : Fields) (k : String) (v : Value) :
    mapGet k (deepMerge t k v) = some (mergedValue (mapGet k t) v) := by
  rw [deepMerge_eq, mapGet_mapSet_same]

theorem mapGet_deepMergeAll_of_not_mem (b : Fields) (k : String) (h : k ∉ keysOf b) :
    ∀ t : Fields, mapGet k (deepMergeAll t b) = mapGet k t := by
  induction b with
  | nil => intro t; rw [deepMergeAll]
  | cons kv rest ih =>
    intro t
    obtain ⟨k0, v0⟩ := kv
    simp only [keysOf, List.map_cons, List.mem_cons, not_or] at h
    rw [deepMergeAll, ih h.2, mapGet_deepMerge_ne _ _ _ _ h.1]

/-- Lookup in a deep-merged mapping, key by key. -/
theorem mapGet_deepMergeAll (b : Fields) (k : String) (hb : NodupKeys b) :
    ∀ t : Fields, mapGet k (deepMergeAll t b) =
      match mapGet k b with
      | none => mapGet k t
      | some v => some (mergedValue (mapGet k t) v) := by
  induction b with
  | nil => intro t; rw [deepMergeAll]; rfl
  | cons kv rest ih =>
    intro t
    obtain ⟨k0, v0⟩ := kv
    have hnd : k0 ∉ keysOf rest ∧ NodupKeys rest := by
      simpa [NodupKeys, keysOf] using hb
    rw [deepMergeAll]
    by_cases h0 : k0 = k
    · subst h0
      rw [mapGet_deepMergeAll_of_not_mem rest k0 hnd.1, mapGet_deepMerge_same]
      simp [mapGet]
    · rw [ih hnd.2]
      have h1 : k ≠ k0 := fun e => h0 e.symm
      simp only [mapGet, h0, if_false, mapGet_deepMerge_ne _ _ _ _ h1]

theorem deepMergeAll_append (b : Fields) :
    ∀ t : Fields, (keysOf t ++ keysOf b).Nodup → deepMergeAll t b = t ++ b := by
  induction b with
  | nil => intro t _; rw [deepMergeAll]; simp
  | cons kv rest ih =>
    intro t h
    obtain ⟨k0, v0⟩ := kv
    have hk : k0 ∉ keysOf t := by
      intro hmem
      exact (List.nodup_append.mp h).2.2 hmem (by simp [keysOf])
    rw [deepMergeAll, deepMerge_eq, (mapGet_eq_none_iff k0 t).mpr hk, mergedValue_none,
      mapSet_of_not_mem k0 v0 t hk, ih]
    · simp
    · simp only [keysOf, List.map_append, List.map_cons, List.map_nil, List.append_assoc,
        List.singleton_append] at h ⊢
      exact h

theorem deepMergeAll_nil (b : Fields) (hb : NodupKeys b) : deepMergeAll [] b = b := by
  rw [deepMergeAll_append b [] (by simpa [keysOf] using hb)]
  simp

theorem Transform_of_no_directives (data : Value) (b : Backend) (hT : b.Target = "")
    (hA : b.Allow = []) (hD : b.Deny = []) (hM : b.Mapping = []) : Transform data b = data := by
  unfold Transform
  by_cases hn : data.isNull = true
  · rw [if_pos hn, (Value.isNull_eq_true data).mp hn]
  · rw [if_neg hn]
    simp [hT, hA, hD, hM]

/-! ## Merge: group, concat and plain composition -/

theorem contributes_iff (r : BackendResponse) :
    r.contributes = true ↔ ¬ r.Error.isSome = true ∧ ¬ r.Data.isNull = true := by
  unfold BackendResponse.contributes
  cases r.Error <;> cases r.Data.isNull <;> simp

theorem appendToArray_fresh (k : String) (d : Value) :
    appendToArray [] k d = [(k, .arr (contribution d))] := by
  cases d <;> rfl

theorem appendToArray_arr (k : String) (acc : List Value) (d : Value) :
    appendToArray [(k, .arr acc)] k d = [(k, .arr (acc ++ contribution d))] := by
  cases d <;> simp [appendToArray, mapGet, mapSet, contribution]

theorem mergeLoop_concat_all (total : Nat) (k : String) (hk : k ≠ "")
    (rest : List BackendResponse)
    (h : ∀ r ∈ rest, r.Error = none ∧ r.Data.isNull = false ∧ r.Backend.Concat = k ∧
      r.Backend.Target = "" ∧ r.Backend.Allow = [] ∧ r.Backend.Deny = [] ∧
      r.Backend.Mapping = []) :
    ∀ (acc : List Value) (c : Bool) (n : Nat),
      mergeLoop total ⟨[(k, .arr acc)], c, n⟩ rest =
        (.obj [(k, .arr (acc ++ concatContributions rest))], c) := by
  induction rest with
  | nil => intro acc c n; simp [mergeLoop, concatContributions]
  | cons r tl ih =>
    intro acc c n
    obtain ⟨hE, hD, hC, hT, hA, hDn, hM⟩ := h r (List.mem_cons_self _ _)
    rw [mergeLoop_concat _ _ _ _ (by simp [hE]) (by simp [hD]) (by rw [hC]; exact hk),
      Transform_of_no_directives _ _ hT hA hDn hM, hC]
    dsimp only
    rw [appendToArray_arr, ih (fun x hx => h x (List.mem_cons_of_mem _ hx)), concatContributions,
      List.append_assoc]

/-- Merge of two successful mapping-valued responses without directives. -/
theorem Merge_two_plain (b1 b2 : Backend) (a b : Fields) (h1 : b1.noDirectives)
    (h2 : b2.noDirectives) :
    Merge [⟨b1, .obj a, none⟩, ⟨b2, .obj b, none⟩] = (.obj (deepMergeAll (deepMergeAll [] a) b), true) := by
  obtain ⟨hT1, hA1, hD1, hM1, hG1, hC1⟩ := h1
  obtain ⟨hT2, hA2, hD2, hM2, hG2, hC2⟩ := h2
  unfold Merge
  rw [mergeLoop_default _ _ _ _ (by simp) (by simp [Value.isNull]) (by simp [hC1])
      (by simp [hG1]) (by simp),
    mergeLoop_default _ _ _ _ (by simp) (by simp [Value.isNull]) (by simp [hC2])
      (by simp [hG2]) (by simp)]
  dsimp only
  rw [Transform_of_no_directives _ _ hT1 hA1 hD1 hM1,
    Transform_of_no_directives _ _ hT2 hA2 hD2 hM2]
  rfl

theorem mapGet_append (a b : Fields) (k : String) :
    mapGet k (a ++ b) = match mapGet k a with
      | some v => some v
      | none => mapGet k b := by
  induction a with
  | nil => rfl
  | cons kv rest ih =>
    obtain ⟨k0, v0⟩ := kv
    by_cases h0 : k0 = k
    · simp [mapGet, h0]
    · simp [mapGet, h0, ih]

/-! ## Merge: skipped responses -/

theorem Merge_sole_contributor (total : Nat) (hne : total ≠ 1) (r : BackendResponse)
    (hr : r.contributes = true) (hwf : r.Data.wf = true) :
    (mergeLoop total ⟨[], true, 0⟩ [r]).1 = (mergeLoop 1 ⟨[], true, 0⟩ [r]).1 ↔
      (r.Backend.Concat ≠ "" ∨ r.Backend.Group ≠ "" ∨
        (Transform r.Data r.Backend).isObj = true) := by
  obtain ⟨hE, hD⟩ := (contributes_iff r).mp hr
  by_cases hC : r.Backend.Concat ≠ ""
  · rw [mergeLoop_concat _ _ _ _ hE hD hC, mergeLoop_concat _ _ _ _ hE hD hC]
    simp [mergeLoop, hC]
  · by_cases hG : r.Backend.Group ≠ ""
    · rw [mergeLoop_group _ _ _ _ hE hD hC hG, mergeLoop_group _ _ _ _ hE hD hC hG]
      simp [mergeLoop, hG]
    · rw [mergeLoop_default _ _ _ _ hE hD hC hG (fun hh => hne hh.2),
        mergeLoop_shortcut _ _ _ _ hE hD hC hG ⟨rfl, rfl⟩]
      have htop := topWf_Transform r.Data r.Backend hwf
      simp only [mergeLoop, hC, hG, false_or]
      cases hT : Transform r.Data r.Backend with
      | obj m =>
        rw [hT] at htop
        have hm : NodupKeys m := by simpa [Value.topWf, NodupKeys] using htop
        simp [mergeIntoResult, deepMergeAll_nil m hm, Value.isObj]
      | null => simp [mergeIntoResult, Value.isObj]
      | bool b => simp [mergeIntoResult, Value.isObj]
      | num n => simp [mergeIntoResult, Value.isObj]
      | str s => simp [mergeIntoResult, Value.isObj]
      | arr xs => simp [mergeIntoResult, Value.isObj]

/-! ## Target extraction -/

theorem targetWalk_absent (data : Value) (seg : String) (post : List String)
    (pre : List String) :
    ∀ current cur : Fields, walkMaps current pre = some cur → mapGet seg cur = none →
      targetWalk data current (pre ++ seg :: post) = data := by
  induction pre with
  | nil =>
    intro current cur hw hs
    simp only [walkMaps, Option.some.injEq] at hw
    subst hw
    simp [targetWalk, hs]
  | cons p rest ih =>
    intro current cur hw hs
    rw [walkMaps] at hw
    rw [List.cons_append, targetWalk]
    split at hw
    · rename_i nextMap heq
      rw [heq]
      exact ih nextMap cur hw hs
    · cases hw

theorem targetWalk_early_exit (data : Value) (seg : String) (post : List String) (v : Value)
    (hv : v.isObj = false) (pre : List String) :
    ∀ current cur : Fields, walkMaps current pre = some cur → mapGet seg cur = some v →
      targetWalk data current (pre ++ seg :: post) = v := by
  induction pre with
  | nil =>
    intro current cur hw hs
    simp only [walkMaps, Option.some.injEq] at hw
    subst hw
    rw [List.nil_append, targetWalk, hs]
    cases v <;> simp_all [Value.isObj]
  | cons p rest ih =>
    intro current cur hw hs
    rw [walkMaps] at hw
    rw [List.cons_append, targetWalk]
    split at hw
    · rename_i nextMap heq
      rw [heq]
      exact ih nextMap cur hw hs
    · cases hw

theorem getNested_of_walkMaps (seg : String) (v : Value) (pre : List String) :
    ∀ current cur : Fields, walkMaps current pre = some cur → mapGet seg cur = some v →
      getNested current (pre ++ [seg]) = v := by
  induction pre with
  | nil =>
    intro current cur hw hs
    simp only [walkMaps, Option.some.injEq] at hw
    subst hw
    simp [getNested, hs]
  | cons p rest ih =>
    intro current cur hw hs
    rw [walkMaps] at hw
    rw [List.cons_append, getNested]
    split at hw
    · rename_i nextMap heq
      rw [heq]
      simp only [List.isEmpty_eq_true, List.append_eq_nil, List.cons_ne_self, and_false,
        if_false]
      exact ih nextMap cur hw hs
    · cases hw

theorem targetWalk_full (data : Value) (parts : List String) :
    ∀ current cur : Fields, walkMaps current parts = some cur →
      targetWalk data current parts = .obj cur := by
  induction parts with
  | nil =>
    intro current cur hw
    simp only [walkMaps, Option.some.injEq] at hw
    subst hw
    rfl
  | cons p rest ih =>
    intro current cur hw
    rw [walkMaps] at hw
    rw [targetWalk]
    split at hw
    · rename_i nextMap heq
      rw [heq]
      exact ih nextMap cur hw
    · cases hw

theorem targetWalk_eq_getNested (data : Value) (parts : List String) :
    ∀ current : Fields, (getNested current parts).isNull = false →
      targetWalk data current parts = getNested current parts := by
  induction parts with
  | nil => intro current h; simp [getNested, Value.isNull] at h
  | cons p rest ih =>
    intro current h
    rw [getNested] at h ⊢
    rw [targetWalk]
    cases hg : mapGet p current with
    | none => rw [hg] at h; simp [Value.isNull] at h
    | some value =>
      rw [hg] at h
      simp only at h ⊢
      by_cases hr : rest.isEmpty = true
      · have hrest : rest = [] := List.isEmpty_iff.mp hr
        subst hrest
        cases value <;> simp [targetWalk]
      · rw [if_neg hr] at h ⊢
        cases value with
        | obj nextMap => exact ih nextMap h
        | null => simp [Value.isNull] at h
        | bool b => simp [Value.isNull] at h
        | num n => simp [Value.isNull] at h
        | str s => simp [Value.isNull] at h
        | arr xs => simp [Value.isNull] at h

/-! ## Filtering and mapping: sequences, scalars, precedence of allow -/

theorem ApplyFilteringItems_eq_map (allow deny : List String) (items : List Value) :
    ApplyFilteringItems items allow deny = items.map (fun x => ApplyFiltering x allow deny) := by
  induction items with
  | nil => rw [ApplyFilteringItems]; rfl
  | cons x xs ih => rw [ApplyFilteringItems, ih]; rfl

theorem ApplyMappingItems_eq_map (mapping : List (String × String)) (items : List Value) :
    ApplyMappingItems items mapping = items.map (fun x => ApplyMapping x mapping) := by
  induction items with
  | nil => rw [ApplyMappingItems]; rfl
  | cons x xs ih => rw [ApplyMappingItems, ih]; rfl

theorem filterFields_deny_ignored (m : Fields) (allow deny : List String) (h : allow ≠ []) :
    filterFields m allow deny = filterFields m allow [] := by
  have hlen : allow.length > 0 := List.length_pos.mpr h
  unfold filterFields
  rw [if_pos hlen, if_pos hlen]

mutual
theorem ApplyFiltering_deny_ignored_aux (allow deny : List String) (h : allow ≠ []) :
    (v : Value) → ApplyFiltering v allow deny = ApplyFiltering v allow []
  | .arr items => by
    rw [ApplyFiltering, ApplyFiltering, ApplyFilteringItems_deny_ignored_aux allow deny h items]
  | .obj fields => by
    rw [ApplyFiltering, ApplyFiltering, filterFields_deny_ignored fields allow deny h]
  | .null => by rw [ApplyFiltering, ApplyFiltering]
  | .bool _ => by rw [ApplyFiltering, ApplyFiltering]
  | .num _ => by rw [ApplyFiltering, ApplyFiltering]
  | .str _ => by rw [ApplyFiltering, ApplyFiltering]
theorem ApplyFilteringItems_deny_ignored_aux (allow deny : List String) (h : allow ≠ []) :
    (items : List Value) →
      ApplyFilteringItems items allow deny = ApplyFilteringItems items allow []
  | [] => by rw [ApplyFilteringItems, ApplyFilteringItems]
  | x :: xs => by
    rw [ApplyFilteringItems, ApplyFilteringItems, ApplyFiltering_deny_ignored_aux allow deny h x,
      ApplyFilteringItems_deny_ignored_aux allow deny h xs]
end

/-! ## Dot-free names -/

theorem splitDotsAux_dotFree (cs : List Char) (h : '.' ∉ cs) :
    ∀ cur : List Char, splitDotsAux cs cur = [String.mk (cur.reverse ++ cs)] := by
  induction cs with
  | nil => intro cur; simp [splitDotsAux]
  | cons c rest ih =>
    intro cur
    have hc : ¬ c = '.' := fun e => h (by simp [e])
    have hr : '.' ∉ rest := fun e => h (List.mem_cons_of_mem _ e)
    rw [splitDotsAux, if_neg hc, ih hr]
    simp

theorem splitDots_dotFree (s : String) (h : dotFree s) : splitDots s = [s] := by
  unfold splitDots
  rw [splitDotsAux_dotFree s.data h []]
  simp

theorem splitDotsAux_ne_nil (cs : List Char) : ∀ cur : List Char, splitDotsAux cs cur ≠ [] := by
  induction cs with
  | nil => intro cur; simp [splitDotsAux]
  | cons c rest ih =>
    intro cur
    rw [splitDotsAux]
    split
    · simp
    · exact ih _

theorem splitDots_ne_nil (s : String) : splitDots s ≠ [] :=
  splitDotsAux_ne_nil _ _

theorem GetNestedField_dotFree (m : Fields) (f : String) (h : dotFree f) :
    GetNestedField m f = match mapGet f m with
      | some v => v
      | none => .null := by
  unfold GetNestedField
  rw [splitDots_dotFree f h]
  simp only [getNested, List.isEmpty_nil, if_true]

theorem SetNestedField_dotFree (r : Fields) (f : String) (v : Value) (h : dotFree f) :
    SetNestedField r f v = mapSet f v r := by
  unfold SetNestedField
  rw [splitDots_dotFree f h]
  simp [setNested]

/-! ## Allow list of dot-free names -/

theorem mapGet_allow_fold (m : Fields) (k : String) (allow : List String)
    (hdf : ∀ f ∈ allow, dotFree f) :
    ∀ acc : Fields,
      mapGet k (allow.foldl
        (fun result field =>
          let value := GetNestedField m field
          if value.isNull then result else SetNestedField result field value) acc) =
      match allowedValue m allow k with
      | some v => some v
      | none => mapGet k acc := by
  induction allow with
  | nil => intro acc; simp [allowedValue]
  | cons f rest ih =>
    intro acc
    have hf : dotFree f := hdf f (List.mem_cons_self _ _)
    have hrest : ∀ g ∈ rest, dotFree g := fun g hg => hdf g (List.mem_cons_of_mem _ hg)
    rw [List.foldl_cons, ih hrest]
    dsimp only
    rw [GetNestedField_dotFree m f hf]
    by_cases hkf : k = f
    · subst hkf
      cases hg : mapGet k m with
      | none =>
        simp [allowedValue, hg, Value.isNull]
      | some v =>
        by_cases hn : v.isNull = true
        · simp [allowedValue, hg, hn]
        · simp only [hn, if_false, Bool.false_eq_true]
          rw [SetNestedField_dotFree _ _ _ hf, mapGet_mapSet_same]
          simp only [allowedValue, hg, hn, List.mem_cons, true_or, if_true, if_false,
            Bool.false_eq_true]
          by_cases hkr : k ∈ rest <;> simp [hkr]
    · have hacc : mapGet k (if (match mapGet f m with
            | some v => v
            | none => Value.null).isNull = true then acc
          else SetNestedField acc f (match mapGet f m with
            | some v => v
            | none => Value.null)) = mapGet k acc := by
        split
        · rfl
        · rw [SetNestedField_dotFree _ _ _ hf, mapGet_mapSet_ne _ _ _ _ hkf]
      rw [hacc]
      simp [allowedValue, hkf]

theorem allowedValue_eq_some (m : Fields) (allow : List String) (k : String) (v : Value) :
    allowedValue m allow k = some v ↔ (k ∈ allow ∧ mapGet k m = some v ∧ v.isNull = false) := by
  unfold allowedValue
  by_cases hk : k ∈ allow
  · rw [if_pos hk]
    cases hg : mapGet k m with
    | none => simp
    | some w =>
      by_cases hn : w.isNull = true
      · simp only [hn, if_true, hk, true_and, Option.some.injEq]
        constructor
        · intro h; cases h
        · rintro ⟨rfl, h2⟩; rw [hn] at h2; cases h2
      · simp only [hn, if_false, hk, true_and, Option.some.injEq, Bool.false_eq_true]
        constructor
        · rintro rfl; exact ⟨rfl, by simpa using hn⟩
        · rintro ⟨rfl, _⟩; rfl
  · simp [hk]

/-! ## Deny list -/

theorem mapGet_mapDelete_same (k : String) (m : Fields) : mapGet k (mapDelete k m) = none := by
  rw [mapGet_eq_none_iff, keysOf_mapDelete]
  simp

theorem mapGet_mapDelete_ne (k k1 : String) (m : Fields) (h : k1 ≠ k) :
    mapGet k1 (mapDelete k m) = mapGet k1 m := by
  induction m with
  | nil => rfl
  | cons kv rest ih =>
    obtain ⟨k0, v0⟩ := kv
    by_cases h0 : k0 = k
    · subst h0
      have h1 : ¬ k0 = k1 := fun e => h e.symm
      simp [mapDelete, mapGet, h1, ih]
    · by_cases h1 : k0 = k1
      · subst h1
        simp [mapDelete, mapGet, h0]
      · simp [mapDelete, mapGet, h0, h1, ih]

theorem getNested_deleteNested_self (parts : List String) (hne : parts ≠ []) :
    ∀ cur : Fields, (getNested (deleteNested cur parts) parts).isNull = true := by
  induction parts with
  | nil => exact absurd rfl hne
  | cons p rest ih =>
    intro cur
    rw [deleteNested]
    by_cases hr : rest.isEmpty = true
    · rw [if_pos hr, getNested, mapGet_mapDelete_same]
      rfl
    · rw [if_neg hr]
      have hrest : rest ≠ [] := fun e => hr (by simp [e])
      cases hg : mapGet p cur with
      | none =>
        simp only
        rw [getNested, hg]
        rfl
      | some value =>
        cases value with
        | obj nextMap =>
          simp only
          rw [getNested, mapGet_mapSet_same]
          simp only [hr, if_false]
          exact ih hrest nextMap
        | null => simp only; rw [getNested, hg]; simp [hr, Value.isNull]
        | bool b => simp only; rw [getNested, hg]; simp [hr, Value.isNull]
        | num n => simp only; rw [getNested, hg]; simp [hr, Value.isNull]
        | str s => simp only; rw [getNested, hg]; simp [hr, Value.isNull]
        | arr xs => simp only; rw [getNested, hg]; simp [hr, Value.isNull]

theorem mapGet_deleteNested_ne (k : String) (parts : List String) (cur : Fields)
    (h : parts.head? ≠ some k) : mapGet k (deleteNested cur parts) = mapGet k cur := by
  cases parts with
  | nil => rfl
  | cons p rest =>
    have hpk : k ≠ p := fun e => h (by simp [e])
    rw [deleteNested]
    split
    · exact mapGet_mapDelete_ne _ _ _ hpk
    · split
      · exact mapGet_mapSet_ne _ _ _ _ hpk
      · rfl

theorem getNested_deleteNested_mono (q : List String) :
    ∀ (p : List String) (cur : Fields), (getNested cur p).isNull = true →
      (getNested (deleteNested cur q) p).isNull = true := by
  induction q with
  | nil => intro p cur h; exact h
  | cons t qrest ih =>
    intro p cur h
    cases p with
    | nil => rfl
    | cons s prest =>
      by_cases hst : s = t
      · subst hst
        rw [deleteNested]
        by_cases hq : qrest.isEmpty = true
        · rw [if_pos hq, getNested, mapGet_mapDelete_same]
          rfl
        · rw [if_neg hq]
          cases hg : mapGet s cur with
          | none => simp only; exact h
          | some value =>
            cases value with
            | obj nextMap =>
              simp only
              rw [getNested, hg] at h
              rw [getNested, mapGet_mapSet_same]
              simp only at h ⊢
              by_cases hp : prest.isEmpty = true
              · rw [if_pos hp] at h; simp [Value.isNull] at h
              · rw [if_neg hp] at h ⊢
                exact ih prest nextMap h
            | null => simp only; exact h
            | bool b => simp only; exact h
            | num n => simp only; exact h
            | str s => simp only; exact h
            | arr xs => simp only; exact h
      · have hne : (t :: qrest).head? ≠ some s := by
          simp only [List.head?_cons, ne_eq, Option.some.injEq]
          exact fun e => hst e.symm
        rw [getNested, mapGet_deleteNested_ne s (t :: qrest) cur hne]
        rw [getNested] at h
        exact h

theorem deny_fold_mono (p : String) (deny : List String) :
    ∀ acc : Fields, (GetNestedField acc p).isNull = true →
      (GetNestedField (deny.foldl (fun result field => DeleteNestedField result field) acc)
        p).isNull = true := by
  induction deny with
  | nil => intro acc h; exact h
  | cons d rest ih =>
    intro acc h
    rw [List.foldl_cons]
    exact ih _ (getNested_deleteNested_mono _ _ _ h)

theorem deny_fold_removed (deny : List String) :
    ∀ (acc : Fields) (p : String), p ∈ deny →
      (GetNestedField (deny.foldl (fun result field => DeleteNestedField result field) acc)
        p).isNull = true := by
  induction deny with
  | nil => intro acc p hp; cases hp
  | cons d rest ih =>
    intro acc p hp
    rw [List.foldl_cons]
    rcases List.mem_cons.mp hp with h | h
    · subst h
      exact deny_fold_mono p rest _ (getNested_deleteNested_self _ (splitDots_ne_nil p) acc)
    · exact ih _ p h

theorem deny_fold_untouched (k : String) (deny : List String)
    (h : ∀ p ∈ deny, (splitDots p).head? ≠ some k) :
    ∀ acc : Fields,
      mapGet k (deny.foldl (fun result field => DeleteNestedField result field) acc) =
        mapGet k acc := by
  induction deny with
  | nil => intro acc; rfl
  | cons d rest ih =>
    intro acc
    rw [List.foldl_cons, ih (fun p hp => h p (List.mem_cons_of_mem _ hp))]
    exact mapGet_deleteNested_ne k _ acc (h d (List.mem_cons_self _ _))

/-! ## Mapping directive with dot-free names -/

theorem mapGet_copy_unmapped (olds : List String) (k : String) (m : Fields) :
    ∀ acc : Fields, (keysOf acc ++ keysOf m).Nodup →
      mapGet k (m.foldl
        (fun result kv => if kv.1 ∈ olds then result else mapSet kv.1 kv.2 result) acc) =
      match mapGet k acc with
      | some v => some v
      | none => if k ∈ olds then none else mapGet k m := by
  induction m with
  | nil => intro acc _; cases h : mapGet k acc <;> simp [h, mapGet]
  | cons kv rest ih =>
    intro acc hnd
    obtain ⟨k0, v0⟩ := kv
    have hk0 : k0 ∉ keysOf acc := by
      intro hmem
      exact (List.nodup_append.mp hnd).2.2 hmem (by simp [keysOf])
    have hk0r : k0 ∉ keysOf rest := by
      have := (List.nodup_append.mp hnd).2.1
      simp only [keysOf, List.map_cons, List.nodup_cons] at this
      exact this.1
    have hnd1 : (keysOf acc ++ keysOf rest).Nodup := by
      simp only [keysOf, List.map_cons] at hnd ⊢
      exact (List.nodup_cons.mp (List.nodup_middle.mp hnd)).2
    rw [List.foldl_cons]
    by_cases ho : k0 ∈ olds
    · simp only [ho, if_true]
      rw [ih acc hnd1]
      by_cases hk : k0 = k
      · subst hk
        rw [(mapGet_eq_none_iff k0 acc).mpr hk0]
        simp [ho]
      · simp [mapGet, hk]
    · simp only [ho, if_false]
      have hnd2 : (keysOf (mapSet k0 v0 acc) ++ keysOf rest).Nodup := by
        rw [mapSet_of_not_mem k0 v0 acc hk0]
        simp only [keysOf, List.map_append, List.map_cons, List.map_nil, List.append_assoc,
          List.singleton_append] at hnd ⊢
        exact hnd
      rw [ih _ hnd2]
      by_cases hk : k0 = k
      · subst hk
        rw [mapGet_mapSet_same, (mapGet_eq_none_iff k0 acc).mpr hk0]
        simp [mapGet, ho]
      · have hk1 : k ≠ k0 := fun e => hk e.symm
        rw [mapGet_mapSet_ne _ _ _ _ hk1]
        simp [mapGet, hk]

theorem mapGet_mapping_fold_none (m : Fields) (k : String) (mapping : List (String × String))
    (hdf : ∀ e ∈ mapping, dotFree e.2) (hk : k ∉ mapping.map Prod.snd) :
    ∀ acc : Fields,
      mapGet k (mapping.foldl
        (fun result oldNew =>
          let value := GetNestedField m oldNew.1
          if value.isNull then result else SetNestedField result oldNew.2 value) acc) =
      mapGet k acc := by
  induction mapping with
  | nil => intro acc; rfl
  | cons e rest ih =>
    intro acc
    have hke : k ≠ e.2 := fun h => hk (by simp [h])
    have hkr : k ∉ rest.map Prod.snd := fun h => hk (by simp at h ⊢; exact Or.inr h)
    rw [List.foldl_cons, ih (fun x hx => hdf x (List.mem_cons_of_mem _ hx)) hkr]
    dsimp only
    split
    · rfl
    · rw [SetNestedField_dotFree _ _ _ (hdf e (List.mem_cons_self _ _)),
        mapGet_mapSet_ne _ _ _ _ hke]

theorem mapGet_mapping_fold (m : Fields) (k : String) (mapping : List (String × String))
    (hdf : ∀ e ∈ mapping, dotFree e.1 ∧ dotFree e.2) (hnd : (mapping.map Prod.snd).Nodup) :
    ∀ acc : Fields,
      mapGet k (mapping.foldl
        (fun result oldNew =>
          let value := GetNestedField m oldNew.1
          if value.isNull then result else SetNestedField result oldNew.2 value) acc) =
      match mapping.find? (fun e => decide (e.2 = k)) with
      | some e =>
        (match mapGet e.1 m with
          | some v => if v.isNull then mapGet k acc else some v
          | none => mapGet k acc)
      | none => mapGet k acc := by
  induction mapping with
  | nil => intro acc; rfl
  | cons e rest ih =>
    intro acc
    have hdfe := hdf e (List.mem_cons_self _ _)
    have hdfr : ∀ x ∈ rest, dotFree x.1 ∧ dotFree x.2 :=
      fun x hx => hdf x (List.mem_cons_of_mem _ hx)
    have hnd2 : e.2 ∉ rest.map Prod.snd ∧ (rest.map Prod.snd).Nodup := by
      simpa using hnd
    rw [List.foldl_cons]
    by_cases hek : e.2 = k
    · subst hek
      rw [mapGet_mapping_fold_none m e.2 rest (fun x hx => (hdfr x hx).2) hnd2.1]
      simp only [List.find?_cons, decide_True]
      rw [GetNestedField_dotFree m e.1 hdfe.1]
      cases hg : mapGet e.1 m with
      | none => simp [Value.isNull]
      | some v =>
        by_cases hn : v.isNull = true
        · simp [hn]
        · simp only [hn, if_false, Bool.false_eq_true]
          rw [SetNestedField_dotFree _ _ _ hdfe.2, mapGet_mapSet_same]
    · rw [ih hdfr hnd2.2]
      have hke : k ≠ e.2 := fun h => hek h.symm
      have hacc : mapGet k
          (if (GetNestedField m e.1).isNull = true then acc
            else SetNestedField acc e.2 (GetNestedField m e.1)) = mapGet k acc := by
        split
        · rfl
        · rw [SetNestedField_dotFree _ _ _ hdfe.2, mapGet_mapSet_ne _ _ _ _ hke]
      simp only [List.find?_cons, hek, decide_False]
      rw [hacc]

theorem find_new_name (mapping : List (String × String)) (hnd : (mapping.map Prod.snd).Nodup)
    (e : String × String) (he : e ∈ mapping) :
    mapping.find? (fun x => decide (x.2 = e.2)) = some e := by
  induction mapping with
  | nil => cases he
  | cons x rest ih =>
    have hnd2 : x.2 ∉ rest.map Prod.snd ∧ (rest.map Prod.snd).Nodup := by
      simpa using hnd
    rcases List.mem_cons.mp he with h | h
    · subst h
      simp [List.find?_cons]
    · have hne : ¬ x.2 = e.2 := by
        intro hx
        exact hnd2.1 (by rw [hx]; exact List.mem_map_of_mem _ h)
      simp only [List.find?_cons, hne, decide_False]
      exact ih hnd2.2 h

/-! ## Header forwarding -/

theorem headerGet_headerSet_same (name value : String) (hs : List (String × String)) :
    headerGet name (headerSet name value hs) = some value := by
  induction hs with
  | nil => simp [headerSet, headerGet]
  | cons nv rest ih =>
    obtain ⟨n0, v0⟩ := nv
    by_cases h : n0 = name
    · simp [headerSet, headerGet, h]
    · simp [headerSet, headerGet, h, ih]

theorem headerGet_headerSet_ne (name n1 value : String) (hs : List (String × String))
    (h : n1 ≠ name) : headerGet n1 (headerSet name value hs) = headerGet n1 hs := by
  induction hs with
  | nil => simp [headerSet, headerGet, h.symm]
  | cons nv rest ih =>
    obtain ⟨n0, v0⟩ := nv
    by_cases h0 : n0 = name
    · subst h0
      have h1 : ¬ n0 = n1 := fun e => h e.symm
      simp [headerSet, headerGet, h1]
    · by_cases h1 : n0 = n1
      · subst h1
        simp [headerSet, headerGet, h0]
      · simp [headerSet, headerGet, h0, h1, ih]

theorem processHeaders_eq_fold (toLower : String → String) (header : List (String × List String))
    (removeHeaders : List String) :
    processHeaders toLower header removeHeaders =
      header.foldl (headerStep toLower removeHeaders) [] := rfl

theorem headerGet_step_ne (toLower : String → String) (removeHeaders : List String)
    (headers : List (String × String)) (nv : String × List String) (name : String)
    (h : name ≠ nv.1) :
    headerGet name (headerStep toLower removeHeaders headers nv) = headerGet name headers := by
  unfold headerStep
  split
  · rfl
  · split
    · rfl
    · split
      · exact headerGet_headerSet_ne _ _ _ _ h
      · rfl

theorem headerGet_step_same (toLower : String → String) (removeHeaders : List String)
    (headers : List (String × String)) (name : String) (values : List String) :
    headerGet name (headerStep toLower removeHeaders headers (name, values)) =
      if toLower name ∈ removeHeaders.map toLower ∨
          toLower name ∈ ["host", "content-length", "transfer-encoding", "connection",
            "upgrade", "accept-encoding"] then headerGet name headers
      else
        match values with
        | value :: _ => some value
        | [] => headerGet name headers := by
  unfold headerStep
  by_cases h1 : toLower name ∈ removeHeaders.map toLower
  · simp only [h1, if_true, true_or]
  · by_cases h2 : toLower name ∈ ["host", "content-length", "transfer-encoding", "connection",
        "upgrade", "accept-encoding"]
    · simp only [h1, h2, if_true, if_false, or_true]
    · simp only [h1, h2, if_false, or_self]
      cases values with
      | nil => rfl
      | cons v vs => exact headerGet_headerSet_same _ _ _

theorem headerGet_fold_absent (toLower : String → String) (removeHeaders : List String)
    (name : String) (header : List (String × List String))
    (h : name ∉ header.map Prod.fst) :
    ∀ acc : List (String × String),
      headerGet name (header.foldl (headerStep toLower removeHeaders) acc) =
        headerGet name acc := by
  induction header with
  | nil => intro acc; rfl
  | cons nv rest ih =>
    intro acc
    have h1 : name ≠ nv.1 := fun e => h (by simp [e])
    have h2 : name ∉ rest.map Prod.fst := fun e => h (by simp at e ⊢; exact Or.inr e)
    rw [List.foldl_cons, ih h2, headerGet_step_ne _ _ _ _ _ h1]

theorem headerGet_fold_present (toLower : String → String) (removeHeaders : List String)
    (name : String) (values : List String) (header : List (String × List String))
    (hnd : (header.map Prod.fst).Nodup) (hmem : (name, values) ∈ header) :
    ∀ acc : List (String × String),
      headerGet name (header.foldl (headerStep toLower removeHeaders) acc) =
        headerGet name (headerStep toLower removeHeaders acc (name, values)) := by
  induction header with
  | nil => cases hmem
  | cons nv rest ih =>
    intro acc
    have hnd2 : nv.1 ∉ rest.map Prod.fst ∧ (rest.map Prod.fst).Nodup := by
      simpa using hnd
    rw [List.foldl_cons]
    rcases List.mem_cons.mp hmem with h | h
    · subst h
      exact headerGet_fold_absent _ _ _ rest hnd2.1 _
    · have hne : name ≠ nv.1 := by
        intro e
        exact hnd2.1 (by rw [← e]; exact List.mem_map_of_mem Prod.fst h)
      rw [ih hnd2.2 h, headerGet_step_same, headerGet_step_same,
        headerGet_step_ne _ _ _ _ _ hne]

theorem headerGet_fold_nil_iff (toLower : String → String) (removeHeaders : List String)
    (header : List (String × List String)) (hnd : (header.map Prod.fst).Nodup)
    (name value : String) :
    headerGet name (header.foldl (headerStep toLower removeHeaders) []) = some value ↔
      ∃ values : List String, (name, value :: values) ∈ header ∧
        toLower name ∉ ["host", "content-length", "transfer-encoding", "connection",
          "upgrade", "accept-encoding"] ∧
        ∀ h ∈ removeHeaders, toLower h ≠ toLower name := by
  constructor
  · intro hget
    by_cases hin : name ∈ header.map Prod.fst
    · obtain ⟨⟨n, vals⟩, hmem, hn⟩ := List.mem_map.mp hin
      simp only at hn
      subst hn
      rw [headerGet_fold_present _ _ n vals header hnd hmem, headerGet_step_same] at hget
      by_cases hskip : toLower n ∈ removeHeaders.map toLower ∨
          toLower n ∈ ["host", "content-length", "transfer-encoding", "connection",
            "upgrade", "accept-encoding"]
      · rw [if_pos hskip] at hget
        simp [headerGet] at hget
      · rw [if_neg hskip] at hget
        cases vals with
        | nil => simp [headerGet] at hget
        | cons v vs =>
          simp only [Option.some.injEq] at hget
          subst hget
          refine ⟨vs, hmem, fun h => hskip (Or.inr h), ?_⟩
          intro h hh e
          exact hskip (Or.inl (by rw [← e]; exact List.mem_map_of_mem toLower hh))
    · rw [headerGet_fold_absent _ _ _ header hin] at hget
      simp [headerGet] at hget
  · rintro ⟨values, hmem, hhop, hrem⟩
    rw [headerGet_fold_present _ _ name (value :: values) header hnd hmem, headerGet_step_same]
    have hskip : ¬ (toLower name ∈ removeHeaders.map toLower ∨
        toLower name ∈ ["host", "content-length", "transfer-encoding", "connection",
          "upgrade", "accept-encoding"]) := by
      rintro (h | h)
      · obtain ⟨x, hx, hxe⟩ := List.mem_map.mp h
        exact hrem x hx hxe
      · exact hhop h
    rw [if_neg hskip]

/-! ## URL construction -/

theorem joinURL_eq (baseURL urlPattern : String) :
    joinURL baseURL urlPattern =
      trimOneSuffixSlash baseURL ++ "/" ++ trimOnePrefixSlash urlPattern := by
  apply String.ext
  unfold joinURL trimOneSuffixSlash trimOnePrefixSlash
  by_cases hs : hasSuffixSlash baseURL = true
  · have hb : baseURL.data.dropLast ++ ['/'] = baseURL.data := by
      apply List.dropLast_append_getLast?
      unfold hasSuffixSlash at hs
      simpa using hs
    by_cases hp : hasPrefixSlash urlPattern = true
    · simp only [hs, hp, and_self, if_true, String.data_append]
      conv_lhs => rw [← hb]
    · simp only [hs, hp, and_false, if_false, not_true_eq_false, false_and, if_true,
        String.data_append, Bool.false_eq_true]
      conv_lhs => rw [← hb]
  · by_cases hp : hasPrefixSlash urlPattern = true
    · have hu : urlPattern.data = '/' :: urlPattern.data.drop 1 := by
        unfold hasPrefixSlash at hp
        cases hd : urlPattern.data with
        | nil => simp [hd] at hp
        | cons c cs => simp [hd] at hp; simp [hp]
      simp only [hs, hp, false_and, if_false, not_false_eq_true, not_true_eq_false, and_false,
        if_true, String.data_append, Bool.false_eq_true]
      conv_lhs => rw [hu]
      simp
    · simp only [hs, hp, false_and, if_false, not_false_eq_true, and_self, if_true,
        Bool.false_eq_true]

/-! ## Configuration defaults and validation -/

theorem setServiceDefaults_eq (c : Config) :
    setServiceDefaults c =
      ⟨c.Timeout, if c.Port = "" then "8080" else c.Port,
        if c.LogLevel = "" then "info" else c.LogLevel,
        if c.LogFormat = "" then "json" else c.LogFormat,
        if c.ShutdownTimeout = 0 then 15000000000 else c.ShutdownTimeout,
        c.TracingEnabled, c.TracingEndpoint, c.MetricsEnabled,
        if c.ServiceName = "" then "api-aggregator" else c.ServiceName, c.Endpoints⟩ := by
  obtain ⟨t, p, ll, lf, st, te, tep, me, sn, eps⟩ := c
  simp only [setServiceDefaults, defaultPort, defaultLogLevel, defaultLogFormat,
    defaultShutdownTimeout, defaultServiceName, second]
  split_ifs <;> simp_all

theorem setTimeoutDefaults_eq (c : Config) :
    setTimeoutDefaults c =
      ⟨if c.Timeout = 0 then 10000000000 else c.Timeout, c.Port, c.LogLevel, c.LogFormat,
        c.ShutdownTimeout, c.TracingEnabled, c.TracingEndpoint, c.MetricsEnabled,
        c.ServiceName, c.Endpoints⟩ := by
  obtain ⟨t, p, ll, lf, st, te, tep, me, sn, eps⟩ := c
  simp only [setTimeoutDefaults, defaultTimeout, second]
  split_ifs <;> simp_all

theorem setBackendDefault_eq (endpoint : Endpoint) (b : Backend) :
    setBackendDefault endpoint b =
      ⟨if b.URLPattern = "" then endpoint.Endpoint else b.URLPattern,
        if b.Encoding = "" then endpoint.Encoding else b.Encoding,
        b.Host, b.RemoveHeaders, b.Group, b.Target, b.Allow, b.Deny, b.Mapping, b.Concat⟩ := by
  obtain ⟨up, enc, host, rh, g, t, a, d, m, cc⟩ := b
  simp only [setBackendDefault]
  split_ifs <;> simp_all

theorem endpointDefaults_eq (c : Config) (e : Endpoint) :
    setBackendDefaults (setEndpointEncoding (setEndpointMethod (setEndpointTimeout c e))) =
      ⟨e.Endpoint,
        if e.Method = "" then "GET" else e.Method,
        if e.Timeout = 0 then c.Timeout else e.Timeout,
        if e.Encoding = "" then "json" else e.Encoding,
        e.Backends.map (fun b =>
          ⟨if b.URLPattern = "" then e.Endpoint else b.URLPattern,
            if b.Encoding = "" then (if e.Encoding = "" then "json" else e.Encoding)
            else b.Encoding,
            b.Host, b.RemoveHeaders, b.Group, b.Target, b.Allow, b.Deny, b.Mapping,
            b.Concat⟩)⟩ := by
  obtain ⟨path, method, timeout, enc, backends⟩ := e
  simp only [setBackendDefaults, setEndpointEncoding, setEndpointMethod, setEndpointTimeout,
    defaultMethod, defaultEncoding]
  split_ifs <;> simp_all [setBackendDefault_eq]

theorem validEncodings_iff (encoding : String) :
    validEncodings encoding = true ↔ encoding ∈ ["json", "xml", "yaml"] := by
  simp [validEncodings, or_assoc]

theorem validateBackend_none_iff (endpointName : String) (j : Nat) (b : Backend) :
    validateBackend endpointName j b = none ↔
      (b.Host ≠ "" ∧ b.Encoding ∈ ["json", "xml", "yaml"]) := by
  unfold validateBackend
  by_cases hh : b.Host = ""
  · simp [hh]
  · by_cases he : validEncodings b.Encoding = true
    · simp [hh, he, (validEncodings_iff _).mp he]
    · have hne : ¬ b.Encoding ∈ ["json", "xml", "yaml"] := fun h => he ((validEncodings_iff _).mpr h)
      simp only [hh, he, if_false, Bool.not_eq_true, Bool.not_false]
      simp [hne]

theorem validateBackendsFrom_none_iff (endpointName : String) (bs : List Backend) :
    ∀ j : Nat, validateBackendsFrom endpointName j bs = none ↔
      ∀ b ∈ bs, b.Host ≠ "" ∧ b.Encoding ∈ ["json", "xml", "yaml"] := by
  induction bs with
  | nil => intro j; simp [validateBackendsFrom]
  | cons b rest ih =>
    intro j
    rw [validateBackendsFrom]
    cases hv : validateBackend endpointName j b with
    | some err =>
      have hnot : ¬ (b.Host ≠ "" ∧ b.Encoding ∈ ["json", "xml", "yaml"]) := by
        intro h
        rw [(validateBackend_none_iff endpointName j b).mpr h] at hv
        cases hv
      rw [List.forall_mem_cons]
      constructor
      · intro h; cases h
      · intro h; exact absurd h.1 hnot
    | none =>
      have hok := (validateBackend_none_iff endpointName j b).mp hv
      rw [List.forall_mem_cons, ih (j + 1)]
      exact ⟨fun h => ⟨hok, h⟩, fun h => h.2⟩

theorem validateEndpoint_none_iff (i : Nat) (e : Endpoint) :
    validateEndpoint i e = none ↔
      (e.Endpoint ≠ "" ∧ e.Backends ≠ [] ∧ e.Encoding ∈ ["json", "xml", "yaml"] ∧
        ∀ b ∈ e.Backends, b.Host ≠ "" ∧ b.Encoding ∈ ["json", "xml", "yaml"]) := by
  unfold validateEndpoint
  by_cases hp : e.Endpoint = ""
  · simp [hp]
  · by_cases hb : e.Backends.length = 0
    · have : e.Backends = [] := List.eq_nil_of_length_eq_zero hb
      simp [hp, this]
    · have hbne : e.Backends ≠ [] := fun h => hb (by rw [h]; rfl)
      by_cases he : validEncodings e.Encoding = true
      · simp only [hp, hb, he, if_false, Bool.not_true, Bool.false_eq_true, validateBackends]
        rw [validateBackendsFrom_none_iff]
        exact ⟨fun h => ⟨hp, hbne, (validEncodings_iff _).mp he, h⟩, fun h => h.2.2.2⟩
      · have hne : ¬ e.Encoding ∈ ["json", "xml", "yaml"] :=
          fun h => he ((validEncodings_iff _).mpr h)
        simp only [hp, hb, he, if_false, Bool.not_eq_true, Bool.not_false]
        simp [hne]

theorem validateEndpointsFrom_none_iff (es : List Endpoint) :
    ∀ i : Nat, validateEndpointsFrom i es = none ↔
      ∀ e ∈ es, e.Endpoint ≠ "" ∧ e.Backends ≠ [] ∧ e.Encoding ∈ ["json", "xml", "yaml"] ∧
        ∀ b ∈ e.Backends, b.Host ≠ "" ∧ b.Encoding ∈ ["json", "xml", "yaml"] := by
  induction es with
  | nil => intro i; simp [validateEndpointsFrom]
  | cons e rest ih =>
    intro i
    rw [validateEndpointsFrom]
    cases hv : validateEndpoint i e with
    | some err =>
      rw [List.forall_mem_cons]
      constructor
      · intro h; cases h
      · intro h
        rw [(validateEndpoint_none_iff i e).mpr h.1] at hv
        cases hv
    | none =>
      have hok := (validateEndpoint_none_iff i e).mp hv
      rw [List.forall_mem_cons, ih (i + 1)]
      exact ⟨fun h => ⟨hok, h⟩, fun h => h.2⟩

theorem validate_none_iff (c : Config) :
    validate c = none ↔
      (c.Endpoints ≠ [] ∧
        ∀ e ∈ c.Endpoints, e.Endpoint ≠ "" ∧ e.Backends ≠ [] ∧
          e.Encoding ∈ ["json", "xml", "yaml"] ∧
          ∀ b ∈ e.Backends, b.Host ≠ "" ∧ b.Encoding ∈ ["json", "xml", "yaml"]) := by
  unfold validate
  by_cases h0 : c.Endpoints.length = 0
  · have : c.Endpoints = [] := List.eq_nil_of_length_eq_zero h0
    simp [this]
  · have hne : c.Endpoints ≠ [] := fun h => h0 (by rw [h]; rfl)
    rw [if_neg h0, validateEndpointsFrom_none_iff]
    exact ⟨fun h => ⟨hne, h⟩, fun h => h.2⟩

/-! ## Outbound request headers -/

theorem headerGet_eq_none_iff (name : String) (hs : List (String × String)) :
    headerGet name hs = none ↔ name ∉ hs.map Prod.fst := by
  induction hs with
  | nil => simp [headerGet]
  | cons nv rest ih =>
    obtain ⟨n0, v0⟩ := nv
    by_cases h : n0 = name
    · simp [headerGet, h]
    · have h1 : ¬ name = n0 := fun e => h e.symm
      simp [headerGet, h, h1, ih]

theorem headerGet_some_mem (name value : String) (hs : List (String × String))
    (h : headerGet name hs = some value) : (name, value) ∈ hs := by
  induction hs with
  | nil => simp [headerGet] at h
  | cons nv rest ih =>
    obtain ⟨n0, v0⟩ := nv
    by_cases h0 : n0 = name
    · simp only [headerGet, h0, if_true, Option.some.injEq] at h
      simp [h0, h]
    · simp only [headerGet, h0, if_false] at h
      exact List.mem_cons_of_mem _ (ih h)

theorem headerSet_of_not_mem (name value : String) (hs : List (String × String))
    (h : name ∉ hs.map Prod.fst) : headerSet name value hs = hs ++ [(name, value)] := by
  induction hs with
  | nil => simp [headerSet]
  | cons nv rest ih =>
    obtain ⟨n0, v0⟩ := nv
    simp only [List.map_cons, List.mem_cons, not_or] at h
    have h0 : ¬ n0 = name := fun e => h.1 e.symm
    simp [headerSet, h0, ih h.2]

theorem names_headerSet_of_mem (name value : String) (hs : List (String × String))
    (h : name ∈ hs.map Prod.fst) :
    (headerSet name value hs).map Prod.fst = hs.map Prod.fst := by
  induction hs with
  | nil => simp at h
  | cons nv rest ih =>
    obtain ⟨n0, v0⟩ := nv
    by_cases h0 : n0 = name
    · simp [headerSet, h0]
    · have h1 : name ∈ rest.map Prod.fst := by
        simp only [List.map_cons, List.mem_cons] at h
        rcases h with h | h
        · exact absurd h.symm h0
        · exact h
      simp [headerSet, h0, ih h1]

theorem nodup_names_headerSet (name value : String) (hs : List (String × String))
    (h : (hs.map Prod.fst).Nodup) : ((headerSet name value hs).map Prod.fst).Nodup := by
  by_cases hk : name ∈ hs.map Prod.fst
  · rw [names_headerSet_of_mem name value hs hk]; exact h
  · rw [headerSet_of_not_mem name value hs hk, List.map_append, List.nodup_append]
    refine ⟨h, by simp, ?_⟩
    intro a ha hb
    simp at hb
    subst hb
    exact hk ha

theorem nodup_names_headerStep (toLower : String → String) (removeHeaders : List String)
    (hs : List (String × String)) (nv : String × List String)
    (h : (hs.map Prod.fst).Nodup) :
    ((headerStep toLower removeHeaders hs nv).map Prod.fst).Nodup := by
  unfold headerStep
  split
  · exact h
  · split
    · exact h
    · split
      · exact nodup_names_headerSet _ _ _ h
      · exact h

theorem nodup_names_processHeaders (toLower : String → String)
    (header : List (String × List String)) (removeHeaders : List String) :
    ((processHeaders toLower header removeHeaders).map Prod.fst).Nodup := by
  rw [processHeaders_eq_fold]
  exact foldl_preserves (fun hs => (hs.map Prod.fst).Nodup) _
    (fun acc x h => nodup_names_headerStep toLower removeHeaders acc x h) header []
    (by simp)

theorem canonical_fold_absent (canonical : String → String) (key : String)
    (headers : List (String × String))
    (h : ∀ n ∈ headers.map Prod.fst, canonical n ≠ key) :
    ∀ acc : List (String × String),
      headerGet key
        (headers.foldl (fun req keyValue => headerSet (canonical keyValue.1) keyValue.2 req)
          acc) = headerGet key acc := by
  induction headers with
  | nil => intro acc; rfl
  | cons nv rest ih =>
    intro acc
    have h1 : key ≠ canonical nv.1 := fun e => h nv.1 (by simp) e.symm
    have h2 : ∀ n ∈ rest.map Prod.fst, canonical n ≠ key :=
      fun n hn => h n (by simp at hn ⊢; exact Or.inr hn)
    rw [List.foldl_cons, ih h2, headerGet_headerSet_ne _ _ _ _ h1]

theorem canonical_fold_present (canonical : String → String) (name value : String)
    (headers : List (String × String)) (hnd : (headers.map Prod.fst).Nodup)
    (hmem : (name, value) ∈ headers)
    (hcanon : ∀ n ∈ headers.map Prod.fst, canonical n = canonical name → n = name) :
    ∀ acc : List (String × String),
      headerGet (canonical name)
        (headers.foldl (fun req keyValue => headerSet (canonical keyValue.1) keyValue.2 req)
          acc) = some value := by
  induction headers with
  | nil => cases hmem
  | cons nv rest ih =>
    intro acc
    have hnd2 : nv.1 ∉ rest.map Prod.fst ∧ (rest.map Prod.fst).Nodup := by
      simpa using hnd
    have hcanon2 : ∀ n ∈ rest.map Prod.fst, canonical n = canonical name → n = name :=
      fun n hn => hcanon n (by simp at hn ⊢; exact Or.inr hn)
    rw [List.foldl_cons]
    rcases List.mem_cons.mp hmem with h | h
    · subst h
      rw [canonical_fold_absent canonical _ rest, headerGet_headerSet_same]
      intro n hn hc
      have := hcanon2 n hn hc
      subst this
      exact hnd2.1 hn
    · exact ih hnd2.2 h hcanon2 _

theorem headerGet_setAcceptHeader (canonical : String → String) (req : List (String × String))
    (encoding key : String)
    (h : key ≠ canonical "Accept" ∨ encoding ∉ ["json", "xml", "yaml"]) :
    headerGet key (setAcceptHeader canonical req encoding) = headerGet key req := by
  unfold setAcceptHeader
  rcases h with h | h
  · split
    · exact headerGet_headerSet_ne _ _ _ _ h
    · split
      · exact headerGet_headerSet_ne _ _ _ _ h
      · split
        · exact headerGet_headerSet_ne _ _ _ _ h
        · rfl
  · have h1 : ¬ encoding = "json" := fun e => h (by simp [e])
    have h2 : ¬ encoding = "xml" := fun e => h (by simp [e])
    have h3 : ¬ encoding = "yaml" := fun e => h (by simp [e])
    rw [if_neg h1, if_neg h2, if_neg h3]

theorem headerGet_setContentTypeHeader (canonical : String → String)
    (req : List (String × String)) (encoding key : String)
    (h : key ≠ canonical "Content-Type" ∨ encoding ∉ ["json", "xml", "yaml"]) :
    headerGet key (setContentTypeHeader canonical req encoding) = headerGet key req := by
  unfold setContentTypeHeader
  rcases h with h | h
  · split
    · exact headerGet_headerSet_ne _ _ _ _ h
    · split
      · exact headerGet_headerSet_ne _ _ _ _ h
      · split
        · exact headerGet_headerSet_ne _ _ _ _ h
        · rfl
  · have h1 : ¬ encoding = "json" := fun e => h (by simp [e])
    have h2 : ¬ encoding = "xml" := fun e => h (by simp [e])
    have h3 : ¬ encoding = "yaml" := fun e => h (by simp [e])
    rw [if_neg h1, if_neg h2, if_neg h3]

theorem headerGet_createHTTPRequest (canonical : String → String)
    (headers : List (String × String)) (encoding : String) (hasBody : Bool)
    (name value : String) (hnd : (headers.map Prod.fst).Nodup)
    (hmem : (name, value) ∈ headers)
    (hcanon : ∀ n ∈ headers.map Prod.fst, canonical n = canonical name → n = name)
    (hacc : canonical name ≠ canonical "Accept" ∨ encoding ∉ ["json", "xml", "yaml"])
    (hct : canonical name ≠ canonical "Content-Type" ∨ hasBody = false ∨ value ≠ "" ∨
      encoding ∉ ["json", "xml", "yaml"]) :
    headerGet (canonical name) (createHTTPRequest canonical headers encoding hasBody) =
      some value := by
  have h1 : headerGet (canonical name)
      (setAcceptHeader canonical
        (headers.foldl (fun req keyValue => headerSet (canonical keyValue.1) keyValue.2 req) [])
        encoding) = some value := by
    rw [headerGet_setAcceptHeader canonical _ encoding _ hacc]
    exact canonical_fold_present canonical name value headers hnd hmem hcanon []
  unfold createHTTPRequest
  dsimp only
  split
  · rename_i hcond
    by_cases hc : canonical name = canonical "Content-Type"
    · have hget : headerGetOrEmpty canonical
          (setAcceptHeader canonical
            (headers.foldl
              (fun req keyValue => headerSet (canonical keyValue.1) keyValue.2 req) [])
            encoding) "Content-Type" = value := by
        unfold headerGetOrEmpty
        rw [← hc, h1]
      rcases hct with h | h | h | h
      · exact absurd hc h
      · rw [h] at hcond
        simp at hcond
      · exact absurd (hget.symm.trans hcond.2) h
      · rw [headerGet_setContentTypeHeader canonical _ encoding _ (Or.inr h)]
        exact h1
    · rw [headerGet_setContentTypeHeader canonical _ encoding _ (Or.inl hc)]
      exact h1
  · exact h1

theorem names_processHeaders_subset (toLower : String → String)
    (header : List (String × List String)) (removeHeaders : List String) (n : String)
    (h : n ∈ (processHeaders toLower header removeHeaders).map Prod.fst) :
    n ∈ header.map Prod.fst := by
  by_contra hn
  have hnone : headerGet n (processHeaders toLower header removeHeaders) = none := by
    rw [processHeaders_eq_fold, headerGet_fold_absent toLower removeHeaders n header hn]
    rfl
  exact (headerGet_eq_none_iff _ _).mp hnone h

/-! ## Gzip response writer -/

theorem headerGet_headerDelete_same (name : String) (hs : List (String × String)) :
    headerGet name (headerDelete name hs) = none := by
  induction hs with
  | nil => rfl
  | cons nv rest ih =>
    obtain ⟨n0, v0⟩ := nv
    by_cases h : n0 = name
    · simp [headerDelete, h, ih]
    · simp [headerDelete, headerGet, h, ih]

theorem headerGet_headerDelete_ne (name n1 : String) (hs : List (String × String))
    (h : n1 ≠ name) : headerGet n1 (headerDelete name hs) = headerGet n1 hs := by
  induction hs with
  | nil => rfl
  | cons nv rest ih =>
    obtain ⟨n0, v0⟩ := nv
    by_cases h0 : n0 = name
    · subst h0
      have h1 : ¬ n0 = n1 := fun e => h e.symm
      simp [headerDelete, headerGet, h1, ih]
    · by_cases h1 : n0 = n1
      · subst h1
        simp [headerDelete, headerGet, h0]
      · simp [headerDelete, headerGet, h0, h1, ih]

theorem startCompression_header (w : ResponseWriter) (statusCode : Int) :
    headerGet "Content-Encoding" (startCompression w statusCode).header = some "gzip" ∧
      headerGet "Vary" (startCompression w statusCode).header = some "Accept-Encoding" ∧
      headerGet "Content-Length" (startCompression w statusCode).header = none ∧
      (startCompression w statusCode).body = w.body := by
  refine ⟨?_, ?_, ?_, rfl⟩
  · simp only [startCompression]
    rw [headerGet_headerSet_ne _ _ _ _ (by decide), headerGet_headerDelete_ne _ _ _ (by decide),
      headerGet_headerSet_same]
  · simp only [startCompression]
    rw [headerGet_headerSet_same]
  · simp only [startCompression]
    rw [headerGet_headerSet_ne _ _ _ _ (by decide), headerGet_headerDelete_same]

theorem writes_active (ws : List (List Nat)) :
    ∀ (w : ResponseWriter) (written : List Nat) (closed : Bool) (ms : Nat) (code : Int)
      (hd : Bool),
      ws.foldl gzipResponseWriter.Write ⟨w, some written, closed, ms, [], code, hd⟩ =
        ⟨w, some (written ++ ws.flatten), closed, ms, [], code, hd⟩ := by
  induction ws with
  | nil => intro w written closed ms code hd; simp
  | cons d rest ih =>
    intro w written closed ms code hd
    rw [List.foldl_cons]
    have hstep : gzipResponseWriter.Write ⟨w, some written, closed, ms, [], code, hd⟩ d =
        ⟨w, some (written ++ d), closed, ms, [], code, hd⟩ := by
      simp [gzipResponseWriter.Write]
    rw [hstep, ih]
    simp

theorem writes_inactive (ws : List (List Nat)) :
    ∀ (w : ResponseWriter) (closed : Bool) (ms : Nat) (buf : List Nat) (code : Int)
      (hd : Bool), buf.length < ms →
      ws.foldl gzipResponseWriter.Write ⟨w, none, closed, ms, buf, code, hd⟩ =
        if (buf ++ ws.flatten).length ≥ ms then
          ⟨startCompression w code, some (buf ++ ws.flatten), closed, ms, [], code, true⟩
        else ⟨w, none, closed, ms, buf ++ ws.flatten, code, hd⟩ := by
  induction ws with
  | nil =>
    intro w closed ms buf code hd hlt
    have : ¬ (buf ++ ([] : List (List Nat)).flatten).length ≥ ms := by simp; omega
    rw [if_neg this]
    simp
  | cons d rest ih =>
    intro w closed ms buf code hd hlt
    rw [List.foldl_cons]
    by_cases hge : (buf ++ d).length ≥ ms
    · have hstep : gzipResponseWriter.Write ⟨w, none, closed, ms, buf, code, hd⟩ d =
          ⟨startCompression w code, some (buf ++ d), closed, ms, [], code, true⟩ := by
        have hge2 : ms ≤ buf.length + d.length := by
          simpa [List.length_append] using hge
        simp [gzipResponseWriter.Write, hge2]
      have htot : (buf ++ (d :: rest).flatten).length ≥ ms := by
        simp only [List.flatten_cons, List.length_append] at hge ⊢
        omega
      rw [hstep, writes_active, if_pos htot]
      simp
    · have hstep : gzipResponseWriter.Write ⟨w, none, closed, ms, buf, code, hd⟩ d =
          ⟨w, none, closed, ms, buf ++ d, code, hd⟩ := by
        have hge2 : buf.length + d.length < ms := by
          simpa [List.length_append] using hge
        simp [gzipResponseWriter.Write, hge2]
      rw [hstep, ih w closed ms (buf ++ d) code hd (by simpa [List.length_append] using hge)]
      simp

theorem acts_writes (ws : List (List Nat)) (gzw : gzipResponseWriter) :
    (ws.map HandlerAction.write).foldl gzipResponseWriter.act gzw =
      ws.foldl gzipResponseWriter.Write gzw := by
  induction ws generalizing gzw with
  | nil => rfl
  | cons d rest ih => simp only [List.map_cons, List.foldl_cons]; exact ih _

theorem acts_pre (pre : List HandlerAction) (hpre : ∀ a ∈ pre, a.isWrite = false) :
    ∀ (w : ResponseWriter) (writer : Option (List Nat)) (closed : Bool) (ms : Nat)
      (buf : List Nat) (code : Int) (hd : Bool),
      pre.foldl gzipResponseWriter.act ⟨w, writer, closed, ms, buf, code, hd⟩ =
        ⟨⟨headersAfter pre w.header, w.statusCodes, w.body⟩, writer, closed, ms, buf,
          statusAfter pre code, hd⟩ := by
  induction pre with
  | nil => intro w writer closed ms buf code hd; rfl
  | cons a rest ih =>
    intro w writer closed ms buf code hd
    have hrest : ∀ x ∈ rest, x.isWrite = false := fun x hx => hpre x (List.mem_cons_of_mem _ hx)
    have ha := hpre a (List.mem_cons_self _ _)
    rw [List.foldl_cons]
    cases a with
    | setHeader name value =>
      simp only [gzipResponseWriter.act]
      rw [ih hrest]
      simp [headersAfter, statusAfter]
    | writeHeader s =>
      simp only [gzipResponseWriter.act, gzipResponseWriter.WriteHeader]
      rw [ih hrest]
      simp [headersAfter, statusAfter]
    | write d => simp [HandlerAction.isWrite] at ha

theorem raw_acts_pre (pre : List HandlerAction) (hpre : ∀ a ∈ pre, a.isWrite = false) :
    ∀ w : ResponseWriter,
      (pre.foldl ResponseWriter.act w).header = headersAfter pre w.header ∧
        (pre.foldl ResponseWriter.act w).body = w.body := by
  induction pre with
  | nil => intro w; exact ⟨rfl, rfl⟩
  | cons a rest ih =>
    intro w
    have hrest : ∀ x ∈ rest, x.isWrite = false := fun x hx => hpre x (List.mem_cons_of_mem _ hx)
    have ha := hpre a (List.mem_cons_self _ _)
    rw [List.foldl_cons]
    cases a with
    | setHeader name value =>
      have := ih hrest (w.act (.setHeader name value))
      simpa [ResponseWriter.act, headersAfter] using this
    | writeHeader s =>
      have := ih hrest (w.act (.writeHeader s))
      simpa [ResponseWriter.act, headersAfter] using this
    | write d => simp [HandlerAction.isWrite] at ha

theorem raw_acts_writes (ws : List (List Nat)) :
    ∀ w : ResponseWriter,
      (ws.map HandlerAction.write).foldl ResponseWriter.act w =
        ⟨w.header, w.statusCodes, w.body ++ ws.flatten⟩ := by
  induction ws with
  | nil => intro w; simp
  | cons d rest ih =>
    intro w
    simp only [List.map_cons, List.foldl_cons]
    rw [ih]
    simp [ResponseWriter.act]

theorem compressionMiddleware_gzip (acceptEncoding : String) (pre : List HandlerAction)
    (writes : List (List Nat)) (w : ResponseWriter)
    (hpre : ∀ a ∈ pre, a.isWrite = false)
    (hacc : containsChars "gzip".data acceptEncoding.data = true) :
    compressionMiddleware acceptEncoding (pre ++ writes.map HandlerAction.write) w =
      if writes.flatten.length ≥ 1024 then
        (startCompression ⟨headersAfter pre w.header, w.statusCodes, w.body⟩ (statusAfter pre 0),
          some ⟨startCompression ⟨headersAfter pre w.header, w.statusCodes, w.body⟩
              (statusAfter pre 0),
            some writes.flatten, true, 1024, [], statusAfter pre 0, true⟩)
      else
        ((gzipResponseWriter.Close
            ⟨⟨headersAfter pre w.header, w.statusCodes, w.body⟩, none, false, 1024,
              writes.flatten, statusAfter pre 0, false⟩).ResponseWriter,
          some (gzipResponseWriter.Close
            ⟨⟨headersAfter pre w.header, w.statusCodes, w.body⟩, none, false, 1024,
              writes.flatten, statusAfter pre 0, false⟩)) := by
  unfold compressionMiddleware
  simp only [hacc, Bool.not_true, Bool.false_eq_true, if_false, compressionMinSize]
  rw [List.foldl_append, acts_pre pre hpre, acts_writes,
    writes_inactive writes _ false 1024 [] _ false (by decide)]
  simp only [List.nil_append]
  by_cases hge : writes.flatten.length ≥ 1024
  · rw [if_pos hge, if_pos hge]
    simp [gzipResponseWriter.Close]
  · rw [if_neg hge, if_neg hge]

theorem compressionMiddleware_plain (acceptEncoding : String) (pre : List HandlerAction)
    (writes : List (List Nat)) (w : ResponseWriter)
    (hpre : ∀ a ∈ pre, a.isWrite = false)
    (hacc : containsChars "gzip".data acceptEncoding.data = false) :
    (compressionMiddleware acceptEncoding (pre ++ writes.map HandlerAction.write) w).2 = none ∧
      (compressionMiddleware acceptEncoding (pre ++ writes.map HandlerAction.write) w).1.header =
        headersAfter pre w.header ∧
      (compressionMiddleware acceptEncoding (pre ++ writes.map HandlerAction.write) w).1.body =
        w.body ++ writes.flatten := by
  unfold compressionMiddleware
  simp only [hacc, Bool.not_false, if_true]
  rw [List.foldl_append, raw_acts_writes]
  obtain ⟨h1, h2⟩ := raw_acts_pre pre hpre w
  exact ⟨trivial, h1, by rw [h2]⟩

theorem close_inactive (w : ResponseWriter) (buf : List Nat) (code : Int) :
    (gzipResponseWriter.Close ⟨w, none, false, 1024, buf, code, false⟩).writer = none ∧
      (gzipResponseWriter.Close ⟨w, none, false, 1024, buf, code, false⟩).ResponseWriter.header =
        w.header ∧
      (gzipResponseWriter.Close ⟨w, none, false, 1024, buf, code, false⟩).ResponseWriter.body =
        w.body ++ buf := by
  unfold gzipResponseWriter.Close
  by_cases hb : buf.length > 0
  · simp only [hb, Option.isNone_none, and_self, if_true, Bool.not_false]
    refine ⟨trivial, ?_, ?_⟩
    · split <;> rfl
    · split <;> rfl
  · have : buf = [] := by
      cases buf with
      | nil => rfl
      | cons x xs => simp at hb
    subst this
    simp

/-! ## Concat onto an existing non-sequence value -/

theorem appendToArray_existing (result : Fields) (key : String) (e data : Value)
    (he : mapGet key result = some e) (hne : e.isArr = false) :
    mapGet key (appendToArray result key data) = some (.arr (e :: contribution data)) := by
  cases e <;> cases data <;>
    simp [appendToArray, he, contribution, mapGet_mapSet_same, Value.isArr] at hne ⊢

/-! ## One step of the path walks, by case -/

theorem getNested_one (cur : Fields) (k : String) :
    getNested cur [k] = (mapGet k cur).getD .null := by
  rw [getNested]
  cases mapGet k cur <;> rfl

theorem getNested_none (cur : Fields) (k : String) (rest : List String)
    (h : mapGet k cur = none) : getNested cur (k :: rest) = .null := by
  rw [getNested, h]

theorem getNested_obj (cur n : Fields) (k k2 : String) (rest : List String)
    (h : mapGet k cur = some (.obj n)) :
    getNested cur (k :: k2 :: rest) = getNested n (k2 :: rest) := by
  rw [getNested, h]
  rfl

theorem getNested_stop (cur : Fields) (u : Value) (k k2 : String) (rest : List String)
    (h : mapGet k cur = some u) (hu : u.isObj = false) :
    getNested cur (k :: k2 :: rest) = .null := by
  rw [getNested, h]
  cases u <;> first | rfl | simp [Value.isObj] at hu

theorem setNested_one (cur : Fields) (k : String) (v : Value) :
    setNested cur [k] v = mapSet k v cur := by
  rw [setNested]
  rfl

theorem setNested_none (cur : Fields) (k k2 : String) (rest : List String) (v : Value)
    (h : mapGet k cur = none) :
    setNested cur (k :: k2 :: rest) v = mapSet k (.obj (setNested [] (k2 :: rest) v)) cur := by
  rw [setNested, h]
  rfl

theorem setNested_obj (cur n : Fields) (k k2 : String) (rest : List String) (v : Value)
    (h : mapGet k cur = some (.obj n)) :
    setNested cur (k :: k2 :: rest) v = mapSet k (.obj (setNested n (k2 :: rest) v)) cur := by
  rw [setNested, h]
  rfl

theorem setNested_stop (cur : Fields) (u : Value) (k k2 : String) (rest : List String)
    (v : Value) (h : mapGet k cur = some u) (hu : u.isObj = false) :
    setNested cur (k :: k2 :: rest) v = cur := by
  rw [setNested, h]
  cases u <;> first | rfl | simp [Value.isObj] at hu

theorem deleteNested_one (cur : Fields) (k : String) :
    deleteNested cur [k] = mapDelete k cur := by
  rw [deleteNested]
  rfl

theorem deleteNested_obj (cur n : Fields) (k k2 : String) (rest : List String)
    (h : mapGet k cur = some (.obj n)) :
    deleteNested cur (k :: k2 :: rest) = mapSet k (.obj (deleteNested n (k2 :: rest))) cur := by
  rw [deleteNested, h]
  rfl

theorem deleteNested_stop (cur : Fields) (k k2 : String) (rest : List String)
    (h : ∀ n : Fields, mapGet k cur ≠ some (.obj n)) :
    deleteNested cur (k :: k2 :: rest) = cur := by
  rw [deleteNested]
  cases hg : mapGet k cur with
  | none => rfl
  | some u =>
    cases u with
    | obj n => exact absurd hg (h n)
    | null => rfl
    | bool b => rfl
    | num x => rfl
    | str s => rfl
    | arr xs => rfl

theorem lookupPath_one (cur : Fields) (k : String) : lookupPath cur [k] = mapGet k cur := by
  rw [lookupPath]
  cases mapGet k cur <;> rfl

theorem lookupPath_obj (cur n : Fields) (k k2 : String) (rest : List String)
    (h : mapGet k cur = some (.obj n)) :
    lookupPath cur (k :: k2 :: rest) = lookupPath n (k2 :: rest) := by
  rw [lookupPath, h]
  rfl

theorem lookupPath_stop (cur : Fields) (k k2 : String) (rest : List String)
    (h : ∀ n : Fields, mapGet k cur ≠ some (.obj n)) :
    lookupPath cur (k :: k2 :: rest) = none := by
  rw [lookupPath]
  cases hg : mapGet k cur with
  | none => rfl
  | some u =>
    cases u with
    | obj n => exact absurd hg (h n)
    | null => rfl
    | bool b => rfl
    | num x => rfl
    | str s => rfl
    | arr xs => rfl

theorem lookupPath_nil_map (parts : List String) : lookupPath [] parts = none := by
  cases parts <;> simp [lookupPath, mapGet]

theorem getNested_eq_lookupPath (parts : List String) :
    ∀ cur : Fields, getNested cur parts = (lookupPath cur parts).getD .null := by
  induction parts with
  | nil => intro cur; rfl
  | cons k rest ih =>
    intro cur
    cases rest with
    | nil => rw [getNested_one, lookupPath_one]
    | cons k2 rest2 =>
      cases hg : mapGet k cur with
      | none =>
        rw [getNested_none _ _ _ hg, lookupPath_stop _ _ _ _ (by simp [hg])]
        rfl
      | some u =>
        cases u with
        | obj n => rw [getNested_obj _ _ _ _ _ hg, lookupPath_obj _ _ _ _ _ hg]; exact ih n
        | null =>
          rw [getNested_stop _ _ _ _ _ hg rfl, lookupPath_stop _ _ _ _ (by simp [hg])]; rfl
        | bool b =>
          rw [getNested_stop _ _ _ _ _ hg rfl, lookupPath_stop _ _ _ _ (by simp [hg])]; rfl
        | num x =>
          rw [getNested_stop _ _ _ _ _ hg rfl, lookupPath_stop _ _ _ _ (by simp [hg])]; rfl
        | str s =>
          rw [getNested_stop _ _ _ _ _ hg rfl, lookupPath_stop _ _ _ _ (by simp [hg])]; rfl
        | arr xs =>
          rw [getNested_stop _ _ _ _ _ hg rfl, lookupPath_stop _ _ _ _ (by simp [hg])]; rfl

/-! ## Nested paths: set and get -/

theorem mapSet_self (k : String) (v : Value) :
    ∀ m : Fields, mapGet k m = some v → mapSet k v m = m := by
  intro m
  induction m with
  | nil => intro h; simp [mapGet] at h
  | cons kv rest ih =>
    obtain ⟨k0, v0⟩ := kv
    intro h
    by_cases h0 : k0 = k
    · subst h0
      simp [mapGet] at h
      simp [mapSet, h]
    · simp [mapGet, h0] at h
      simp [mapSet, h0, ih h]

theorem getNested_nil_map (parts : List String) : getNested [] parts = .null := by
  cases parts <;> simp [getNested, mapGet]

theorem isObj_false_or (u : Value) : u.isObj = false ∨ ∃ n : Fields, u = .obj n := by
  cases u <;> simp [Value.isObj]

/-- Setting a path to the non-null value it already resolves to changes nothing. -/
theorem setNested_same (q : List String) :
    ∀ (n : Fields) (v : Value), getNested n q = v → v.isNull = false → setNested n q v = n := by
  induction q with
  | nil => intro n v h hv; rfl
  | cons k rest ih =>
    intro n v h hv
    cases hg : mapGet k n with
    | none =>
      rw [getNested_none _ _ _ hg] at h
      subst h
      simp [Value.isNull] at hv
    | some u =>
      cases rest with
      | nil =>
        rw [getNested_one, hg] at h
        simp only [Option.getD_some] at h
        subst h
        rw [setNested_one]
        exact mapSet_self k u n hg
      | cons k2 rest2 =>
        rcases isObj_false_or u with hu | ⟨nextMap, rfl⟩
        · exact setNested_stop _ _ _ _ _ _ hg hu
        · rw [getNested_obj _ _ _ _ _ hg] at h
          rw [setNested_obj _ _ _ _ _ _ hg, ih nextMap v h hv]
          exact mapSet_self k _ n hg

/-- A present non-mapping value at a proper prefix stops the set before any change. -/
theorem setNested_conflict (v : Value) (seg : String) (post : List String) (hpost : post ≠ [])
    (pre : List String) :
    ∀ (m c : Fields) (u : Value), walkMaps m pre = some c → mapGet seg c = some u →
      u.isObj = false → setNested m (pre ++ seg :: post) v = m := by
  induction pre with
  | nil =>
    intro m c u hw hs hu
    simp only [walkMaps, Option.some.injEq] at hw
    subst hw
    cases post with
    | nil => exact absurd rfl hpost
    | cons p2 post2 => exact setNested_stop _ _ _ _ _ _ hs hu
  | cons a pre1 ih =>
    intro m c u hw hs hu
    rw [walkMaps] at hw
    split at hw
    · rename_i nextMap heq
      have hrec := ih nextMap c u hw hs hu
      obtain ⟨x, xs, hx⟩ : ∃ x xs, pre1 ++ seg :: post = x :: xs := by
        cases pre1 with
        | nil => exact ⟨_, _, rfl⟩
        | cons y ys => exact ⟨_, _, rfl⟩
      rw [List.cons_append, hx, setNested_obj _ _ _ _ _ _ heq, ← hx, hrec]
      exact mapSet_self a _ m heq
    · cases hw

/-! ## Nested paths: what a set or a delete leaves alone -/

theorem mapGet_setNested_ne (k a : String) (rest : List String) (v : Value) (cur : Fields)
    (h : a ≠ k) : mapGet a (setNested cur (k :: rest) v) = mapGet a cur := by
  cases rest with
  | nil => rw [setNested_one]; exact mapGet_mapSet_ne _ _ _ _ h
  | cons k2 rest2 =>
    cases hg : mapGet k cur with
    | none => rw [setNested_none _ _ _ _ _ hg]; exact mapGet_mapSet_ne _ _ _ _ h
    | some u =>
      rcases isObj_false_or u with hu | ⟨n, rfl⟩
      · rw [setNested_stop _ _ _ _ _ _ hg hu]
      · rw [setNested_obj _ _ _ _ _ _ hg]; exact mapGet_mapSet_ne _ _ _ _ h

theorem lookupPath_congr_head (r1 r2 : Fields) (a : String) (ps : List String)
    (h : mapGet a r1 = mapGet a r2) : lookupPath r1 (a :: ps) = lookupPath r2 (a :: ps) := by
  rw [lookupPath, lookupPath, h]

theorem getNested_congr_head (r1 r2 : Fields) (a : String) (ps : List String)
    (h : mapGet a r1 = mapGet a r2) : getNested r1 (a :: ps) = getNested r2 (a :: ps) := by
  rw [getNested, getNested, h]

theorem not_obj_of_isObj_false (u : Value) (hu : u.isObj = false) (n : Fields) :
    some u ≠ some (Value.obj n) := by
  intro h
  injection h with h
  subst h
  simp [Value.isObj] at hu

/-- A set leaves every path alone that neither extends nor is extended by the set path. -/
theorem lookupPath_setNested_sibling (v : Value) (p : List String) :
    ∀ (q : List String) (cur : Fields), ¬ p <+: q → ¬ q <+: p →
      lookupPath (setNested cur p v) q = lookupPath cur q := by
  induction p with
  | nil => intro q cur h1 _; exact absurd List.nil_prefix h1
  | cons k ps ih =>
    intro q cur h1 h2
    cases q with
    | nil => exact absurd List.nil_prefix h2
    | cons a qs =>
      by_cases hak : a = k
      · subst hak
        have h1r : ¬ ps <+: qs := fun h => h1 (List.cons_prefix_cons.mpr ⟨rfl, h⟩)
        have h2r : ¬ qs <+: ps := fun h => h2 (List.cons_prefix_cons.mpr ⟨rfl, h⟩)
        cases ps with
        | nil => exact absurd List.nil_prefix h1r
        | cons k2 ps2 =>
          cases qs with
          | nil => exact absurd List.nil_prefix h2r
          | cons a2 qs2 =>
            cases hg : mapGet a cur with
            | none =>
              rw [setNested_none _ _ _ _ _ hg,
                lookupPath_obj _ _ _ _ _ (mapGet_mapSet_same _ _ _), ih _ [] h1r h2r,
                lookupPath_nil_map, lookupPath_stop _ _ _ _ (by simp [hg])]
            | some u =>
              rcases isObj_false_or u with hu | ⟨n, rfl⟩
              · rw [setNested_stop _ _ _ _ _ _ hg hu]
              · rw [setNested_obj _ _ _ _ _ _ hg,
                  lookupPath_obj _ _ _ _ _ (mapGet_mapSet_same _ _ _), ih _ n h1r h2r,
                  lookupPath_obj _ _ _ _ _ hg]
      · exact lookupPath_congr_head _ _ _ _ (mapGet_setNested_ne k a ps v cur hak)

/-- A delete leaves every path alone that neither extends nor is extended by the deleted
path. -/
theorem lookupPath_deleteNested_sibling (p : List String) :
    ∀ (q : List String) (cur : Fields), ¬ p <+: q → ¬ q <+: p →
      lookupPath (deleteNested cur p) q = lookupPath cur q := by
  induction p with
  | nil => intro q cur h1 _; exact absurd List.nil_prefix h1
  | cons k ps ih =>
    intro q cur h1 h2
    cases q with
    | nil => exact absurd List.nil_prefix h2
    | cons a qs =>
      by_cases hak : a = k
      · subst hak
        have h1r : ¬ ps <+: qs := fun h => h1 (List.cons_prefix_cons.mpr ⟨rfl, h⟩)
        have h2r : ¬ qs <+: ps := fun h => h2 (List.cons_prefix_cons.mpr ⟨rfl, h⟩)
        cases ps with
        | nil => exact absurd List.nil_prefix h1r
        | cons k2 ps2 =>
          cases qs with
          | nil => exact absurd List.nil_prefix h2r
          | cons a2 qs2 =>
            cases hg : mapGet a cur with
            | none => rw [deleteNested_stop _ _ _ _ (by simp [hg])]
            | some u =>
              rcases isObj_false_or u with hu | ⟨n, rfl⟩
              · rw [deleteNested_stop _ _ _ _
                  (fun n => by rw [hg]; exact not_obj_of_isObj_false u hu n)]
              · rw [deleteNested_obj _ _ _ _ _ hg,
                  lookupPath_obj _ _ _ _ _ (mapGet_mapSet_same _ _ _), ih _ n h1r h2r,
                  lookupPath_obj _ _ _ _ _ hg]
      · have hne : (k :: ps).head? ≠ some a := by
          simp only [List.head?_cons, ne_eq, Option.some.injEq]
          exact fun e => hak e.symm
        exact lookupPath_congr_head _ _ _ _ (mapGet_deleteNested_ne a (k :: ps) cur hne)

/-- When the proper prefix resolves through mappings, the mapping it reaches loses exactly
the terminal key. -/
theorem walkMaps_deleteNested (last : String) (pre : List String) :
    ∀ m cur : Fields, walkMaps m pre = some cur →
      walkMaps (deleteNested m (pre ++ [last])) pre = some (mapDelete last cur) := by
  induction pre with
  | nil =>
    intro m cur hw
    simp only [walkMaps, Option.some.injEq] at hw
    subst hw
    rw [List.nil_append, deleteNested_one]
    rfl
  | cons a pre1 ih =>
    intro m cur hw
    rw [walkMaps] at hw
    split at hw
    · rename_i nextMap heq
      obtain ⟨x, xs, hx⟩ : ∃ x xs, pre1 ++ [last] = x :: xs := by
        cases pre1 with
        | nil => exact ⟨_, _, rfl⟩
        | cons y ys => exact ⟨_, _, rfl⟩
      rw [List.cons_append, hx, deleteNested_obj _ _ _ _ _ heq, ← hx, walkMaps,
        mapGet_mapSet_same]
      exact ih nextMap cur hw
    · cases hw

/-- When a proper prefix does not resolve to a mapping, the delete changes nothing. -/
theorem deleteNested_unresolved (post : List String) (hpost : post ≠ []) (pre : List String) :
    ∀ m : Fields, walkMaps m pre = none → deleteNested m (pre ++ post) = m := by
  induction pre with
  | nil => intro m hw; simp [walkMaps] at hw
  | cons a pre1 ih =>
    intro m hw
    obtain ⟨x, xs, hx⟩ : ∃ x xs, pre1 ++ post = x :: xs := by
      cases pre1 with
      | nil =>
        cases post with
        | nil => exact absurd rfl hpost
        | cons y ys => exact ⟨_, _, rfl⟩
      | cons y ys => exact ⟨_, _, rfl⟩
    cases hg : mapGet a m with
    | none => rw [List.cons_append, hx, deleteNested_stop _ _ _ _ (by simp [hg])]
    | some u =>
      rcases isObj_false_or u with hu | ⟨n, rfl⟩
      · rw [List.cons_append, hx, deleteNested_stop _ _ _ _
          (fun n => by rw [hg]; exact not_obj_of_isObj_false u hu n)]
      · rw [walkMaps, hg] at hw
        rw [List.cons_append, hx, deleteNested_obj _ _ _ _ _ hg, ← hx, ih n hw]
        exact mapSet_self a _ m hg

/-- After the delete the path itself is absent, not merely null. -/
theorem lookupPath_deleteNested_terminal (last : String) (pre : List String) :
    ∀ m cur : Fields, walkMaps m pre = some cur →
      lookupPath (deleteNested m (pre ++ [last])) (pre ++ [last]) = none := by
  induction pre with
  | nil =>
    intro m cur _
    rw [List.nil_append, deleteNested_one, lookupPath_one, mapGet_mapDelete_same]
  | cons a pre1 ih =>
    intro m cur hw
    rw [walkMaps] at hw
    split at hw
    · rename_i nextMap heq
      obtain ⟨x, xs, hx⟩ : ∃ x xs, pre1 ++ [last] = x :: xs := by
        cases pre1 with
        | nil => exact ⟨_, _, rfl⟩
        | cons y ys => exact ⟨_, _, rfl⟩
      rw [List.cons_append, hx, deleteNested_obj _ _ _ _ _ heq,
        lookupPath_obj _ _ _ _ _ (mapGet_mapSet_same _ _ _), ← hx]
      exact ih nextMap cur hw
    · cases hw

/-! ## Allow-filtering builds a partial copy of its input -/

theorem subValue_refl (v : Value) : subValue v v := by
  cases v <;> simp [subValue]

theorem subValue_obj_iff (a b : Fields) :
    subValue (.obj a) (.obj b) ↔ (a = b ∨ subFields a b) := by
  simp [subValue]

theorem subValue_of_not_obj (u w : Value) (hu : u.isObj = false) (h : subValue u w) :
    u = w := by
  cases u <;> first | (simpa [subValue] using h) | (simp [Value.isObj] at hu)

theorem subFields_nil (m : Fields) : subFields [] m := by
  simp [subFields]

theorem subFields_lookup (k : String) (v : Value) (m : Fields) :
    ∀ r : Fields, subFields r m → mapGet k r = some v →
      ∃ w, mapGet k m = some w ∧ subValue v w := by
  intro r
  induction r with
  | nil => intro _ h; simp [mapGet] at h
  | cons kv rest ih =>
    obtain ⟨k0, v0⟩ := kv
    intro hs h
    rw [subFields] at hs
    by_cases h0 : k0 = k
    · subst h0
      simp [mapGet] at h
      subst h
      exact hs.1
    · simp [mapGet, h0] at h
      exact ih hs.2 h

theorem subFields_mapSet (k : String) (v : Value) (m : Fields)
    (hv : ∃ w, mapGet k m = some w ∧ subValue v w) :
    ∀ r : Fields, subFields r m → subFields (mapSet k v r) m := by
  intro r
  induction r with
  | nil => intro _; rw [mapSet, subFields]; exact ⟨hv, subFields_nil m⟩
  | cons kv rest ih =>
    obtain ⟨k0, v0⟩ := kv
    intro hs
    rw [subFields] at hs
    by_cases h0 : k0 = k
    · rw [mapSet, if_pos h0, subFields]
      exact ⟨hv, hs.2⟩
    · rw [mapSet, if_neg h0, subFields]
      exact ⟨hs.1, ih hs.2⟩

theorem getNested_nonnull_head (m : Fields) (k : String) (rest : List String)
    (h : (getNested m (k :: rest)).isNull = false) : ∃ w, mapGet k m = some w := by
  cases hg : mapGet k m with
  | none => rw [getNested_none _ _ _ hg] at h; simp [Value.isNull] at h
  | some w => exact ⟨w, rfl⟩

theorem getNested_nonnull_obj (m : Fields) (k k2 : String) (rest : List String)
    (h : (getNested m (k :: k2 :: rest)).isNull = false) :
    ∃ n, mapGet k m = some (.obj n) := by
  obtain ⟨w, hw⟩ := getNested_nonnull_head m k _ h
  rcases isObj_false_or w with hu | ⟨n, rfl⟩
  · rw [getNested_stop _ _ _ _ _ hw hu] at h; simp [Value.isNull] at h
  · exact ⟨n, hw⟩

/-- Setting an allowed path in a partial copy to the input's value keeps it a partial copy. -/
theorem sub_set (q : List String) :
    ∀ (r m : Fields) (v : Value), (r = m ∨ subFields r m) → getNested m q = v →
      v.isNull = false → (setNested r q v = m ∨ subFields (setNested r q v) m) := by
  induction q with
  | nil => intro r m v hsub _ _; exact hsub
  | cons k rest ih =>
    intro r m v hsub hget hv
    rcases hsub with rfl | hs
    · exact Or.inl (setNested_same _ r v hget hv)
    · right
      cases rest with
      | nil =>
        obtain ⟨w, hw⟩ := getNested_nonnull_head m k [] (by rw [hget]; exact hv)
        rw [getNested_one, hw] at hget
        simp only [Option.getD_some] at hget
        subst hget
        rw [setNested_one]
        exact subFields_mapSet k w m ⟨w, hw, subValue_refl w⟩ r hs
      | cons k2 rest2 =>
        obtain ⟨m1, hm1⟩ := getNested_nonnull_obj m k k2 rest2 (by rw [hget]; exact hv)
        rw [getNested_obj _ _ _ _ _ hm1] at hget
        cases hgr : mapGet k r with
        | none =>
          rw [setNested_none _ _ _ _ _ hgr]
          exact subFields_mapSet k _ m
            ⟨_, hm1, (subValue_obj_iff _ _).mpr (ih [] m1 v (Or.inr (subFields_nil m1)) hget hv)⟩
            r hs
        | some u =>
          rcases isObj_false_or u with hu | ⟨r1, rfl⟩
          · rw [setNested_stop _ _ _ _ _ _ hgr hu]; exact hs
          · obtain ⟨w2, hw2, hsv⟩ := subFields_lookup k _ m r hs hgr
            rw [hm1] at hw2
            injection hw2 with hw2
            subst hw2
            rw [setNested_obj _ _ _ _ _ _ hgr]
            exact subFields_mapSet k _ m
              ⟨_, hm1, (subValue_obj_iff _ _).mpr
                (ih r1 m1 v ((subValue_obj_iff _ _).mp hsv) hget hv)⟩ r hs

/-- After such a set the path resolves to the input's value. -/
theorem sub_get (q : List String) :
    ∀ (r m : Fields) (v : Value), (r = m ∨ subFields r m) → getNested m q = v →
      v.isNull = false → getNested (setNested r q v) q = v := by
  induction q with
  | nil => intro r m v _ hget _; exact hget
  | cons k rest ih =>
    intro r m v hsub hget hv
    rcases hsub with rfl | hs
    · rw [setNested_same _ r v hget hv]; exact hget
    · cases rest with
      | nil => rw [setNested_one, getNested_one, mapGet_mapSet_same]; rfl
      | cons k2 rest2 =>
        obtain ⟨m1, hm1⟩ := getNested_nonnull_obj m k k2 rest2 (by rw [hget]; exact hv)
        rw [getNested_obj _ _ _ _ _ hm1] at hget
        cases hgr : mapGet k r with
        | none =>
          rw [setNested_none _ _ _ _ _ hgr, getNested_obj _ _ _ _ _ (mapGet_mapSet_same _ _ _)]
          exact ih [] m1 v (Or.inr (subFields_nil m1)) hget hv
        | some u =>
          obtain ⟨w2, hw2, hsv⟩ := subFields_lookup k _ m r hs hgr
          rw [hm1] at hw2
          injection hw2 with hw2
          subst hw2
          rcases isObj_false_or u with hu | ⟨r1, rfl⟩
          · have := subValue_of_not_obj u _ hu hsv
            subst this
            simp [Value.isObj] at hu
          · rw [setNested_obj _ _ _ _ _ _ hgr,
              getNested_obj _ _ _ _ _ (mapGet_mapSet_same _ _ _)]
            exact ih r1 m1 v ((subValue_obj_iff _ _).mp hsv) hget hv

/-- Such a set keeps every path that already resolved to the input's non-null value. -/
theorem sub_keep (q : List String) :
    ∀ (r m : Fields) (v : Value) (p : List String), (r = m ∨ subFields r m) →
      getNested m q = v → v.isNull = false → (getNested m p).isNull = false →
      getNested r p = getNested m p → getNested (setNested r q v) p = getNested m p := by
  induction q with
  | nil => intro r m v p _ _ _ _ hkeep; exact hkeep
  | cons k rest ih =>
    intro r m v p hsub hget hv hp hkeep
    rcases hsub with rfl | hs
    · rw [setNested_same _ r v hget hv]
    · cases p with
      | nil => rfl
      | cons a ps =>
        by_cases hak : a = k
        · subst hak
          cases rest with
          | nil =>
            obtain ⟨w, hw⟩ := getNested_nonnull_head m a [] (by rw [hget]; exact hv)
            rw [getNested_one, hw] at hget
            simp only [Option.getD_some] at hget
            subst hget
            rw [setNested_one]
            exact getNested_congr_head _ _ _ _ (by rw [mapGet_mapSet_same, hw])
          | cons k2 rest2 =>
            obtain ⟨m1, hm1⟩ := getNested_nonnull_obj m a k2 rest2 (by rw [hget]; exact hv)
            rw [getNested_obj _ _ _ _ _ hm1] at hget
            cases ps with
            | nil =>
              rw [getNested_one, getNested_one, hm1] at hkeep
              have hgr : mapGet a r = some (.obj m1) := by
                cases hg : mapGet a r with
                | none => rw [hg] at hkeep; cases hkeep
                | some u => rw [hg] at hkeep; simpa using hkeep
              rw [setNested_obj _ _ _ _ _ _ hgr, setNested_same _ m1 v hget hv, getNested_one,
                getNested_one, mapGet_mapSet_same, hm1]
            | cons a2 ps2 =>
              rw [getNested_obj _ _ _ _ _ hm1] at hp hkeep ⊢
              obtain ⟨r1, hr1⟩ := getNested_nonnull_obj r a a2 ps2 (by rw [hkeep]; exact hp)
              rw [getNested_obj _ _ _ _ _ hr1] at hkeep
              obtain ⟨w2, hw2, hsv⟩ := subFields_lookup a _ m r hs hr1
              rw [hm1] at hw2
              injection hw2 with hw2
              subst hw2
              rw [setNested_obj _ _ _ _ _ _ hr1,
                getNested_obj _ _ _ _ _ (mapGet_mapSet_same _ _ _)]
              exact ih r1 m1 v (a2 :: ps2) ((subValue_obj_iff _ _).mp hsv) hget hv hp hkeep
        · rw [getNested_congr_head _ r a ps (mapGet_setNested_ne k a rest v r hak)]
          exact hkeep

/-- One allowed field, as the allow loop of `ApplyFiltering` treats it. -/
theorem allow_step_sub (m : Fields) (field : String) (r : Fields)
    (hsub : r = m ∨ subFields r m) :
    ((if (GetNestedField m field).isNull then r
        else SetNestedField r field (GetNestedField m field)) = m) ∨
      subFields (if (GetNestedField m field).isNull then r
        else SetNestedField r field (GetNestedField m field)) m := by
  by_cases hn : (GetNestedField m field).isNull = true
  · rw [if_pos hn]; exact hsub
  · rw [if_neg hn]
    exact sub_set (splitDots field) r m _ hsub rfl (by simpa using hn)

theorem allow_fold_keep (m : Fields) (p : String) (hp : (GetNestedField m p).isNull = false)
    (allow : List String) :
    ∀ r : Fields, (r = m ∨ subFields r m) → GetNestedField r p = GetNestedField m p →
      GetNestedField
          (allow.foldl
            (fun result field =>
              let value := GetNestedField m field
              if value.isNull then result else SetNestedField result field value) r) p =
        GetNestedField m p := by
  induction allow with
  | nil => intro r _ hkeep; exact hkeep
  | cons f rest ih =>
    intro r hsub hkeep
    rw [List.foldl_cons]
    refine ih _ (allow_step_sub m f r hsub) ?_
    dsimp only
    by_cases hn : (GetNestedField m f).isNull = true
    · rw [if_pos hn]; exact hkeep
    · rw [if_neg hn]
      exact sub_keep (splitDots f) r m _ (splitDots p) hsub rfl (by simpa using hn) hp hkeep

theorem allow_fold_sets (m : Fields) (p : String) (hp : (GetNestedField m p).isNull = false)
    (allow : List String) (hmem : p ∈ allow) :
    ∀ r : Fields, (r = m ∨ subFields r m) →
      GetNestedField
          (allow.foldl
            (fun result field =>
              let value := GetNestedField m field
              if value.isNull then result else SetNestedField result field value) r) p =
        GetNestedField m p := by
  induction allow with
  | nil => simp at hmem
  | cons f rest ih =>
    intro r hsub
    rw [List.foldl_cons]
    by_cases hpf : p = f
    · subst hpf
      refine allow_fold_keep m p hp rest _ (allow_step_sub m p r hsub) ?_
      dsimp only
      rw [if_neg (by simp [hp])]
      exact sub_get (splitDots p) r m _ hsub rfl hp
    · have hrest : p ∈ rest := by
        rcases List.mem_cons.mp hmem with h | h
        · exact absurd h hpf
        · exact h
      exact ih hrest _ (allow_step_sub m f r hsub)

/-! ## The gzip response writer: status code and body bytes -/

/-- When at least one body byte is written, the delayed status code reaches the underlying
writer exactly once. -/
theorem status_forwarded_once (w : ResponseWriter) (ms : Nat) (hms : 0 < ms) (s : Int)
    (hs : s ≠ 0) (ws : List (List Nat)) (hne : ws.flatten ≠ []) :
    ((ws.foldl gzipResponseWriter.Write
        ((⟨w, none, false, ms, [], 0, false⟩ : gzipResponseWriter).WriteHeader s)).Close
      ).ResponseWriter.statusCodes = w.statusCodes ++ [s] := by
  have h0 : (⟨w, none, false, ms, [], 0, false⟩ : gzipResponseWriter).WriteHeader s =
      ⟨w, none, false, ms, [], s, false⟩ := rfl
  rw [h0, writes_inactive ws w false ms [] s false (by simpa using hms)]
  have hpos : 0 < ws.flatten.length := List.length_pos.mpr hne
  by_cases hge : ([] ++ ws.flatten).length ≥ ms
  · rw [if_pos hge]
    simp [gzipResponseWriter.Close, startCompression, hs]
  · rw [if_neg hge]
    have hpos2 : 0 < ([] ++ ws.flatten).length := by simpa using hpos
    simp only [gzipResponseWriter.Close, hpos2, gt_iff_lt, Option.isNone_none, and_self, if_true]
    simp [hs]

/-- The body bytes are either all in the gzip stream or all in the buffer, and none has
reached the underlying writer before `Close`. -/
theorem acts_bytes (acts : List HandlerAction) :
    ∀ (gzw : gzipResponseWriter) (bytes : List Nat),
      ((gzw.writer = none ∧ gzw.buf = bytes) ∨ (gzw.writer = some bytes ∧ gzw.buf = [])) →
      (((acts.foldl gzipResponseWriter.act gzw).writer = none ∧
          (acts.foldl gzipResponseWriter.act gzw).buf = bytes ++ writtenBytes acts) ∨
        ((acts.foldl gzipResponseWriter.act gzw).writer = some (bytes ++ writtenBytes acts) ∧
          (acts.foldl gzipResponseWriter.act gzw).buf = [])) ∧
      (acts.foldl gzipResponseWriter.act gzw).ResponseWriter.body = gzw.ResponseWriter.body := by
  induction acts with
  | nil => intro gzw bytes h; simpa [writtenBytes] using h
  | cons a rest ih =>
    intro gzw bytes h
    rw [List.foldl_cons]
    cases a with
    | setHeader name value =>
      have := ih (gzw.act (.setHeader name value)) bytes (by simpa [gzipResponseWriter.act] using h)
      simpa [writtenBytes, gzipResponseWriter.act] using this
    | writeHeader statusCode =>
      have := ih (gzw.act (.writeHeader statusCode)) bytes
        (by simpa [gzipResponseWriter.act, gzipResponseWriter.WriteHeader] using h)
      simpa [writtenBytes, gzipResponseWriter.act, gzipResponseWriter.WriteHeader] using this
    | write data =>
      obtain ⟨uw, wr, cl, ms, buf, code, hd⟩ := gzw
      have hstep :
          ((gzipResponseWriter.Write ⟨uw, wr, cl, ms, buf, code, hd⟩ data).writer = none ∧
            (gzipResponseWriter.Write ⟨uw, wr, cl, ms, buf, code, hd⟩ data).buf =
              bytes ++ data) ∨
          ((gzipResponseWriter.Write ⟨uw, wr, cl, ms, buf, code, hd⟩ data).writer =
              some (bytes ++ data) ∧
            (gzipResponseWriter.Write ⟨uw, wr, cl, ms, buf, code, hd⟩ data).buf = []) := by
        rcases h with ⟨hw, hb⟩ | ⟨hw, hb⟩
        · simp only at hw hb
          subst hw hb
          by_cases hge : ms ≤ buf.length + data.length
          · right; simp [gzipResponseWriter.Write, hge]
          · left; simp [gzipResponseWriter.Write, hge]
        · simp only at hw hb
          subst hw hb
          right
          simp [gzipResponseWriter.Write]
      have hbody : (gzipResponseWriter.Write ⟨uw, wr, cl, ms, buf, code, hd⟩ data
          ).ResponseWriter.body = uw.body := by
        unfold gzipResponseWriter.Write
        simp only
        split
        · rfl
        · split <;> rfl
      have := ih (gzipResponseWriter.Write ⟨uw, wr, cl, ms, buf, code, hd⟩ data) (bytes ++ data) hstep
      simpa [writtenBytes, gzipResponseWriter.act, hbody, List.append_assoc] using this

/-! ## The merge loop without the shortcut ends in a mapping -/

/-- On values without shared map objects a set does not disturb sibling paths: when neither
segment list is a prefix of the other, `GetNestedField` at `q` returns the same result
after `SetNestedField(m, p, v)` as before. -/
theorem setNested_siblings_value (m : Fields) (v : Value) (p q : String)
    (h1 : ¬ splitDots p <+: splitDots q) (h2 : ¬ splitDots q <+: splitDots p) :
    GetNestedField (SetNestedField m p v) q = GetNestedField m q := by
  unfold GetNestedField SetNestedField
  rw [getNested_eq_lookupPath, getNested_eq_lookupPath,
    lookupPath_setNested_sibling v _ _ m h1 h2]

theorem setNested_siblings_value_example :
    SetNestedField (SetNestedField [] "user.personal.name" (.str "Jane")) "user.contact.phone"
        (.str "123-456-7890") =
      [("user", .obj [("personal", .obj [("name", .str "Jane")]),
        ("contact", .obj [("phone", .str "123-456-7890")])])] ∧
    GetNestedField
        (SetNestedField (SetNestedField [] "user.personal.name" (.str "Jane"))
          "user.contact.phone" (.str "123-456-7890")) "user.personal.name" =
      GetNestedField (SetNestedField [] "user.personal.name" (.str "Jane"))
        "user.personal.name" :=
  ⟨rfl, setNested_siblings_value _ (.str "123-456-7890") "user.contact.phone"
    "user.personal.name" (by decide) (by decide)⟩

/-! ## Sibling paths on the heap of map objects -/

theorem hmapGet_hmapSet_same (k : String) (v : HValue) (m : HFields) :
    hmapGet k (hmapSet k v m) = some v := by
  induction m with
  | nil => simp [hmapSet, hmapGet]
  | cons kv rest ih =>
    obtain ⟨k0, v0⟩ := kv
    by_cases h : k0 = k
    · simp [hmapSet, hmapGet, h]
    · simp [hmapSet, hmapGet, h, ih]

theorem hmapGet_hmapSet_ne (k k1 : String) (v : HValue) (m : HFields) (h : k1 ≠ k) :
    hmapGet k1 (hmapSet k v m) = hmapGet k1 m := by
  induction m with
  | nil =>
    have : ¬ k = k1 := fun e => h e.symm
    simp [hmapSet, hmapGet, this]
  | cons kv rest ih =>
    obtain ⟨k0, v0⟩ := kv
    by_cases h0 : k0 = k
    · subst h0
      have h1 : ¬ k0 = k1 := fun e => h e.symm
      simp [hmapSet, hmapGet, h1]
    · by_cases h1 : k0 = k1
      · subst h1
        simp [hmapSet, hmapGet, h0]
      · simp [hmapSet, hmapGet, h0, h1, ih]

theorem HValue.ref_or (u : HValue) : (∃ n : Nat, u = .ref n) ∨ ∀ n : Nat, u ≠ .ref n := by
  cases u with
  | ref n => exact Or.inl ⟨n, rfl⟩
  | null => exact Or.inr (fun n h => by cases h)
  | bool b => exact Or.inr (fun n h => by cases h)
  | num x => exact Or.inr (fun n h => by cases h)
  | str s => exact Or.inr (fun n h => by cases h)
  | arr xs => exact Or.inr (fun n h => by cases h)

/-! ### One step of the walks on the heap, by case -/

theorem hGetNested_none (h : Heap) (c : Nat) (k : String) (rest : List String)
    (hg : hmapGet k (h.objs c) = none) : h.getNested c (k :: rest) = .null := by
  rw [Heap.getNested, hg]

theorem hGetNested_ref (h : Heap) (c n : Nat) (k k2 : String) (rest : List String)
    (hg : hmapGet k (h.objs c) = some (.ref n)) :
    h.getNested c (k :: k2 :: rest) = h.getNested n (k2 :: rest) := by
  rw [Heap.getNested, hg]
  rfl

theorem hGetNested_of_empty (h : Heap) (c : Nat) (parts : List String)
    (he : h.objs c = []) : h.getNested c parts = .null := by
  cases parts with
  | nil => rfl
  | cons k rest => exact hGetNested_none h c k rest (by rw [he]; rfl)

theorem hSetNested_one (h : Heap) (c : Nat) (k : String) (v : HValue) :
    h.setNested c [k] v = h.store c k v := by
  rw [Heap.setNested]
  rfl

theorem hSetNested_none (h : Heap) (c : Nat) (k k2 : String) (rest : List String)
    (v : HValue) (hg : hmapGet k (h.objs c) = none) :
    h.setNested c (k :: k2 :: rest) v =
      (h.make.store c k (.ref h.next)).setNested h.next (k2 :: rest) v := by
  rw [Heap.setNested, hg]
  rfl

theorem hSetNested_ref (h : Heap) (c n : Nat) (k k2 : String) (rest : List String)
    (v : HValue) (hg : hmapGet k (h.objs c) = some (.ref n)) :
    h.setNested c (k :: k2 :: rest) v = h.setNested n (k2 :: rest) v := by
  rw [Heap.setNested, hg]
  rfl

theorem hSetNested_stop (h : Heap) (c : Nat) (u : HValue) (k k2 : String)
    (rest : List String) (v : HValue) (hg : hmapGet k (h.objs c) = some u)
    (hu : ∀ n : Nat, u ≠ .ref n) : h.setNested c (k :: k2 :: rest) v = h := by
  rw [Heap.setNested, hg]
  cases u with
  | ref n => exact absurd rfl (hu n)
  | null => rfl
  | bool b => rfl
  | num x => rfl
  | str s => rfl
  | arr xs => rfl

theorem hWalk_ref (h : Heap) (c n : Nat) (k : String) (s : List String)
    (hg : hmapGet k (h.objs c) = some (.ref n)) : h.walk c (k :: s) = h.walk n s := by
  rw [Heap.walk, hg]

theorem hWalk_cons_some (h : Heap) (c b : Nat) (k : String) (s : List String)
    (hw : h.walk c (k :: s) = some b) :
    ∃ n : Nat, hmapGet k (h.objs c) = some (.ref n) ∧ h.walk n s = some b := by
  rw [Heap.walk] at hw
  split at hw
  · rename_i n hg
    exact ⟨n, hg, hw⟩
  · cases hw

theorem hWalk_of_empty (h : Heap) (c b : Nat) (s : List String) (he : h.objs c = [])
    (hw : h.walk c s = some b) : s = [] ∧ b = c := by
  cases s with
  | nil =>
    simp only [Heap.walk, Option.some.injEq] at hw
    exact ⟨rfl, hw.symm⟩
  | cons k rest =>
    obtain ⟨n, hg, _⟩ := hWalk_cons_some h c b k rest hw
    rw [he] at hg
    cases hg

/-- Every map object reached from an allocated one is allocated. -/
theorem hWalk_lt (h : Heap) (hwf : h.wf) (s : List String) :
    ∀ c b : Nat, c < h.next → h.walk c s = some b → b < h.next := by
  induction s with
  | nil =>
    intro c b hc hw
    simp only [Heap.walk, Option.some.injEq] at hw
    omega
  | cons k rest ih =>
    intro c b _ hw
    obtain ⟨n, hg, hw2⟩ := hWalk_cons_some h c b k rest hw
    exact ih n b (hwf c k n hg) hw2

theorem hTreeShaped_ref (h : Heap) (c n : Nat) (k : String)
    (hg : hmapGet k (h.objs c) = some (.ref n)) (ht : h.TreeShaped c) : h.TreeShaped n := by
  intro s t a hs ht2
  have := ht (k :: s) (k :: t) a (by rw [hWalk_ref h c n k s hg]; exact hs)
    (by rw [hWalk_ref h c n k t hg]; exact ht2)
  simpa using this

/-- In a tree-shaped heap no path leads from below a map object back to it. -/
theorem hWalk_not_back (h : Heap) (c n : Nat) (k : String)
    (hg : hmapGet k (h.objs c) = some (.ref n)) (ht : h.TreeShaped c) (s : List String) :
    h.walk n s ≠ some c := by
  intro hw
  have := ht (k :: s) [] c (by rw [hWalk_ref h c n k s hg]; exact hw) rfl
  cases this

/-! ### The heap after an allocation and the store of its reference -/

theorem hMake_store_objs_self (h : Heap) (c : Nat) (k : String) (hc : c < h.next) :
    (h.make.store c k (.ref h.next)).objs c = hmapSet k (.ref h.next) (h.objs c) := by
  have hne : ¬ c = h.next := by omega
  simp [Heap.store, Heap.make, hne]

theorem hMake_store_objs_new (h : Heap) (c : Nat) (k : String) (hc : c < h.next) :
    (h.make.store c k (.ref h.next)).objs h.next = [] := by
  have hne : ¬ h.next = c := by omega
  simp [Heap.store, Heap.make, hne]

theorem hMake_store_objs_other (h : Heap) (c a : Nat) (k : String) (h1 : a ≠ c)
    (h2 : a ≠ h.next) : (h.make.store c k (.ref h.next)).objs a = h.objs a := by
  simp [Heap.store, Heap.make, h1, h2]

theorem hMake_store_next (h : Heap) (c : Nat) (k : String) :
    (h.make.store c k (.ref h.next)).next = h.next + 1 := rfl

theorem hMake_store_wf (h : Heap) (c : Nat) (k : String) (hwf : h.wf) (hc : c < h.next) :
    (h.make.store c k (.ref h.next)).wf := by
  intro a k1 b hg
  rw [hMake_store_next]
  by_cases hac : a = c
  · subst hac
    rw [hMake_store_objs_self h a k hc] at hg
    by_cases hk : k1 = k
    · subst hk
      rw [hmapGet_hmapSet_same] at hg
      injection hg with hg
      injection hg with hg
      omega
    · rw [hmapGet_hmapSet_ne _ _ _ _ hk] at hg
      have := hwf a k1 b hg
      omega
  · by_cases han : a = h.next
    · subst han
      rw [hMake_store_objs_new h c k hc] at hg
      cases hg
    · rw [hMake_store_objs_other h c a k hac han] at hg
      have := hwf a k1 b hg
      omega

theorem hMake_store_treeShaped (h : Heap) (c : Nat) (k : String) (hc : c < h.next) :
    (h.make.store c k (.ref h.next)).TreeShaped h.next := by
  intro s t a hs ht
  have h1 := hWalk_of_empty _ _ _ s (hMake_store_objs_new h c k hc) hs
  have h2 := hWalk_of_empty _ _ _ t (hMake_store_objs_new h c k hc) ht
  rw [h1.1, h2.1]

/-! ### What a set writes, and what a get reads -/

/-- A get reads one cell of its map object and then only the map object stored there. -/
theorem hGetNested_congr (h h1 : Heap) (c : Nat) (a : String) (qs : List String)
    (hcell : hmapGet a (h1.objs c) = hmapGet a (h.objs c))
    (hsub : ∀ n : Nat, hmapGet a (h.objs c) = some (.ref n) →
      h1.getNested n qs = h.getNested n qs) :
    h1.getNested c (a :: qs) = h.getNested c (a :: qs) := by
  rw [Heap.getNested, Heap.getNested, hcell]
  cases hg : hmapGet a (h.objs c) with
  | none => rfl
  | some u =>
    cases qs with
    | nil => rfl
    | cons q2 qs2 =>
      cases u with
      | ref n => exact hsub n hg
      | null => rfl
      | bool b => rfl
      | num x => rfl
      | str s => rfl
      | arr xs => rfl

/-- A get from a map object depends only on the map objects reachable from it. -/
theorem hGetNested_frame (h h1 : Heap) (qs : List String) :
    ∀ b : Nat, (∀ (s : List String) (a : Nat), h.walk b s = some a → h1.objs a = h.objs a) →
      h1.getNested b qs = h.getNested b qs := by
  induction qs with
  | nil => intro b _; rfl
  | cons a rest ih =>
    intro b hsame
    refine hGetNested_congr h h1 b a rest (by rw [hsame [] b rfl]) ?_
    intro n hg
    refine ih n ?_
    intro s x hw
    exact hsame (a :: s) x (by rw [hWalk_ref h b n a s hg]; exact hw)

/-- A set changes only map objects reachable from the one it starts at, and new ones. -/
theorem hSetNested_frame (v : HValue) (a : Nat) (p : List String) :
    ∀ (h : Heap) (cur : Nat), h.wf → cur < h.next → a < h.next →
      (∀ s : List String, h.walk cur s ≠ some a) →
      (h.setNested cur p v).objs a = h.objs a := by
  induction p with
  | nil => intro h cur _ _ _ _; rfl
  | cons k ps ih =>
    intro h cur hwf hc ha hun
    have hac : a ≠ cur := fun e => hun [] (by rw [e]; rfl)
    cases ps with
    | nil =>
      rw [hSetNested_one]
      simp [Heap.store, hac]
    | cons k2 ps2 =>
      cases hg : hmapGet k (h.objs cur) with
      | none =>
        rw [hSetNested_none h cur k k2 ps2 v hg]
        have han : a ≠ h.next := by omega
        rw [ih (h.make.store cur k (.ref h.next)) h.next (hMake_store_wf h cur k hwf hc)
          (by rw [hMake_store_next]; omega) (by rw [hMake_store_next]; omega) ?_]
        · exact hMake_store_objs_other h cur a k hac han
        · intro s hw
          have := hWalk_of_empty _ _ _ s (hMake_store_objs_new h cur k hc) hw
          exact han this.2
      | some u =>
        rcases HValue.ref_or u with ⟨n, rfl⟩ | hu
        · rw [hSetNested_ref h cur n k k2 ps2 v hg]
          refine ih h n hwf (hwf cur k n hg) ha ?_
          intro s hw
          exact hun (k :: s) (by rw [hWalk_ref h cur n k s hg]; exact hw)
        · rw [hSetNested_stop h cur u k k2 ps2 v hg hu]

/-- On a tree-shaped heap a set leaves every path alone that neither extends nor is
extended by the set path. -/
theorem hGetNested_setNested_sibling (v : HValue) (p : List String) :
    ∀ (h : Heap) (cur : Nat) (q : List String), h.wf → cur < h.next → h.TreeShaped cur →
      ¬ p <+: q → ¬ q <+: p →
      (h.setNested cur p v).getNested cur q = h.getNested cur q := by
  induction p with
  | nil => intro h cur q _ _ _ h1 _; exact absurd List.nil_prefix h1
  | cons k ps ih =>
    intro h cur q hwf hc ht h1 h2
    cases q with
    | nil => exact absurd List.nil_prefix h2
    | cons a qs =>
      -- the map objects below a key other than `k` are out of the set's reach
      have hbelow : ∀ (n : Nat), a ≠ k → hmapGet a (h.objs cur) = some (.ref n) →
          ∀ (s : List String) (b : Nat), h.walk n s = some b →
            b < h.next ∧ b ≠ cur ∧
              ∀ (m : Nat) (s1 : List String),
                hmapGet k (h.objs cur) = some (.ref m) → h.walk m s1 ≠ some b := by
        intro n hak hg s b hw
        refine ⟨hWalk_lt h hwf s n b (hwf cur a n hg) hw, ?_, ?_⟩
        · intro e
          rw [e] at hw
          exact hWalk_not_back h cur n a hg ht s hw
        · intro m s1 hgk hw1
          have := ht (a :: s) (k :: s1) b (by rw [hWalk_ref h cur n a s hg]; exact hw)
            (by rw [hWalk_ref h cur m k s1 hgk]; exact hw1)
          simp only [List.cons.injEq] at this
          exact hak this.1
      cases ps with
      | nil =>
        have hak : a ≠ k := by
          intro e
          subst e
          exact h1 (List.cons_prefix_cons.mpr ⟨rfl, List.nil_prefix⟩)
        rw [hSetNested_one]
        refine hGetNested_congr h _ cur a qs ?_ ?_
        · simp only [Heap.store, if_true]
          exact hmapGet_hmapSet_ne _ _ _ _ hak
        · intro n hg
          refine hGetNested_frame h _ qs n ?_
          intro s b hw
          obtain ⟨_, hbc, _⟩ := hbelow n hak hg s b hw
          simp [Heap.store, hbc]
      | cons k2 ps2 =>
        cases hgk : hmapGet k (h.objs cur) with
        | none =>
          rw [hSetNested_none h cur k k2 ps2 v hgk]
          have hwf1 := hMake_store_wf h cur k hwf hc
          have hnew := hMake_store_objs_new h cur k hc
          have hunreach : ∀ (b : Nat), b ≠ h.next → ∀ s : List String,
              (h.make.store cur k (.ref h.next)).walk h.next s ≠ some b := by
            intro b hb s hw
            exact hb (hWalk_of_empty _ _ _ s hnew hw).2
          have hcur : ((h.make.store cur k (.ref h.next)).setNested h.next (k2 :: ps2) v).objs cur
              = hmapSet k (.ref h.next) (h.objs cur) := by
            rw [hSetNested_frame v cur (k2 :: ps2) _ h.next hwf1
              (by rw [hMake_store_next]; omega) (by rw [hMake_store_next]; omega)
              (hunreach cur (by omega))]
            exact hMake_store_objs_self h cur k hc
          by_cases hak : a = k
          · subst hak
            have h1r : ¬ (k2 :: ps2) <+: qs := fun e => h1 (List.cons_prefix_cons.mpr ⟨rfl, e⟩)
            have h2r : ¬ qs <+: (k2 :: ps2) := fun e => h2 (List.cons_prefix_cons.mpr ⟨rfl, e⟩)
            cases qs with
            | nil => exact absurd List.nil_prefix h2r
            | cons q2 qs2 =>
              rw [hGetNested_none h cur a _ hgk,
                hGetNested_ref _ cur h.next a q2 qs2
                  (by rw [hcur]; exact hmapGet_hmapSet_same _ _ _),
                ih _ h.next (q2 :: qs2) hwf1 (by rw [hMake_store_next]; omega)
                  (hMake_store_treeShaped h cur a hc) h1r h2r]
              exact hGetNested_of_empty _ _ _ hnew
          · refine hGetNested_congr h _ cur a qs ?_ ?_
            · rw [hcur]
              exact hmapGet_hmapSet_ne _ _ _ _ hak
            · intro n hg
              refine hGetNested_frame h _ qs n ?_
              intro s b hw
              obtain ⟨hb, hbc, _⟩ := hbelow n hak hg s b hw
              have hbn : b ≠ h.next := by omega
              rw [hSetNested_frame v b (k2 :: ps2) _ h.next hwf1
                (by rw [hMake_store_next]; omega) (by rw [hMake_store_next]; omega)
                (hunreach b hbn)]
              exact hMake_store_objs_other h cur b k hbc hbn
        | some u =>
          rcases HValue.ref_or u with ⟨m, rfl⟩ | hu
          · rw [hSetNested_ref h cur m k k2 ps2 v hgk]
            have hm : m < h.next := hwf cur k m hgk
            have hcur : (h.setNested m (k2 :: ps2) v).objs cur = h.objs cur :=
              hSetNested_frame v cur (k2 :: ps2) h m hwf hm hc
                (hWalk_not_back h cur m k hgk ht)
            by_cases hak : a = k
            · subst hak
              have h1r : ¬ (k2 :: ps2) <+: qs :=
                fun e => h1 (List.cons_prefix_cons.mpr ⟨rfl, e⟩)
              have h2r : ¬ qs <+: (k2 :: ps2) :=
                fun e => h2 (List.cons_prefix_cons.mpr ⟨rfl, e⟩)
              refine hGetNested_congr h _ cur a qs (by rw [hcur]) ?_
              intro n hg
              rw [hgk] at hg
              injection hg with hg
              injection hg with hg
              subst hg
              exact ih h m qs hwf hm (hTreeShaped_ref h cur m a hgk ht) h1r h2r
            · refine hGetNested_congr h _ cur a qs (by rw [hcur]) ?_
              intro n hg
              refine hGetNested_frame h _ qs n ?_
              intro s b hw
              obtain ⟨hb, _, hdis⟩ := hbelow n hak hg s b hw
              exact hSetNested_frame v b (k2 :: ps2) h m hwf hm hb
                (fun s1 => hdis m s1 hgk)
          · rw [hSetNested_stop h cur u k k2 ps2 v hgk hu]

theorem sibling_append (p q t : List String) (h1 : ¬ p <+: q) (h2 : ¬ q <+: p) :
    ¬ p <+: q ++ t ∧ ¬ (q ++ t) <+: p := by
  constructor
  · intro hp
    rcases List.prefix_or_prefix_of_prefix hp (List.prefix_append q t) with h | h
    · exact h1 h
    · exact h2 h
  · intro hq
    exact h2 ((List.prefix_append q t).trans hq)

/-! ### The two example heaps -/

theorem sharedHeap_wf : sharedHeap.wf := by
  intro a k b hg
  have hnext : sharedHeap.next = 3 := rfl
  rw [hnext]
  by_cases h0 : a = 0
  · subst h0
    have ho : sharedHeap.objs 0 = [("user", .ref 1), ("id", .num 1), ("name", .ref 2)] := rfl
    rw [ho] at hg
    simp only [hmapGet] at hg
    split_ifs at hg <;> simp at hg <;> omega
  · by_cases h1 : a = 1
    · subst h1
      have ho : sharedHeap.objs 1 = [("name", .ref 2)] := rfl
      rw [ho] at hg
      simp only [hmapGet] at hg
      split_ifs at hg
      simp at hg
      omega
    · by_cases h2 : a = 2
      · subst h2
        have ho : sharedHeap.objs 2 = [("first", .str "J")] := rfl
        rw [ho] at hg
        simp only [hmapGet] at hg
        split_ifs at hg
        simp at hg
      · have ho : sharedHeap.objs a = [] := by simp [sharedHeap, h0, h1, h2]
        rw [ho] at hg
        cases hg

theorem chainHeap_wf : chainHeap.wf := by
  intro a k b hg
  have hnext : chainHeap.next = 3 := rfl
  rw [hnext]
  by_cases h0 : a = 0
  · subst h0
    have ho : chainHeap.objs 0 = [("user", .ref 1)] := rfl
    rw [ho] at hg
    simp only [hmapGet] at hg
    split_ifs at hg
    simp at hg
    omega
  · by_cases h1 : a = 1
    · subst h1
      have ho : chainHeap.objs 1 = [("personal", .ref 2)] := rfl
      rw [ho] at hg
      simp only [hmapGet] at hg
      split_ifs at hg
      simp at hg
      omega
    · by_cases h2 : a = 2
      · subst h2
        have ho : chainHeap.objs 2 = [("name", .str "Jane")] := rfl
        rw [ho] at hg
        simp only [hmapGet] at hg
        split_ifs at hg
        simp at hg
      · have ho : chainHeap.objs a = [] := by simp [chainHeap, h0, h1, h2]
        rw [ho] at hg
        cases hg

theorem chainHeap_walk (s : List String) (a : Nat) (hw : chainHeap.walk 0 s = some a) :
    (s = [] ∧ a = 0) ∨ (s = ["user"] ∧ a = 1) ∨ (s = ["user", "personal"] ∧ a = 2) := by
  cases s with
  | nil =>
    simp only [Heap.walk, Option.some.injEq] at hw
    exact Or.inl ⟨rfl, hw.symm⟩
  | cons k1 s1 =>
    obtain ⟨n1, hg1, hw1⟩ := hWalk_cons_some _ _ _ _ _ hw
    have ho0 : chainHeap.objs 0 = [("user", .ref 1)] := rfl
    rw [ho0] at hg1
    simp only [hmapGet] at hg1
    split_ifs at hg1 with hk1
    · simp only [Option.some.injEq, HValue.ref.injEq] at hg1
      subst hg1 hk1
      cases s1 with
      | nil =>
        simp only [Heap.walk, Option.some.injEq] at hw1
        exact Or.inr (Or.inl ⟨rfl, hw1.symm⟩)
      | cons k2 s2 =>
        obtain ⟨n2, hg2, hw2⟩ := hWalk_cons_some _ _ _ _ _ hw1
        have ho1 : chainHeap.objs 1 = [("personal", .ref 2)] := rfl
        rw [ho1] at hg2
        simp only [hmapGet] at hg2
        split_ifs at hg2 with hk2
        · simp only [Option.some.injEq, HValue.ref.injEq] at hg2
          subst hg2 hk2
          cases s2 with
          | nil =>
            simp only [Heap.walk, Option.some.injEq] at hw2
            exact Or.inr (Or.inr ⟨rfl, hw2.symm⟩)
          | cons k3 s3 =>
            obtain ⟨n3, hg3, _⟩ := hWalk_cons_some _ _ _ _ _ hw2
            have ho2 : chainHeap.objs 2 = [("name", .str "Jane")] := rfl
            rw [ho2] at hg3
            simp only [hmapGet] at hg3
            split_ifs at hg3
            simp at hg3

theorem chainHeap_treeShaped : chainHeap.TreeShaped 0 := by
  intro s t a hs ht
  rcases chainHeap_walk s a hs with ⟨h1, h2⟩ | ⟨h1, h2⟩ | ⟨h1, h2⟩ <;>
    rcases chainHeap_walk t a ht with ⟨h3, h4⟩ | ⟨h3, h4⟩ | ⟨h3, h4⟩ <;>
    first
    | omega
    | (rw [h1, h3])

/-! ## The properties -/

/-- Claim C1, as stated, fails: with an empty target `Transform` skips the target step,
while `ApplyTarget` with the empty path still looks up the key `""`.  On the input
`{"": 5}` without directives `Transform` returns the input and the unconditional
composition returns `5`. -/
theorem Transform_composition_counterexample :
    Transform (.obj [("", .num 5)]) plainBackend ≠
      ApplyMapping
        (ApplyFiltering (ApplyTarget (.obj [("", .num 5)]) plainBackend.Target)
          plainBackend.Allow plainBackend.Deny)
        plainBackend.Mapping := by
  intro h
  have h1 : Transform (.obj [("", .num 5)]) plainBackend = .obj [("", .num 5)] := rfl
  have h2 : ApplyMapping
        (ApplyFiltering (ApplyTarget (.obj [("", .num 5)]) plainBackend.Target)
          plainBackend.Allow plainBackend.Deny)
        plainBackend.Mapping = .num 5 := rfl
  rw [h1, h2] at h
  cases h

/-- Claim C1 (amended): for every decoded input value and every backend configuration,
`Transform` returns `ApplyMapping (ApplyFiltering T allow deny) mapping`, where `T` is
`ApplyTarget input target` when the target is non-empty and the input itself when the
target is empty: target, then filter, then mapping, the target step being skipped for an
empty target. -/
theorem Transform_guarded_composition (data : Value) (backend : Backend)
    (hwf : data.wf = true) :
    Transform data backend =
      ApplyMapping
        (ApplyFiltering (if backend.Target ≠ "" then ApplyTarget data backend.Target else data)
          backend.Allow backend.Deny)
        backend.Mapping := by
  have hT : (if backend.Target ≠ "" then ApplyTarget data backend.Target else data).wf = true := by
    split
    · exact wf_ApplyTarget data _ hwf
    · exact hwf
  unfold Transform
  by_cases hn : data.isNull = true
  · have hd : data = .null := (Value.isNull_eq_true data).mp hn
    subst hd
    simp [Value.isNull, ApplyTarget, ApplyFiltering, ApplyMapping]
  · rw [if_neg hn]
    dsimp only
    generalize (if backend.Target ≠ "" then ApplyTarget data backend.Target else data) = t at hT
    have hfilter : (if backend.Allow.length > 0 ∨ backend.Deny.length > 0 then
          ApplyFiltering t backend.Allow backend.Deny else t) =
        ApplyFiltering t backend.Allow backend.Deny := by
      split
      · rfl
      · rename_i hlen
        have ha : backend.Allow = [] := by
          apply List.eq_nil_of_length_eq_zero; omega
        have hd : backend.Deny = [] := by
          apply List.eq_nil_of_length_eq_zero; omega
        rw [ha, hd, ApplyFiltering_nil t (topWf_of_wf t hT)]
    rw [hfilter]
    split
    · rfl
    · rename_i hlen
      have hm : backend.Mapping = [] := by
        apply List.eq_nil_of_length_eq_zero; omega
      rw [hm]
      exact (ApplyMapping_nil _ (topWf_ApplyFiltering _ _ t)).symm

/-- The pipeline scenario: target `response.data`, allow list, one renaming. -/
theorem Transform_guarded_composition_witness :
    pipelineInput.wf = true ∧
      Transform pipelineInput pipelineBackend =
        ApplyMapping
          (ApplyFiltering (ApplyTarget pipelineInput "response.data")
            ["id", "fullName", "email"] [])
          [("fullName", "name")] ∧
      Transform pipelineInput pipelineBackend =
        .obj [("id", .num 1), ("email", .str "john@example.com"), ("name", .str "John Doe")] :=
  ⟨rfl, Transform_guarded_composition pipelineInput pipelineBackend rfl, rfl⟩

/-- Claim C4, as stated, fails: for the list of a successful response with the sequence
value `[1]` (no directives) followed by a failed response, `Merge` returns the empty
mapping, because the sole-response shortcut asks for a response list of length 1; with the
failed response removed the list has length 1 and `Merge` returns `[1]` itself. -/
theorem Merge_contributing_counterexample :
    (Merge [⟨plainBackend, .arr [.num 1], none⟩, failedResponse]).1 ≠
      (Merge (contributing [⟨plainBackend, .arr [.num 1], none⟩, failedResponse])).1 := by
  intro h
  have h1 : (Merge [⟨plainBackend, .arr [.num 1], none⟩, failedResponse]).1 = .obj [] := rfl
  have h2 : (Merge (contributing [⟨plainBackend, .arr [.num 1], none⟩, failedResponse])).1 =
      .arr [.num 1] := rfl
  rw [h1, h2] at h
  cases h

/-- Claim C4 (amended): the merged value of a response list equals the merged value of the
list with every failed and every nothing-valued response removed exactly when the list has
length 1, or the number of remaining responses is not 1, or the one remaining response sets
`concat` or `group` or has a mapping as its transformed value.  (In the excluded case the
full list yields the empty mapping and the reduced list the transformed value itself.) -/
theorem Merge_contributing_iff (responses : List BackendResponse)
    (hwf : ∀ r ∈ responses, r.Data.wf = true) :
    (Merge responses).1 = (Merge (contributing responses)).1 ↔
      (responses.length = 1 ∨ (contributing responses).length ≠ 1 ∨
        ∀ r ∈ contributing responses,
          r.Backend.Concat ≠ "" ∨ r.Backend.Group ≠ "" ∨
            (Transform r.Data r.Backend).isObj = true) := by
  by_cases hlen : responses.length = 1
  · have heq : (Merge responses).1 = (Merge (contributing responses)).1 := by
      obtain ⟨r, hr⟩ := List.length_eq_one.mp hlen
      subst hr
      by_cases hc : r.contributes = true
      · have : contributing [r] = [r] := by simp [contributing, hc]
        rw [this]
      · have hc2 : r.contributes = false := by simpa using hc
        have : contributing [r] = [] := by simp [contributing, hc2]
        rw [this]
        unfold Merge
        rw [mergeLoop_skipped _ _ (by simpa using hc2)]
        rfl
    exact ⟨fun _ => Or.inl hlen, fun _ => heq⟩
  · by_cases hclen : (contributing responses).length ≠ 1
    · have heq : (Merge responses).1 = (Merge (contributing responses)).1 :=
        mergeLoop_contributing _ _ hlen hclen responses _ _ rfl
      exact ⟨fun _ => Or.inr (Or.inl hclen), fun _ => heq⟩
    · have hc1 : (contributing responses).length = 1 := by simpa using hclen
      obtain ⟨r, hr⟩ := List.length_eq_one.mp hc1
      have hmem : r ∈ contributing responses := by rw [hr]; exact List.mem_singleton_self r
      have hmem2 : r ∈ responses ∧ r.contributes = true := by
        simpa [contributing, List.mem_filter] using hmem
      have hL : (Merge responses).1 = (mergeLoop 0 ⟨[], true, 0⟩ [r]).1 := by
        unfold Merge
        rw [mergeLoop_contributing _ 0 hlen (by decide) responses _ ⟨[], true, 0⟩ rfl, hr]
      have hR : (Merge (contributing responses)).1 = (mergeLoop 1 ⟨[], true, 0⟩ [r]).1 := by
        rw [hr]; rfl
      rw [hL, hR, Merge_sole_contributor 0 (by decide) r hmem2.2 (hwf r hmem2.1), hr]
      simp [hlen]

/-- The partial-failure scenario: one mapping-valued response and one failed response. -/
theorem Merge_contributing_iff_witness :
    (Merge [⟨plainBackend, .obj userFields, none⟩, failedResponse]).1 =
      (Merge (contributing [⟨plainBackend, .obj userFields, none⟩, failedResponse])).1 :=
  (Merge_contributing_iff [⟨plainBackend, .obj userFields, none⟩, failedResponse]
    (by decide)).mpr (Or.inr (Or.inr (by decide)))

/-- Claim C5: for a response list of length 1 whose response succeeded with a non-nothing
value and whose backend sets neither `concat` nor `group`, `Merge` returns exactly the
transformed value, with the completeness flag true. -/
theorem Merge_single (r : BackendResponse) (hE : r.Error = none) (hD : r.Data.isNull = false)
    (hC : r.Backend.Concat = "") (hG : r.Backend.Group = "") :
    Merge [r] = (Transform r.Data r.Backend, true) := by
  simp [Merge, mergeLoop, hE, hD, hC, hG]

/-- A single backend answering with a sequence: the sequence is returned as it is. -/
theorem Merge_single_witness :
    Merge [⟨plainBackend, .arr [.num 1, .num 2], none⟩] = (.arr [.num 1, .num 2], true) :=
  Merge_single ⟨plainBackend, .arr [.num 1, .num 2], none⟩ rfl rfl rfl rfl

/-- Claim C6: for two successful mapping-valued responses without directives whose key
sets are disjoint, `Merge` returns the union of the two mappings (every key of either
response with its value, and no other key), with the completeness flag true. -/
theorem Merge_disjoint_union (b1 b2 : Backend) (a b : Fields) (h1 : b1.noDirectives)
    (h2 : b2.noDirectives) (ha : NodupKeys a) (hb : NodupKeys b)
    (hdisj : ∀ k, k ∈ keysOf a → k ∉ keysOf b) :
    Merge [⟨b1, .obj a, none⟩, ⟨b2, .obj b, none⟩] = (.obj (a ++ b), true) ∧
      NodupKeys (a ++ b) ∧
      ∀ (k : String) (v : Value),
        mapGet k (a ++ b) = some v ↔ (mapGet k a = some v ∨ mapGet k b = some v) := by
  have hnd : (keysOf a ++ keysOf b).Nodup :=
    List.nodup_append.mpr ⟨ha, hb, fun x hx hy => hdisj x hx hy⟩
  refine ⟨?_, ?_, ?_⟩
  · rw [Merge_two_plain b1 b2 a b h1 h2, deepMergeAll_nil a ha, deepMergeAll_append b a hnd]
  · simpa [NodupKeys, keysOf] using hnd
  · intro k v
    rw [mapGet_append]
    cases hga : mapGet k a with
    | some w => 
      have : k ∈ keysOf a := by
        by_contra hc
        rw [(mapGet_eq_none_iff k a).mpr hc] at hga
        cases hga
      have hkb : mapGet k b = none := (mapGet_eq_none_iff k b).mpr (hdisj k this)
      simp [hkb]
    | none => simp

/-- The two-backend merge scenario. -/
theorem Merge_disjoint_union_witness :
    Merge [⟨plainBackend, .obj userFields, none⟩, ⟨plainBackend, .obj profileFields, none⟩] =
      (.obj [("id", .num 1), ("name", .str "John"), ("email", .str "john@example.com"),
        ("age", .num 30)], true) :=
  (Merge_disjoint_union plainBackend plainBackend userFields profileFields
    (by decide) (by decide) (by decide) (by decide) (by decide)).1

/-- Claim C8: for a non-empty list of successful responses with non-nothing values that
all set the same concat key K and no other directive, `Merge` returns the mapping with the
single key K holding the in-order concatenation of the contributions (the elements of a
sequence value, any other value as a single element), with the completeness flag true. -/
theorem Merge_concat_all (k : String) (hk : k ≠ "") (responses : List BackendResponse)
    (hne : responses ≠ [])
    (h : ∀ r ∈ responses, r.Error = none ∧ r.Data.isNull = false ∧ r.Backend.Concat = k ∧
      r.Backend.Group = "" ∧ r.Backend.Target = "" ∧ r.Backend.Allow = [] ∧
      r.Backend.Deny = [] ∧ r.Backend.Mapping = []) :
    Merge responses = (.obj [(k, .arr (concatContributions responses))], true) := by
  cases responses with
  | nil => exact absurd rfl hne
  | cons r tl =>
    obtain ⟨hE, hD, hC, _, hT, hA, hDn, hM⟩ := h r (List.mem_cons_self _ _)
    unfold Merge
    rw [mergeLoop_concat _ _ _ _ (by simp [hE]) (by simp [hD]) (by rw [hC]; exact hk),
      Transform_of_no_directives _ _ hT hA hDn hM, hC]
    dsimp only
    rw [appendToArray_fresh, mergeLoop_concat_all _ k hk tl, concatContributions]
    intro x hx
    obtain ⟨h1, h2, h3, _, h5, h6, h7, h8⟩ := h x (List.mem_cons_of_mem _ hx)
    exact ⟨h1, h2, h3, h5, h6, h7, h8⟩

/-- The concat scenario with array flattening, followed by a scalar contribution. -/
theorem Merge_concat_all_witness :
    Merge [⟨concatBackend "items", .arr [.obj [("id", .num 1)], .obj [("id", .num 2)]], none⟩,
        ⟨concatBackend "items", .arr [.obj [("id", .num 3)]], none⟩,
        ⟨concatBackend "items", .str "x", none⟩] =
      (.obj [("items", .arr [.obj [("id", .num 1)], .obj [("id", .num 2)],
        .obj [("id", .num 3)], .str "x"])], true) :=
  Merge_concat_all "items" (by decide) _ (by simp) (by decide)

/-- Claim C9: when a backend sets both `concat` and `group`, `concat` wins: `Merge` returns
the same result as for the list in which `group` is cleared on every backend whose
`concat` is non-empty. -/
theorem Merge_clearGroup (responses : List BackendResponse) :
    Merge (responses.map clearGroupIfConcat) = Merge responses := by
  unfold Merge
  rw [List.length_map, mergeLoop_clearGroup]

/-- Claim C10: for two successful mapping-valued responses without directives that both
hold a sequence under the same key, the merged value under that key is the first
response's sequence followed by the second response's sequence. -/
theorem Merge_arrays_concat (b1 b2 : Backend) (a b : Fields) (k : String) (xs ys : List Value)
    (h1 : b1.noDirectives) (h2 : b2.noDirectives) (ha : NodupKeys a) (hb : NodupKeys b)
    (hka : mapGet k a = some (.arr xs)) (hkb : mapGet k b = some (.arr ys)) :
    ∃ m : Fields, Merge [⟨b1, .obj a, none⟩, ⟨b2, .obj b, none⟩] = (.obj m, true) ∧
      mapGet k m = some (.arr (xs ++ ys)) := by
  refine ⟨_, Merge_two_plain b1 b2 a b h1 h2, ?_⟩
  rw [deepMergeAll_nil a ha, mapGet_deepMergeAll b k hb a, hkb, hka]
  rfl

/-- The deep-merge-arrays scenario on the key `tags`. -/
theorem Merge_arrays_concat_witness :
    ∃ m : Fields,
      Merge [⟨plainBackend, .obj [("tags", .arr [.str "tag1", .str "tag2"])], none⟩,
        ⟨plainBackend, .obj [("tags", .arr [.str "tag3", .str "tag2"])], none⟩] =
          (.obj m, true) ∧
      mapGet "tags" m = some (.arr ([.str "tag1", .str "tag2"] ++ [.str "tag3", .str "tag2"])) :=
  Merge_arrays_concat plainBackend plainBackend _ _ "tags" _ _
    (by decide) (by decide) (by decide) (by decide) rfl rfl

/-- Claim C11: for two successful mapping-valued responses a and b without directives such
that a[k] and b[k] are both mappings, the value under k in the merge of [a, b] is the
mapping obtained by deep-merging b[k] into a[k], which is the value `Merge` returns for
the two-response list [a[k], b[k]]. -/
theorem Merge_nested_mappings (b1 b2 : Backend) (a b : Fields) (k : String) (ak bk : Fields)
    (h1 : b1.noDirectives) (h2 : b2.noDirectives) (ha : NodupKeys a) (hb : NodupKeys b)
    (hak : NodupKeys ak) (hka : mapGet k a = some (.obj ak)) (hkb : mapGet k b = some (.obj bk)) :
    ∃ m : Fields, Merge [⟨b1, .obj a, none⟩, ⟨b2, .obj b, none⟩] = (.obj m, true) ∧
      mapGet k m = some (Merge [⟨b1, .obj ak, none⟩, ⟨b2, .obj bk, none⟩]).1 ∧
      (Merge [⟨b1, .obj ak, none⟩, ⟨b2, .obj bk, none⟩]).1 = .obj (deepMergeAll ak bk) := by
  have hsub : (Merge [⟨b1, .obj ak, none⟩, ⟨b2, .obj bk, none⟩]).1 =
      .obj (deepMergeAll ak bk) := by
    rw [Merge_two_plain b1 b2 ak bk h1 h2, deepMergeAll_nil ak hak]
  refine ⟨_, Merge_two_plain b1 b2 a b h1 h2, ?_, hsub⟩
  rw [hsub, deepMergeAll_nil a ha, mapGet_deepMergeAll b k hb a, hkb, hka]
  rfl

/-- The deep-merge-nested-objects scenario on the key `user`. -/
theorem Merge_nested_mappings_witness :
    ∃ m : Fields,
      Merge [⟨plainBackend, .obj [("user", .obj [("id", .num 1), ("name", .str "John")])], none⟩,
        ⟨plainBackend, .obj [("user", .obj [("age", .num 30)])], none⟩] = (.obj m, true) ∧
      mapGet "user" m =
        some (Merge [⟨plainBackend, .obj [("id", .num 1), ("name", .str "John")], none⟩,
          ⟨plainBackend, .obj [("age", .num 30)], none⟩]).1 ∧
      (Merge [⟨plainBackend, .obj [("id", .num 1), ("name", .str "John")], none⟩,
        ⟨plainBackend, .obj [("age", .num 30)], none⟩]).1 =
          .obj (deepMergeAll [("id", .num 1), ("name", .str "John")] [("age", .num 30)]) :=
  Merge_nested_mappings plainBackend plainBackend _ _ "user" _ _
    (by decide) (by decide) (by decide) (by decide) (by decide) rfl rfl

/-- Claim C12: for two successful mapping-valued responses without directives that share a
key whose two values are not both mappings and not both sequences, the merged value under
that key is the later response's value. -/
theorem Merge_mismatch_overwrites (b1 b2 : Backend) (a b : Fields) (k : String) (va vb : Value)
    (h1 : b1.noDirectives) (h2 : b2.noDirectives) (ha : NodupKeys a) (hb : NodupKeys b)
    (hka : mapGet k a = some va) (hkb : mapGet k b = some vb)
    (hobj : ¬ (va.isObj = true ∧ vb.isObj = true))
    (harr : ¬ (va.isArr = true ∧ vb.isArr = true)) :
    ∃ m : Fields, Merge [⟨b1, .obj a, none⟩, ⟨b2, .obj b, none⟩] = (.obj m, true) ∧
      mapGet k m = some vb := by
  refine ⟨_, Merge_two_plain b1 b2 a b h1 h2, ?_⟩
  rw [deepMergeAll_nil a ha, mapGet_deepMergeAll b k hb a, hkb, hka]
  cases va <;> cases vb <;> simp_all [mergedValue, Value.isObj, Value.isArr]

/-- The replace-on-conflict scenario: a sequence is overwritten by a string. -/
theorem Merge_mismatch_overwrites_witness :
    ∃ m : Fields,
      Merge [⟨plainBackend, .obj [("value", .arr [.str "a", .str "b"])], none⟩,
        ⟨plainBackend, .obj [("value", .str "string_value")], none⟩] = (.obj m, true) ∧
      mapGet "value" m = some (.str "string_value") :=
  Merge_mismatch_overwrites plainBackend plainBackend _ _ "value" _ _
    (by decide) (by decide) (by decide) (by decide) rfl rfl (by decide) (by decide)

/-- Claim C13: `ApplyTarget` returns its input unchanged whenever the path cannot be
followed: for every input that is not a mapping, and for every mapping input in which some
segment of the target path is absent from the mapping reached so far. -/
theorem ApplyTarget_unchanged (data : Value) (target : String)
    (h : data.isObj = false ∨
      ∃ (dataMap cur : Fields) (pre post : List String) (seg : String),
        data = .obj dataMap ∧ splitDots target = pre ++ seg :: post ∧
          walkMaps dataMap pre = some cur ∧ mapGet seg cur = none) :
    ApplyTarget data target = data := by
  rcases h with h | ⟨dataMap, cur, pre, post, seg, hd, hsplit, hw, hs⟩
  · cases data <;> simp_all [ApplyTarget, Value.isObj]
  · subst hd
    rw [ApplyTarget, hsplit]
    exact targetWalk_absent _ seg post pre dataMap cur hw hs

/-- A path whose second segment is absent from the sub-mapping reached: the original
input comes back, not the sub-mapping. -/
theorem ApplyTarget_unchanged_witness :
    ApplyTarget (.obj [("a", .obj [("b", .num 1)])]) "a.x.y" =
      .obj [("a", .obj [("b", .num 1)])] :=
  ApplyTarget_unchanged (.obj [("a", .obj [("b", .num 1)])]) "a.x.y"
    (Or.inr ⟨[("a", .obj [("b", .num 1)])], [("b", .num 1)], ["a"], ["y"], "x",
      rfl, rfl, rfl, rfl⟩)

/-- Claim C14: for a mapping input, when the segments visited all exist, `ApplyTarget`
returns the value at the shortest prefix of the path that resolves to a non-mapping (early
exit); when every segment resolves to a mapping it returns the sub-mapping at the full
path; and whenever `GetNestedField` finds a value at the target, `ApplyTarget` returns
that value. -/
theorem ApplyTarget_resolves (dataMap : Fields) (target : String) :
    (∀ (pre post : List String) (seg : String) (cur : Fields) (v : Value),
        splitDots target = pre ++ seg :: post → walkMaps dataMap pre = some cur →
        mapGet seg cur = some v → v.isObj = false →
          ApplyTarget (.obj dataMap) target = v ∧ getNested dataMap (pre ++ [seg]) = v) ∧
    (∀ cur : Fields, walkMaps dataMap (splitDots target) = some cur →
        ApplyTarget (.obj dataMap) target = .obj cur) ∧
    ((GetNestedField dataMap target).isNull = false →
        ApplyTarget (.obj dataMap) target = GetNestedField dataMap target) := by
  refine ⟨?_, ?_, ?_⟩
  · intro pre post seg cur v hsplit hw hs hv
    refine ⟨?_, getNested_of_walkMaps seg v pre dataMap cur hw hs⟩
    rw [ApplyTarget, hsplit]
    exact targetWalk_early_exit _ seg post v hv pre dataMap cur hw hs
  · intro cur hw
    rw [ApplyTarget]
    exact targetWalk_full _ _ dataMap cur hw
  · intro h
    rw [ApplyTarget]
    exact targetWalk_eq_getNested _ _ dataMap h

/-- The nested-target scenario, and an early exit at a scalar before the path ends. -/
theorem ApplyTarget_resolves_witness :
    ApplyTarget (.obj [("response", .obj [("data", .obj [("id", .num 1)])])]) "response.data" =
        .obj [("id", .num 1)] ∧
      ApplyTarget (.obj [("response", .obj [("data", .num 7)])]) "response.data.user" =
        .num 7 ∧
      ApplyTarget (.obj [("response", .obj [("data", .obj [("id", .num 1)])])])
          "response.data.id" =
        GetNestedField [("response", .obj [("data", .obj [("id", .num 1)])])]
          "response.data.id" :=
  ⟨(ApplyTarget_resolves [("response", .obj [("data", .obj [("id", .num 1)])])]
      "response.data").2.1 [("id", .num 1)] rfl,
    ((ApplyTarget_resolves [("response", .obj [("data", .num 7)])] "response.data.user").1
      ["response"] ["user"] "data" [("data", .num 7)] (.num 7) rfl rfl rfl rfl).1,
    (ApplyTarget_resolves [("response", .obj [("data", .obj [("id", .num 1)])])]
      "response.data.id").2.2 rfl⟩

/-- Claim C15: when allow is non-empty, deny is ignored: the filter gives the same result
with the deny list and with the empty deny list. -/
theorem ApplyFiltering_deny_ignored (data : Value) (allow deny : List String)
    (h : allow ≠ []) :
    ApplyFiltering data allow deny = ApplyFiltering data allow [] :=
  ApplyFiltering_deny_ignored_aux allow deny h data

/-- The allow-takes-precedence scenario: the denied key `name` is kept because it is allowed. -/
theorem ApplyFiltering_deny_ignored_witness :
    ApplyFiltering (.obj [("id", .num 1), ("name", .str "John"), ("password", .str "secret")])
        ["id", "name"] ["name"] =
      ApplyFiltering (.obj [("id", .num 1), ("name", .str "John"), ("password", .str "secret")])
        ["id", "name"] [] :=
  ApplyFiltering_deny_ignored _ ["id", "name"] ["name"] (by decide)

/-- Claim C16: for a mapping input and a non-empty allow list of dot-free key names,
`ApplyFiltering` returns exactly the restriction of the input to the keys that are in allow
and whose value in the input is non-null: those keys keep their values and no other key
appears. -/
theorem ApplyFiltering_allow_restricts (m : Fields) (allow deny : List String)
    (hne : allow ≠ []) (hdf : ∀ f ∈ allow, dotFree f) :
    ∃ r : Fields, ApplyFiltering (.obj m) allow deny = .obj r ∧ NodupKeys r ∧
      ∀ (k : String) (v : Value),
        mapGet k r = some v ↔ (k ∈ allow ∧ mapGet k m = some v ∧ v.isNull = false) := by
  refine ⟨filterFields m allow deny, by rw [ApplyFiltering],
    nodupKeys_filterFields m allow deny, ?_⟩
  intro k v
  have hlen : allow.length > 0 := List.length_pos.mpr hne
  unfold filterFields
  rw [if_pos hlen, mapGet_allow_fold m k allow hdf [], ← allowedValue_eq_some]
  cases allowedValue m allow k <;> simp [mapGet]

/-- The allow-list scenario. -/
theorem ApplyFiltering_allow_restricts_witness :
    ∃ r : Fields,
      ApplyFiltering
          (.obj [("id", .num 1), ("name", .str "John"), ("email", .str "john@example.com"),
            ("age", .num 30), ("secret", .str "hidden")])
          ["id", "name"] [] = .obj r ∧
        NodupKeys r ∧
        ∀ (k : String) (v : Value),
          mapGet k r = some v ↔
            (k ∈ ["id", "name"] ∧
              mapGet k [("id", .num 1), ("name", .str "John"),
                ("email", .str "john@example.com"), ("age", .num 30),
                ("secret", .str "hidden")] = some v ∧
              v.isNull = false) :=
  ApplyFiltering_allow_restricts _ ["id", "name"] [] (by decide) (by decide)

/-- Claim C17: for a mapping input and a deny list with allow empty, in the result of
`ApplyFiltering` every denied dot-path resolves to nothing, and every top-level key of the
input that is not the first segment of a denied path is present with its value unchanged;
with both lists empty the result equals the input. -/
theorem ApplyFiltering_deny_removes (m : Fields) (deny : List String) (hm : NodupKeys m) :
    ∃ r : Fields, ApplyFiltering (.obj m) [] deny = .obj r ∧
      (∀ p ∈ deny, GetNestedField r p = .null) ∧
      (∀ (k : String) (v : Value), mapGet k m = some v →
        (∀ p ∈ deny, (splitDots p).head? ≠ some k) → mapGet k r = some v) ∧
      (deny = [] → r = m) := by
  refine ⟨filterFields m [] deny, by rw [ApplyFiltering], ?_, ?_, ?_⟩
  · intro p hp
    rw [← Value.isNull_eq_true]
    simp only [filterFields, List.length_nil, gt_iff_lt, lt_self_iff_false, if_false]
    exact deny_fold_removed deny _ p hp
  · intro k v hk hfirst
    simp only [filterFields, List.length_nil, gt_iff_lt, lt_self_iff_false, if_false]
    rw [deny_fold_untouched k deny hfirst, copyFields_eq m hm, hk]
  · intro hd
    rw [hd, filterFields_nil m hm]

/-- The deny-list scenario, with a nested denied path: `profile.secret` is removed inside
`profile`, the key `age` is removed, and `id` is untouched. -/
theorem ApplyFiltering_deny_removes_witness :
    ∃ r : Fields,
      ApplyFiltering
          (.obj [("id", .num 1), ("age", .num 30),
            ("profile", .obj [("secret", .str "hidden"), ("city", .str "Paris")])])
          [] ["profile.secret", "age"] = .obj r ∧
        (∀ p ∈ ["profile.secret", "age"], GetNestedField r p = .null) ∧
        (∀ (k : String) (v : Value),
          mapGet k [("id", .num 1), ("age", .num 30),
            ("profile", .obj [("secret", .str "hidden"), ("city", .str "Paris")])] = some v →
          (∀ p ∈ ["profile.secret", "age"], (splitDots p).head? ≠ some k) →
            mapGet k r = some v) ∧
        (["profile.secret", "age"] = [] → r = [("id", .num 1), ("age", .num 30),
            ("profile", .obj [("secret", .str "hidden"), ("city", .str "Paris")])]) :=
  ApplyFiltering_deny_removes _ ["profile.secret", "age"] (by decide)

/-- Claim C18: filtering and mapping preserve array shape: on a sequence both recurse
elementwise, in order (so the result has the same length and its i-th element is the
transformed i-th element); a value that is neither a mapping nor a sequence is returned
unchanged. -/
theorem arrays_and_scalars_preserved (allow deny : List String)
    (mapping : List (String × String)) :
    (∀ s : List Value,
        ApplyFiltering (.arr s) allow deny = .arr (s.map (fun x => ApplyFiltering x allow deny)) ∧
        ApplyMapping (.arr s) mapping = .arr (s.map (fun x => ApplyMapping x mapping)) ∧
        (s.map (fun x => ApplyFiltering x allow deny)).length = s.length ∧
        (s.map (fun x => ApplyMapping x mapping)).length = s.length) ∧
    (∀ v : Value, v.isObj = false → v.isArr = false →
        ApplyFiltering v allow deny = v ∧ ApplyMapping v mapping = v) := by
  refine ⟨?_, ?_⟩
  · intro s
    refine ⟨?_, ?_, List.length_map _ _, List.length_map _ _⟩
    · rw [ApplyFiltering, ApplyFilteringItems_eq_map]
    · rw [ApplyMapping, ApplyMappingItems_eq_map]
  · intro v ho ha
    cases v <;> simp_all [ApplyFiltering, ApplyMapping, Value.isObj, Value.isArr]

/-- Claim C19: for a mapping input m and a mapping directive whose old and new names are
dot-free and whose new names are pairwise distinct, `ApplyMapping` returns every key of m
that is not an old name, with its value, overlaid with new ↦ m[old] for each directive
entry whose m[old] is present and non-null; where a copied key and a new name collide the
mapped value wins. -/
theorem ApplyMapping_renames (m : Fields) (mapping : List (String × String))
    (hm : NodupKeys m) (hdf : ∀ e ∈ mapping, dotFree e.1 ∧ dotFree e.2)
    (hnd : (mapping.map Prod.snd).Nodup) :
    ∃ r : Fields, ApplyMapping (.obj m) mapping = .obj r ∧ NodupKeys r ∧
      (∀ (old new : String) (v : Value), (old, new) ∈ mapping → mapGet old m = some v →
        v.isNull = false → mapGet new r = some v) ∧
      (∀ k : String,
        (∀ old : String, (old, k) ∈ mapping → ∀ v : Value, mapGet old m = some v →
          v.isNull = true) →
        mapGet k r = if k ∈ mapping.map Prod.fst then none else mapGet k m) := by
  have hbase : ∀ k : String,
      mapGet k (m.foldl
        (fun result kv =>
          if kv.1 ∈ mapping.map Prod.fst then result else mapSet kv.1 kv.2 result) []) =
      if k ∈ mapping.map Prod.fst then none else mapGet k m := by
    intro k
    rw [mapGet_copy_unmapped (mapping.map Prod.fst) k m [] (by simpa [keysOf] using hm)]
    rfl
  refine ⟨mappingFields m mapping, by rw [ApplyMapping],
    nodupKeys_mappingFields m mapping, ?_, ?_⟩
  · intro old new v hmem hv hnn
    unfold mappingFields
    dsimp only
    rw [mapGet_mapping_fold m new mapping hdf hnd, find_new_name mapping hnd (old, new) hmem]
    simp only [hv, hnn, if_false, Bool.false_eq_true]
  · intro k hk
    unfold mappingFields
    dsimp only
    rw [mapGet_mapping_fold m k mapping hdf hnd, hbase]
    cases hf : mapping.find? (fun e => decide (e.2 = k)) with
    | none => rfl
    | some e =>
      have hmem : e ∈ mapping := List.mem_of_find?_eq_some hf
      have hek : e.2 = k := by simpa using List.find?_some hf
      simp only
      cases hg : mapGet e.1 m with
      | none => rfl
      | some v =>
        have : v.isNull = true := hk e.1 (by rw [← hek]; exact hmem) v hg
        simp [this]

/-- The renaming scenario: `fullName` becomes `name`, `email` becomes `emailAddress`, and
`id` is copied. -/
theorem ApplyMapping_renames_witness :
    ∃ r : Fields,
      ApplyMapping
          (.obj [("id", .num 1), ("fullName", .str "John Doe"),
            ("email", .str "john@example.com")])
          [("fullName", "name"), ("email", "emailAddress")] = .obj r ∧
        NodupKeys r ∧
        (∀ (old new : String) (v : Value),
          (old, new) ∈ [("fullName", "name"), ("email", "emailAddress")] →
          mapGet old [("id", .num 1), ("fullName", .str "John Doe"),
            ("email", .str "john@example.com")] = some v →
          v.isNull = false → mapGet new r = some v) ∧
        (∀ k : String,
          (∀ old : String, (old, k) ∈ [("fullName", "name"), ("email", "emailAddress")] →
            ∀ v : Value,
              mapGet old [("id", .num 1), ("fullName", .str "John Doe"),
                ("email", .str "john@example.com")] = some v →
              v.isNull = true) →
          mapGet k r =
            if k ∈ [("fullName", "name"), ("email", "emailAddress")].map Prod.fst then none
            else mapGet k [("id", .num 1), ("fullName", .str "John Doe"),
              ("email", .str "john@example.com")]) :=
  ApplyMapping_renames _ [("fullName", "name"), ("email", "emailAddress")]
    (by decide) (by decide) (by decide)

/-- Claim C20: for every inbound header set and every remove_headers list, `processHeaders`
returns exactly the map name ↦ first value over the inbound headers that have at least one
value and whose lower-cased name is neither in the fixed set host, content-length,
transfer-encoding, connection, upgrade, accept-encoding nor equal to the lower-cased form of
a remove_headers entry. -/
theorem processHeaders_forwards (toLower : String → String)
    (header : List (String × List String)) (removeHeaders : List String)
    (hnd : (header.map Prod.fst).Nodup) (name value : String) :
    headerGet name (processHeaders toLower header removeHeaders) = some value ↔
      ∃ values : List String, (name, value :: values) ∈ header ∧
        toLower name ∉ ["host", "content-length", "transfer-encoding", "connection",
          "upgrade", "accept-encoding"] ∧
        ∀ h ∈ removeHeaders, toLower h ≠ toLower name := by
  rw [processHeaders_eq_fold]
  exact headerGet_fold_nil_iff toLower removeHeaders header hnd name value

/-- A request whose `Authorization` header is removed case-insensitively, whose
`Accept-Encoding` header is never forwarded, and whose two-valued `X-Custom` header is
forwarded with its first value. -/
theorem processHeaders_forwards_witness :
    processHeaders lowerAscii
        [("Authorization", ["Bearer t"]), ("Accept-Encoding", ["gzip"]),
          ("X-Custom", ["a", "b"]), ("X-Empty", [])] ["AUTHORIZATION"] = [("X-Custom", "a")] ∧
      headerGet "X-Custom"
        (processHeaders lowerAscii
          [("Authorization", ["Bearer t"]), ("Accept-Encoding", ["gzip"]),
            ("X-Custom", ["a", "b"]), ("X-Empty", [])] ["AUTHORIZATION"]) = some "a" :=
  ⟨by decide,
    (processHeaders_forwards lowerAscii
      [("Authorization", ["Bearer t"]), ("Accept-Encoding", ["gzip"]),
        ("X-Custom", ["a", "b"]), ("X-Empty", [])] ["AUTHORIZATION"] (by decide)
      "X-Custom" "a").mpr ⟨["b"], by decide, by decide, by decide⟩⟩

/-- Claim C21, as stated, fails for the header `Accept`: the client sets `Accept` from
the backend's encoding after copying the forwarded headers.  An inbound
`Accept: text/html`, which is neither hop-by-hop nor removed, reaches a json backend as
`Accept: application/json`. -/
theorem outboundHeader_accept_counterexample :
    lowerAscii "Accept" ∉
        ["host", "content-length", "transfer-encoding", "connection", "upgrade",
          "accept-encoding"] ∧
      headerGet "Accept" (processHeaders lowerAscii [("Accept", ["text/html"])] []) =
        some "text/html" ∧
      headerGet "Accept"
          (outboundHeader lowerAscii canonicalAscii [("Accept", ["text/html"])] plainBackend
            false) = some "application/json" ∧
      headerGet "Accept"
          (outboundHeader lowerAscii canonicalAscii [("Accept", ["text/html"])] plainBackend
            false) ≠ some "text/html" := by
  decide

/-- Claim C21 (amended): for every inbound header H that is not in the hop-by-hop set, not
in the backend's remove_headers, and is not `Accept` for a json, xml or yaml backend (the
client sets `Accept` from the encoding), the outbound request for that backend carries H,
under its canonical name, with the first inbound value of H; the one further exception is
a `Content-Type` whose first value is empty while a body is forwarded, which the client
sets from the encoding. -/
theorem outboundHeader_carries (toLower canonical : String → String)
    (header : List (String × List String)) (backend : Backend) (hasBody : Bool)
    (name value : String) (values : List String)
    (hnd : (header.map Prod.fst).Nodup)
    (hmem : (name, value :: values) ∈ header)
    (hhop : toLower name ∉
      ["host", "content-length", "transfer-encoding", "connection", "upgrade",
        "accept-encoding"])
    (hrem : ∀ h ∈ backend.RemoveHeaders, toLower h ≠ toLower name)
    (hcanon : ∀ n ∈ header.map Prod.fst, canonical n = canonical name → n = name)
    (hacc : canonical name ≠ canonical "Accept" ∨
      backend.Encoding ∉ ["json", "xml", "yaml"])
    (hct : canonical name ≠ canonical "Content-Type" ∨ hasBody = false ∨ value ≠ "" ∨
      backend.Encoding ∉ ["json", "xml", "yaml"]) :
    headerGet (canonical name) (outboundHeader toLower canonical header backend hasBody) =
      some value := by
  have hP : headerGet name (processHeaders toLower header backend.RemoveHeaders) =
      some value := by
    rw [processHeaders_eq_fold]
    exact (headerGet_fold_nil_iff toLower backend.RemoveHeaders header hnd name value).mpr
      ⟨values, hmem, hhop, hrem⟩
  unfold outboundHeader
  exact headerGet_createHTTPRequest canonical _ backend.Encoding hasBody name value
    (nodup_names_processHeaders toLower header backend.RemoveHeaders)
    (headerGet_some_mem _ _ _ hP)
    (fun n hn hc => hcanon n (names_processHeaders_subset toLower header _ n hn) hc)
    hacc hct

/-- A POST with a body to a json backend: `X-Custom` arrives with its first value and
`Content-Type` keeps the inbound value. -/
theorem outboundHeader_carries_witness :
    headerGet "X-Custom"
        (outboundHeader lowerAscii canonicalAscii
          [("Accept", ["text/html"]), ("X-Custom", ["a", "b"]),
            ("Content-Type", ["text/plain"])] plainBackend true) = some "a" ∧
      outboundHeader lowerAscii canonicalAscii
          [("Accept", ["text/html"]), ("X-Custom", ["a", "b"]),
            ("Content-Type", ["text/plain"])] plainBackend true =
        [("Accept", "application/json"), ("X-Custom", "a"), ("Content-Type", "text/plain")] :=
  ⟨outboundHeader_carries lowerAscii canonicalAscii
      [("Accept", ["text/html"]), ("X-Custom", ["a", "b"]), ("Content-Type", ["text/plain"])]
      plainBackend true "X-Custom" "a" ["b"] (by decide) (by decide) (by decide) (by decide)
      (by decide) (by decide) (by decide),
    by decide⟩

/-- Claim C22: `buildURL` joins the backend host and the substituted URL pattern with
exactly one `/` between them: the result is the host with one trailing `/` removed if
present, followed by `/`, followed by the pattern with one leading `/` removed if
present. -/
theorem buildURL_joins (backend : Backend) (pathParams : List (String × String)) :
    buildURL backend pathParams =
        trimOneSuffixSlash backend.Host ++ "/" ++
          trimOnePrefixSlash (substituteParams backend.URLPattern pathParams) ∧
      buildURL backend [] =
        trimOneSuffixSlash backend.Host ++ "/" ++ trimOnePrefixSlash backend.URLPattern :=
  ⟨joinURL_eq _ _, joinURL_eq _ _⟩

/-- Claim C23 fails on the code: the placeholders are replaced one parameter after the
other, so a parameter value that spells the placeholder of another parameter is replaced
again when that parameter comes later in the iteration, and left verbatim when it comes
earlier.  With `id` bound to the text `{name}` and `name` bound to `x`, the pattern
`/api/{id}` becomes `/api/x` in one iteration order and `/api/{name}` in the other. -/
theorem buildURL_resubstitutes :
    buildURL ⟨"/api/\x7bid\x7d", "json", "http://b", [], "", "", [], [], [], ""⟩
        [("id", "\x7bname\x7d"), ("name", "x")] = "http://b/api/x" ∧
      buildURL ⟨"/api/\x7bid\x7d", "json", "http://b", [], "", "", [], [], [], ""⟩
        [("name", "x"), ("id", "\x7bname\x7d")] = "http://b/api/\x7bname\x7d" ∧
      buildURL ⟨"/api/\x7bid\x7d/profile", "json", "http://b", [], "", "", [], [], [], ""⟩
        [("id", "42")] = "http://b/api/42/profile" := by
  decide

/-- Claim C24: `setDefaults` fills each unset field and leaves each set field unchanged:
root timeout 10s, port `8080`, log level `info`, log format `json`, shutdown timeout 15s,
service name `api-aggregator`; each endpoint's method GET, encoding json and timeout equal
to the defaulted root timeout; each backend's encoding equal to its endpoint's defaulted
encoding and its url_pattern equal to its endpoint's path.  Every other field is kept. -/
theorem setDefaults_fills (c : Config) :
    setDefaults c =
      ⟨if c.Timeout = 0 then 10000000000 else c.Timeout,
        if c.Port = "" then "8080" else c.Port,
        if c.LogLevel = "" then "info" else c.LogLevel,
        if c.LogFormat = "" then "json" else c.LogFormat,
        if c.ShutdownTimeout = 0 then 15000000000 else c.ShutdownTimeout,
        c.TracingEnabled, c.TracingEndpoint, c.MetricsEnabled,
        if c.ServiceName = "" then "api-aggregator" else c.ServiceName,
        c.Endpoints.map (fun e =>
          ⟨e.Endpoint,
            if e.Method = "" then "GET" else e.Method,
            if e.Timeout = 0 then (if c.Timeout = 0 then 10000000000 else c.Timeout)
            else e.Timeout,
            if e.Encoding = "" then "json" else e.Encoding,
            e.Backends.map (fun b =>
              ⟨if b.URLPattern = "" then e.Endpoint else b.URLPattern,
                if b.Encoding = "" then (if e.Encoding = "" then "json" else e.Encoding)
                else b.Encoding,
                b.Host, b.RemoveHeaders, b.Group, b.Target, b.Allow, b.Deny, b.Mapping,
                b.Concat⟩)⟩)⟩ := by
  unfold setDefaults setEndpointDefaults
  rw [setServiceDefaults_eq, setTimeoutDefaults_eq]
  simp only [endpointDefaults_eq]

/-- Claim C25: `validate` returns an error if and only if the endpoint list is empty, or
some endpoint has an empty path, no backends, or an encoding outside json, xml, yaml, or
some backend has an empty host or an encoding outside json, xml, yaml; a configuration that
passes satisfies the Endpoint and Backend invariants. -/
theorem validate_error_iff (c : Config) :
    ((validate c).isSome = true ↔
      (c.Endpoints = [] ∨
        ∃ e ∈ c.Endpoints, e.Endpoint = "" ∨ e.Backends = [] ∨
          e.Encoding ∉ ["json", "xml", "yaml"] ∨
          ∃ b ∈ e.Backends, b.Host = "" ∨ b.Encoding ∉ ["json", "xml", "yaml"])) ∧
    (validate c = none →
      c.Endpoints ≠ [] ∧
        ∀ e ∈ c.Endpoints, e.Endpoint ≠ "" ∧ e.Backends ≠ [] ∧
          e.Encoding ∈ ["json", "xml", "yaml"] ∧
          ∀ b ∈ e.Backends, b.Host ≠ "" ∧ b.Encoding ∈ ["json", "xml", "yaml"]) := by
  refine ⟨?_, (validate_none_iff c).mp⟩
  have hsome : (validate c).isSome = true ↔ ¬ validate c = none := by
    cases validate c <;> simp
  rw [hsome, validate_none_iff]
  constructor
  · intro h
    by_contra hcon
    push_neg at hcon
    apply h
    refine ⟨hcon.1, ?_⟩
    intro e he
    have := hcon.2 e he
    exact ⟨this.1, this.2.1, this.2.2.1, fun b hb => this.2.2.2 b hb⟩
  · rintro (h | ⟨e, he, h⟩) hok
    · exact hok.1 h
    · have hE := hok.2 e he
      rcases h with h | h | h | ⟨b, hb, h⟩
      · exact hE.1 h
      · exact hE.2.1 h
      · exact h hE.2.2.1
      · have hB := hE.2.2.2 b hb
        rcases h with h | h
        · exact hB.1 h
        · exact h hB.2

/-- Claim C26: for a request whose Accept-Encoding includes gzip and a handler that sets
headers and the status and then writes the body in any number of writes, the response is
gzip-encoded (all body bytes go to the gzip stream, Content-Encoding is gzip, Vary is
Accept-Encoding, Content-Length is removed) if and only if the total number of body bytes
written reaches 1024; otherwise the buffered body is emitted uncompressed with the
handler's headers.  When Accept-Encoding does not include gzip the response is never
compressed. -/
theorem compression_threshold (acceptEncoding : String) (pre : List HandlerAction)
    (writes : List (List Nat)) (w : ResponseWriter)
    (r : ResponseWriter × Option gzipResponseWriter)
    (hpre : ∀ a ∈ pre, a.isWrite = false)
    (hr : r = compressionMiddleware acceptEncoding (pre ++ writes.map HandlerAction.write) w) :
    (containsChars "gzip".data acceptEncoding.data = true →
      ((∃ g : gzipResponseWriter, r.2 = some g ∧ g.writer.isSome = true) ↔
        writes.flatten.length ≥ 1024) ∧
      (writes.flatten.length ≥ 1024 →
        ∃ g : gzipResponseWriter, r.2 = some g ∧ g.writer = some writes.flatten ∧
          g.writerClosed = true ∧
          headerGet "Content-Encoding" r.1.header = some "gzip" ∧
          headerGet "Vary" r.1.header = some "Accept-Encoding" ∧
          headerGet "Content-Length" r.1.header = none ∧
          r.1.body = w.body) ∧
      (writes.flatten.length < 1024 →
        ∃ g : gzipResponseWriter, r.2 = some g ∧ g.writer = none ∧
          r.1.header = headersAfter pre w.header ∧
          r.1.body = w.body ++ writes.flatten)) ∧
    (containsChars "gzip".data acceptEncoding.data = false →
      r.2 = none ∧ r.1.header = headersAfter pre w.header ∧
        r.1.body = w.body ++ writes.flatten) := by
  subst hr
  refine ⟨?_, fun hacc => compressionMiddleware_plain acceptEncoding pre writes w hpre hacc⟩
  intro hacc
  rw [compressionMiddleware_gzip acceptEncoding pre writes w hpre hacc]
  by_cases hge : writes.flatten.length ≥ 1024
  · rw [if_pos hge]
    obtain ⟨h1, h2, h3, h4⟩ :=
      startCompression_header ⟨headersAfter pre w.header, w.statusCodes, w.body⟩
        (statusAfter pre 0)
    refine ⟨⟨fun _ => hge, fun _ => ⟨_, rfl, rfl⟩⟩, ?_, fun hlt => absurd hge (by omega)⟩
    intro _
    exact ⟨_, rfl, rfl, rfl, h1, h2, h3, h4⟩
  · rw [if_neg hge]
    obtain ⟨h1, h2, h3⟩ :=
      close_inactive ⟨headersAfter pre w.header, w.statusCodes, w.body⟩ writes.flatten
        (statusAfter pre 0)
    refine ⟨⟨?_, fun h => absurd h hge⟩, fun h => absurd h hge, ?_⟩
    · rintro ⟨g, hg, hw⟩
      simp only [Option.some.injEq] at hg
      subst hg
      rw [h1] at hw
      cases hw
    · intro _
      exact ⟨_, rfl, h1, h2, h3⟩

/-- Two runs with gzip accepted.  A body of 3 bytes in two writes stays below the
threshold and is emitted as it is.  A body of exactly 1024 bytes in two writes goes to the
gzip stream, and the Content-Length the handler had set is removed. -/
theorem compression_threshold_witness :
    (∃ g : gzipResponseWriter,
      (compressionMiddleware "gzip, deflate"
        ([.setHeader "Content-Type" "application/json", .writeHeader 200] ++
          [[1, 2], [3]].map HandlerAction.write) ⟨[], [], []⟩).2 = some g ∧
      g.writer = none ∧
      (compressionMiddleware "gzip, deflate"
        ([.setHeader "Content-Type" "application/json", .writeHeader 200] ++
          [[1, 2], [3]].map HandlerAction.write) ⟨[], [], []⟩).1.header =
        headersAfter [.setHeader "Content-Type" "application/json", .writeHeader 200] [] ∧
      (compressionMiddleware "gzip, deflate"
        ([.setHeader "Content-Type" "application/json", .writeHeader 200] ++
          [[1, 2], [3]].map HandlerAction.write) ⟨[], [], []⟩).1.body =
        [] ++ [[1, 2], [3]].flatten) ∧
    (∃ g : gzipResponseWriter,
      (compressionMiddleware "gzip"
        ([.writeHeader 200] ++
          [List.replicate 1000 120, List.replicate 24 120].map HandlerAction.write)
        ⟨[("Content-Length", "1024")], [], []⟩).2 = some g ∧
      g.writer = some [List.replicate 1000 120, List.replicate 24 120].flatten ∧
      g.writerClosed = true ∧
      headerGet "Content-Encoding" (compressionMiddleware "gzip"
        ([.writeHeader 200] ++
          [List.replicate 1000 120, List.replicate 24 120].map HandlerAction.write)
        ⟨[("Content-Length", "1024")], [], []⟩).1.header = some "gzip" ∧
      headerGet "Vary" (compressionMiddleware "gzip"
        ([.writeHeader 200] ++
          [List.replicate 1000 120, List.replicate 24 120].map HandlerAction.write)
        ⟨[("Content-Length", "1024")], [], []⟩).1.header = some "Accept-Encoding" ∧
      headerGet "Content-Length" (compressionMiddleware "gzip"
        ([.writeHeader 200] ++
          [List.replicate 1000 120, List.replicate 24 120].map HandlerAction.write)
        ⟨[("Content-Length", "1024")], [], []⟩).1.header = none ∧
      (compressionMiddleware "gzip"
        ([.writeHeader 200] ++
          [List.replicate 1000 120, List.replicate 24 120].map HandlerAction.write)
        ⟨[("Content-Length", "1024")], [], []⟩).1.body = []) :=
  ⟨((compression_threshold "gzip, deflate"
      [.setHeader "Content-Type" "application/json", .writeHeader 200] [[1, 2], [3]]
      ⟨[], [], []⟩ _ (by decide) rfl).1 (by decide)).2.2 (by decide),
    ((compression_threshold "gzip" [.writeHeader 200]
      [List.replicate 1000 120, List.replicate 24 120] ⟨[("Content-Length", "1024")], [], []⟩
      _ (by decide) rfl).1 (by decide)).2.1 (by
        simp only [List.flatten_cons, List.flatten_nil, List.append_nil, List.length_append,
          List.length_replicate]
        decide)⟩

/-- Claim C27: reload is atomic on failure: if reading, parsing or validating the new
configuration fails, `reload` returns that error and the server and configuration
references are what they were before the call; if loading succeeds, both references are
replaced by the new server and the new configuration. -/
theorem reload_atomic {S : Type} (newServer : Config → S) (rs : ReloadableServer S)
    (file : ConfigFile) :
    (∀ err : LoadError, LoadConfig file = .error err →
        reload newServer rs file = (rs, some err)) ∧
    (∀ cfg : Config, LoadConfig file = .ok cfg →
        reload newServer rs file = (⟨newServer cfg, cfg⟩, none)) ∧
    (∀ cause : String, file = .unreadable cause →
        reload newServer rs file = (rs, some (.readFailed cause))) ∧
    (∀ cause : String, file = .unparsable cause →
        reload newServer rs file = (rs, some (.parseFailed cause))) ∧
    (∀ (cfg : Config) (err : ConfigError), file = .parsed cfg →
        validate (setDefaults cfg) = some err →
        reload newServer rs file = (rs, some (.invalid err))) ∧
    (∀ cfg : Config, file = .parsed cfg → validate (setDefaults cfg) = none →
        reload newServer rs file =
          (⟨newServer (setDefaults cfg), setDefaults cfg⟩, none)) := by
  refine ⟨?_, ?_, ?_, ?_, ?_, ?_⟩
  · intro err h
    simp [reload, h]
  · intro cfg h
    simp [reload, h]
  · intro cause h
    subst h
    rfl
  · intro cause h
    subst h
    rfl
  · intro cfg err h hv
    subst h
    simp [reload, LoadConfig, hv]
  · intro cfg h hv
    subst h
    simp [reload, LoadConfig, hv]

/-- Claim C28: the client's result for a reply is decided in this order: a status of 400 or
more is a failure whatever the body contains; otherwise an empty body is the nothing value
with no failure, for every encoding; otherwise the body is decoded by encoding, and an
unsupported encoding or a decode error is a failure. -/
theorem handleResponse_order (dec : Decoders) (statusCode : Int) (body : List Nat)
    (encoding : String) :
    (statusCode ≥ 400 →
        ∃ err : ClientError, handleResponse dec statusCode body encoding = (.null, some err)) ∧
    (statusCode < 400 → body = [] →
        handleResponse dec statusCode body encoding = (.null, none)) ∧
    (statusCode < 400 → body ≠ [] →
        handleResponse dec statusCode body encoding =
          if encoding = "json" then
            match dec.json body with
            | .error cause => (.null, some (.parseFailed encoding cause))
            | .ok data => (data, none)
          else if encoding = "xml" then
            match dec.xml body with
            | .error cause => (.null, some (.parseFailed encoding cause))
            | .ok data => (data, none)
          else if encoding = "yaml" then
            match dec.yaml body with
            | .error cause => (.null, some (.parseFailed encoding cause))
            | .ok data => (data, none)
          else (.null, some (.unsupportedEncoding encoding))) := by
  refine ⟨?_, ?_, ?_⟩
  · intro h
    unfold handleResponse checkStatusCode statusCodeBadRequest
    rw [if_pos h]
    by_cases hb : body.length = 0
    · exact ⟨.statusEmptyBody statusCode, by simp [hb]⟩
    · exact ⟨.status statusCode body, by simp [hb]⟩
  · intro h hb
    have hn : ¬ statusCode ≥ 400 := by omega
    subst hb
    simp [handleResponse, checkStatusCode, statusCodeBadRequest, hn, parseResponse]
  · intro h hb
    have hn : ¬ statusCode ≥ 400 := by omega
    have hl : ¬ body.length = 0 := fun e => hb (List.eq_nil_of_length_eq_zero e)
    simp only [handleResponse, checkStatusCode, statusCodeBadRequest, hn, if_false,
      parseResponse, hl]

/-- Claim C29: `shouldForwardBody` returns true if and only if the method is exactly POST,
PUT or PATCH; for every other method no request body is buffered and no body is handed to
a backend. -/
theorem shouldForwardBody_iff (method : String) :
    (shouldForwardBody method = true ↔ (method = "POST" ∨ method = "PUT" ∨ method = "PATCH")) ∧
      (¬ (method = "POST" ∨ method = "PUT" ∨ method = "PATCH") →
        ∀ body : Option (List Nat),
          readRequestBody method body = [] ∧ backendBody method body = none) := by
  have hiff : shouldForwardBody method = true ↔
      (method = "POST" ∨ method = "PUT" ∨ method = "PATCH") := by
    unfold shouldForwardBody
    by_cases h1 : method = "POST"
    · simp [h1]
    · by_cases h2 : method = "PUT"
      · simp [h2]
      · by_cases h3 : method = "PATCH"
        · simp [h3]
        · simp [h1, h2, h3]
  refine ⟨hiff, ?_⟩
  intro hn body
  have hf : shouldForwardBody method = false := by
    cases hsf : shouldForwardBody method
    · rfl
    · exact absurd (hiff.mp hsf) hn
  simp [readRequestBody, backendBody, hf]

/-- A GET request with a body: nothing is buffered; a POST request: the body is handed on. -/
theorem shouldForwardBody_iff_witness :
    (readRequestBody "GET" (some [1, 2, 3]) = [] ∧ backendBody "GET" (some [1, 2, 3]) = none) ∧
      backendBody "POST" (some [1, 2, 3]) = some [1, 2, 3] :=
  ⟨(shouldForwardBody_iff "GET").2 (by decide) (some [1, 2, 3]), by decide⟩

/-! ## Concat onto a non-sequence, nested paths, associativity, the gzip writer -/

/-- Claim C31: when a contributing response with concat key `K` is processed and the merged
result already holds a non-sequence value `e` under `K`, the loop continues with a result
whose value under `K` is the sequence `e` followed by the new contribution (the elements of
the transformed value when it is a sequence, otherwise the transformed value itself). -/
theorem Merge_concat_keeps_existing (total : Nat) (st : MergeState) (r : BackendResponse)
    (tl : List BackendResponse) (e : Value) (hr : r.contributes = true)
    (hK : r.Backend.Concat ≠ "") (he : mapGet r.Backend.Concat st.result = some e)
    (hne : e.isArr = false) :
    ∃ res : Fields,
      mergeLoop total st (r :: tl) =
        mergeLoop total ⟨res, st.allCompleted, st.successfulResponses + 1⟩ tl ∧
      mapGet r.Backend.Concat res =
        some (.arr (e :: contribution (Transform r.Data r.Backend))) := by
  obtain ⟨hE, hD⟩ := (contributes_iff r).mp hr
  refine ⟨_, mergeLoop_concat total st r tl hE hD hK, ?_⟩
  exact appendToArray_existing st.result r.Backend.Concat e _ he hne

theorem Merge_concat_keeps_existing_witness :
    (Merge [⟨plainBackend, .obj [("items", .str "single_item")], none⟩,
        ⟨concatBackend "items", .obj userFields, none⟩]).1 =
      .obj [("items", .arr [.str "single_item", .obj userFields])] ∧
    ∃ res : Fields,
      mergeLoop 2 ⟨[("items", .str "single_item")], true, 1⟩
          [⟨concatBackend "items", .obj userFields, none⟩] =
        mergeLoop 2 ⟨res, true, 2⟩ [] ∧
      mapGet "items" res =
        some (.arr (.str "single_item" ::
          contribution (Transform (.obj userFields) (concatBackend "items")))) :=
  ⟨rfl, Merge_concat_keeps_existing 2 ⟨[("items", .str "single_item")], true, 1⟩
    ⟨concatBackend "items", .obj userFields, none⟩ [] (.str "single_item") rfl (by decide) rfl
    rfl⟩

/-- Claim C32: allow-filtering copies nested dot-paths faithfully: for a mapping input, a
non-empty allow list in any order (paths may be prefixes of one another) and a path of the
allow list that resolves to a non-null value in the input, the path resolves to the same
value in the result of `ApplyFiltering`. -/
theorem ApplyFiltering_allow_nested (m : Fields) (allow deny : List String) (p : String)
    (hne : allow ≠ []) (hp : p ∈ allow) (hv : (GetNestedField m p).isNull = false) :
    ∃ r : Fields, ApplyFiltering (.obj m) allow deny = .obj r ∧
      GetNestedField r p = GetNestedField m p := by
  refine ⟨filterFields m allow deny, by rw [ApplyFiltering], ?_⟩
  have hlen : allow.length > 0 := List.length_pos.mpr hne
  unfold filterFields
  rw [if_pos hlen]
  exact allow_fold_sets m p hv allow hp [] (Or.inr (subFields_nil m))

theorem ApplyFiltering_allow_nested_witness :
    ApplyFiltering
        (.obj [("user", .obj [("name", .str "John"), ("age", .num 30)]), ("id", .num 1)])
        ["user.name", "user", "user.age"] ["user"] =
      .obj [("user", .obj [("name", .str "John"), ("age", .num 30)])] ∧
    ∃ r : Fields,
      ApplyFiltering
          (.obj [("user", .obj [("name", .str "John"), ("age", .num 30)]), ("id", .num 1)])
          ["user.name", "user", "user.age"] ["user"] = .obj r ∧
        GetNestedField r "user.name" =
          GetNestedField [("user", .obj [("name", .str "John"), ("age", .num 30)]),
            ("id", .num 1)] "user.name" :=
  ⟨rfl, ApplyFiltering_allow_nested _ ["user.name", "user", "user.age"] ["user"] "user.name"
    (by decide) (by decide) rfl⟩

/-- Claim C34: set never overwrites a conflicting prefix: when some proper prefix of the path
resolves, through mappings, to a present value that is not a mapping, `SetNestedField`
returns the mapping entirely unchanged. -/
theorem SetNestedField_conflict_unchanged (m : Fields) (p : String) (v : Value)
    (h : ∃ (pre : List String) (seg : String) (post : List String) (c : Fields) (u : Value),
      splitDots p = pre ++ seg :: post ∧ post ≠ [] ∧ walkMaps m pre = some c ∧
        mapGet seg c = some u ∧ u.isObj = false) :
    SetNestedField m p v = m := by
  obtain ⟨pre, seg, post, c, u, hp, hpost, hw, hs, hu⟩ := h
  unfold SetNestedField
  rw [hp]
  exact setNested_conflict v seg post hpost pre m c u hw hs hu

theorem SetNestedField_conflict_unchanged_witness :
    (∃ (pre : List String) (seg : String) (post : List String) (c : Fields) (u : Value),
      splitDots "a.b.c" = pre ++ seg :: post ∧ post ≠ [] ∧
        walkMaps [("a", .obj [("b", .num 5)]), ("z", .null)] pre = some c ∧
        mapGet seg c = some u ∧ u.isObj = false) ∧
    SetNestedField [("a", .obj [("b", .num 5)]), ("z", .null)] "a.b.c" (.str "x") =
      [("a", .obj [("b", .num 5)]), ("z", .null)] :=
  ⟨⟨["a"], "b", ["c"], [("b", .num 5)], .num 5, by decide, by simp, rfl, rfl, rfl⟩,
    SetNestedField_conflict_unchanged _ "a.b.c" (.str "x")
      ⟨["a"], "b", ["c"], [("b", .num 5)], .num 5, by decide, by simp, rfl, rfl, rfl⟩⟩

/-- Claim C35, as stated, fails when one map object is stored under two keys, as in the
result `ApplyMapping` hands to `SetNestedField`: with the same object under `name` and
under `user.name`, neither of `name.x` and `user.name.x` is a prefix of the other, and
the set at `name.x` changes what `user.name.x` resolves to, from nothing to the value
set. -/
theorem SetNestedField_siblings_shared_counterexample :
    sharedHeap.wf ∧ 0 < sharedHeap.next ∧
    sharedHeap.walk 0 ["name"] = some 2 ∧ sharedHeap.walk 0 ["user", "name"] = some 2 ∧
    ¬ splitDots "name.x" <+: splitDots "user.name.x" ∧
    ¬ splitDots "user.name.x" <+: splitDots "name.x" ∧
    sharedHeap.GetNestedField 0 "user.name.x" = .null ∧
    (sharedHeap.SetNestedField 0 "name.x" (.num 1)).GetNestedField 0 "user.name.x" =
      .num 1 :=
  ⟨sharedHeap_wf, by decide, rfl, rfl, by decide, by decide, rfl, rfl⟩

/-- Claim C35 (amended): set does not disturb sibling paths when no map object is shared:
for every mapping `m` in which no map object is reachable along two different paths, every
value `v` and dot-paths `p` and `q` whose segment lists are such that neither is a prefix
of the other, `GetNestedField` at `q` returns the same result after
`SetNestedField(m, p, v)` as before; when that result is a mapping, every path below `q`
resolves as before too. -/
theorem SetNestedField_siblings_unshared (h : Heap) (m : Nat) (v : HValue) (p q : String)
    (hwf : h.wf) (hm : m < h.next) (htree : h.TreeShaped m)
    (h1 : ¬ splitDots p <+: splitDots q) (h2 : ¬ splitDots q <+: splitDots p) :
    (h.SetNestedField m p v).GetNestedField m q = h.GetNestedField m q ∧
    ∀ t : List String,
      (h.SetNestedField m p v).getNested m (splitDots q ++ t) =
        h.getNested m (splitDots q ++ t) := by
  unfold Heap.SetNestedField Heap.GetNestedField
  refine ⟨hGetNested_setNested_sibling v _ h m _ hwf hm htree h1 h2, fun t => ?_⟩
  obtain ⟨h3, h4⟩ := sibling_append _ _ t h1 h2
  exact hGetNested_setNested_sibling v _ h m _ hwf hm htree h3 h4

theorem SetNestedField_siblings_unshared_witness :
    (chainHeap.wf ∧ 0 < chainHeap.next ∧ chainHeap.TreeShaped 0 ∧
      ¬ splitDots "user.contact.phone" <+: splitDots "user.personal.name" ∧
      ¬ splitDots "user.personal.name" <+: splitDots "user.contact.phone") ∧
    (chainHeap.SetNestedField 0 "user.contact.phone" (.str "123-456-7890")).GetNestedField 0
        "user.personal.name" = .str "Jane" ∧
    (chainHeap.SetNestedField 0 "user.contact.phone" (.str "123-456-7890")).GetNestedField 0
        "user.contact.phone" = .str "123-456-7890" ∧
    ((chainHeap.SetNestedField 0 "user.contact.phone" (.str "123-456-7890")).GetNestedField 0
        "user.personal.name" = chainHeap.GetNestedField 0 "user.personal.name" ∧
      ∀ t : List String,
        (chainHeap.SetNestedField 0 "user.contact.phone" (.str "123-456-7890")).getNested 0
            (splitDots "user.personal.name" ++ t) =
          chainHeap.getNested 0 (splitDots "user.personal.name" ++ t)) :=
  ⟨⟨chainHeap_wf, by decide, chainHeap_treeShaped, by decide, by decide⟩, rfl, rfl,
    SetNestedField_siblings_unshared chainHeap 0 (.str "123-456-7890") "user.contact.phone"
      "user.personal.name" chainHeap_wf (by decide) chainHeap_treeShaped (by decide)
      (by decide)⟩

/-- Claim C36: after `DeleteNestedField(m, p)` the path resolves to nothing; when every proper
prefix of `p` resolves to a mapping, the mapping reached loses exactly the terminal key and
every path that neither extends `p` nor is extended by it keeps what it resolved to; and
when some proper prefix does not resolve to a mapping, `m` is unchanged. -/
theorem DeleteNestedField_removes_terminal (m : Fields) (p : String) :
    (GetNestedField (DeleteNestedField m p) p).isNull = true ∧
    (∀ (pre : List String) (last : String) (cur : Fields), splitDots p = pre ++ [last] →
      walkMaps m pre = some cur →
        lookupPath (DeleteNestedField m p) (splitDots p) = none ∧
        walkMaps (DeleteNestedField m p) pre = some (mapDelete last cur) ∧
        ∀ q : List String, ¬ splitDots p <+: q → ¬ q <+: splitDots p →
          lookupPath (DeleteNestedField m p) q = lookupPath m q) ∧
    (∀ pre post : List String, splitDots p = pre ++ post → post ≠ [] →
      walkMaps m pre = none → DeleteNestedField m p = m) := by
  refine ⟨getNested_deleteNested_self (splitDots p) (splitDots_ne_nil p) m, ?_, ?_⟩
  · intro pre last cur hp hw
    unfold DeleteNestedField
    refine ⟨?_, ?_, fun q h1 h2 => lookupPath_deleteNested_sibling _ q m h1 h2⟩
    · rw [hp]
      exact lookupPath_deleteNested_terminal last pre m cur hw
    · rw [hp]
      exact walkMaps_deleteNested last pre m cur hw
  · intro pre post hp hpost hw
    unfold DeleteNestedField
    rw [hp]
    exact deleteNested_unresolved post hpost pre m hw

theorem DeleteNestedField_removes_terminal_witness :
    DeleteNestedField
        (DeleteNestedField
          [("user", .obj [("personal", .obj [("name", .str "John"), ("age", .num 30)]),
            ("contact", .obj [("email", .str "john@example.com")])])] "user.personal.age")
        "user.contact" =
      [("user", .obj [("personal", .obj [("name", .str "John")])])] ∧
    (GetNestedField
      (DeleteNestedField
        [("user", .obj [("personal", .obj [("name", .str "John"), ("age", .num 30)]),
          ("contact", .obj [("email", .str "john@example.com")])])] "user.personal.age")
      "user.personal.age").isNull = true :=
  ⟨rfl, (DeleteNestedField_removes_terminal _ "user.personal.age").1⟩

/-- Claim C37: deep-merge is not associative: there are mappings `a`, `b`, `c` for which merging
`c` into the merge of `b` into `a` differs from merging into `a` the merge of `c` into `b`. -/
theorem deepMerge_not_associative :
    ∃ a b c : Fields,
      mergeIntoResult (mergeIntoResult a (.obj b)) (.obj c) ≠
        mergeIntoResult a (.obj (mergeIntoResult b (.obj c))) := by
  refine ⟨[("k", .arr [.num 1])], [("k", .str "s")], [("k", .arr [.num 2])], ?_⟩
  have h1 : mergeIntoResult (mergeIntoResult [("k", .arr [.num 1])] (.obj [("k", .str "s")]))
      (.obj [("k", .arr [.num 2])]) = [("k", .arr [.num 2])] := rfl
  have h2 : mergeIntoResult [("k", .arr [.num 1])]
      (.obj (mergeIntoResult [("k", .str "s")] (.obj [("k", .arr [.num 2])]))) =
        [("k", .arr [.num 1, .num 2])] := rfl
  rw [h1, h2]
  intro h
  simp at h

/-- Claim C38 fails on the code where no body byte is written: a handler that calls
`WriteHeader(204)` and writes nothing leaves the underlying writer without any `WriteHeader`
call once the gzip response writer is closed, although the same handler on the unwrapped
writer passes 204 on; the same happens when every write is empty. -/
theorem gzip_status_lost_without_body :
    (((⟨⟨[], [], []⟩, none, false, compressionMinSize, [], 0, false⟩ :
        gzipResponseWriter).WriteHeader 204).Close).ResponseWriter.statusCodes = [] ∧
    (compressionMiddleware "gzip" [.writeHeader 204] ⟨[], [], []⟩).1.statusCodes = [] ∧
    (compressionMiddleware "gzip" [.writeHeader 204, .write [], .write []]
      ⟨[], [], []⟩).1.statusCodes = [] ∧
    (compressionMiddleware "identity" [.writeHeader 204] ⟨[], [], []⟩).1.statusCodes =
      [204] := by
  refine ⟨rfl, ?_, ?_, ?_⟩ <;> decide

/-- Claim C39: the gzip response writer forwards every body byte exactly once and in order: after
any handler actions and `Close`, either compression started and the gzip stream holds
exactly the concatenation of the written chunks while nothing was written to the underlying
writer directly, or it did not start and the underlying writer received exactly that
concatenation; and every `Write` reports the full length of its chunk. -/
theorem gzip_forwards_bytes (w : ResponseWriter) (minSize : Nat) (acts : List HandlerAction) :
    ((((acts.foldl gzipResponseWriter.act ⟨w, none, false, minSize, [], 0, false⟩).Close
          ).writer = some (writtenBytes acts) ∧
        ((acts.foldl gzipResponseWriter.act ⟨w, none, false, minSize, [], 0, false⟩).Close
          ).ResponseWriter.body = w.body) ∨
      (((acts.foldl gzipResponseWriter.act ⟨w, none, false, minSize, [], 0, false⟩).Close
          ).writer = none ∧
        ((acts.foldl gzipResponseWriter.act ⟨w, none, false, minSize, [], 0, false⟩).Close
          ).ResponseWriter.body = w.body ++ writtenBytes acts)) ∧
    ∀ (gzw : gzipResponseWriter) (data : List Nat), gzw.WriteCount data = data.length := by
  constructor
  · obtain ⟨hst, hbody⟩ := acts_bytes acts ⟨w, none, false, minSize, [], 0, false⟩ []
      (Or.inl ⟨rfl, rfl⟩)
    simp only [List.nil_append] at hst hbody
    generalize acts.foldl gzipResponseWriter.act ⟨w, none, false, minSize, [], 0, false⟩ = g
      at hst hbody
    obtain ⟨uw, wr, cl, ms, buf, code, hd⟩ := g
    simp only at hst hbody
    rw [← hbody]
    rcases hst with ⟨hw, hb⟩ | ⟨hw, hb⟩
    · right
      subst hw hb
      unfold gzipResponseWriter.Close
      by_cases hlen : (writtenBytes acts).length > 0
      · simp only [hlen, Option.isNone_none, and_self, if_true]
        refine ⟨trivial, ?_⟩
        split
        · split <;> rfl
        · rfl
      · have hnil : writtenBytes acts = [] := by
          cases hg : writtenBytes acts with
          | nil => rfl
          | cons x xs => simp [hg] at hlen
        simp [hnil]
    · left
      subst hw hb
      simp [gzipResponseWriter.Close]
  · intro gzw data
    simp [gzipResponseWriter.WriteCount]

theorem gzip_forwards_bytes_witness :
    ((compressionMiddleware "gzip" [.writeHeader 200, .write [1, 2], .write [3]]
        ⟨[], [], []⟩).1.body = [1, 2, 3]) ∧
    ((((([.writeHeader 200, .write [1, 2], .write [3]] : List HandlerAction).foldl
          gzipResponseWriter.act ⟨⟨[], [], []⟩, none, false, 2, [], 0, false⟩).Close
          ).writer = some (writtenBytes [.writeHeader 200, .write [1, 2], .write [3]]) ∧
        ((([.writeHeader 200, .write [1, 2], .write [3]] : List HandlerAction).foldl
          gzipResponseWriter.act ⟨⟨[], [], []⟩, none, false, 2, [], 0, false⟩).Close
          ).ResponseWriter.body = []) ∨
      (((([.writeHeader 200, .write [1, 2], .write [3]] : List HandlerAction).foldl
          gzipResponseWriter.act ⟨⟨[], [], []⟩, none, false, 2, [], 0, false⟩).Close
          ).writer = none ∧
        ((([.writeHeader 200, .write [1, 2], .write [3]] : List HandlerAction).foldl
          gzipResponseWriter.act ⟨⟨[], [], []⟩, none, false, 2, [], 0, false⟩).Close
          ).ResponseWriter.body = [] ++ writtenBytes [.writeHeader 200, .write [1, 2],
            .write [3]])) ∧
    ∀ (gzw : gzipResponseWriter) (data : List Nat), gzw.WriteCount data = data.length :=
  ⟨by decide, gzip_forwards_bytes ⟨[], [], []⟩ 2 [.writeHeader 200, .write [1, 2], .write [3]]⟩

end ApiAggregator
